import Mathlib

/-!
# DNS matrix multiplication (Kynesy/DNS_Variant): embedding and verification

The repository multiplies two `n x n` integer matrices on a 3-D mesh of MPI
processes.  This file embeds

* the C `int` arithmetic used on matrix elements,
* the part of the MPI library the programs call (Cartesian topologies,
  `MPI_Cart_sub`, `MPI_Comm_split`, scatter/gather, broadcast, reduce and
  `MPI_Sendrecv_replace`), as functions on the per-rank values of a variable,
* `dns.c`, `dnsVariant.c`, `seqMatrixMultiply.c`, `inOutUtils.c` and the
  entry points of `generateMatrix.c` and `printMatrix.c`,

and proves the properties stated for them.

Conventions.  A variable of the SPMD program (`localA`, `localB`, ...) is a
function from the rank of a process in `MPI_COMM_WORLD` to the value the
variable has on that process.  The Cartesian communicator is created with
`reorder = 0`, so a process keeps its world rank in it.  A collective
operation maps the per-rank values before the call to those after it; the
conditions under which MPI completes the call (valid root, matching sends and
receives) are checked separately and a violated condition makes the run fail
(`none`).
-/

namespace DNSVariant

/-! ## C `int` arithmetic on matrix elements -/

/-- Reduction of a mathematical integer to the range of a 32-bit two's
complement `int`: the value the hardware stores when an `int` operation
overflows. -/
def wrapInt (v : Int) : Int := (v + 2147483648) % 4294967296 - 2147483648

/-- The C expression `a + b` on `int`. -/
def intAdd (a b : Int) : Int := wrapInt (a + b)

/-- The C expression `a * b` on `int`. -/
def intMul (a b : Int) : Int := wrapInt (a * b)

/-- The assignment `a[idx] = v` on an `int*` buffer. -/
def arraySet (a : Nat → Int) (idx : Nat) (v : Int) : Nat → Int :=
  fun t => if t = idx then v else a t

/-- The elements `0 .. count-1` of a buffer, in order. -/
def toList (a : Nat → Int) (count : Nat) : List Int := (List.range count).map a

/-! ## seqMatrixMultiply.c -/

/-- Embedding of `sequentialMatrixMultiply` (seqMatrixMultiply.c, lines
115-124): the value of `matrixC` after the three nested loops. -/
def sequentialMatrixMultiply (matrixA matrixB matrixC : Nat → Int) (n : Nat) : Nat → Int :=
  (List.range n).foldl (fun C i =>
    (List.range n).foldl (fun C j =>
      (List.range n).foldl (fun C k =>
          arraySet C (i * n + j)
            (intAdd (C (i * n + j)) (intMul (matrixA (i * n + k)) (matrixB (k * n + j)))))
        (arraySet C (i * n + j) 0))
      C)
    matrixC

/-! ## The MPI operations used by the programs -/

/-- An `int[3]` array (`dims`, `coords`, `remaining_dims`). -/
structure Int3 where
  a0 : Nat
  a1 : Nat
  a2 : Nat
  deriving DecidableEq, Repr

/-- The read `v[i]`. -/
def Int3.get (v : Int3) (i : Nat) : Nat :=
  match i with
  | 0 => v.a0
  | 1 => v.a1
  | _ => v.a2

/-- The write `v[i] = x`. -/
def Int3.set (v : Int3) (i : Nat) (x : Nat) : Int3 :=
  match i with
  | 0 => { v with a0 := x }
  | 1 => { v with a1 := x }
  | _ => { v with a2 := x }

/-- The number of processes of a Cartesian grid. -/
def Int3.prod (v : Int3) : Nat := v.a0 * v.a1 * v.a2

/-- `MPI_Cart_rank`: ranks of a Cartesian communicator are row-major in the
coordinates, the last coordinate varying fastest. -/
def MPI_Cart_rank (dims coords : Int3) : Nat :=
  (coords.a0 * dims.a1 + coords.a1) * dims.a2 + coords.a2

/-- `MPI_Cart_coords`: the inverse of `MPI_Cart_rank`. -/
def MPI_Cart_coords (dims : Int3) (rank : Nat) : Int3 :=
  ⟨rank / (dims.a1 * dims.a2), rank / dims.a2 % dims.a1, rank % dims.a2⟩

/-- A communicator as seen by every process of the run: for the process of
world rank `r`, the size of its group, its own rank in the group, and the world
rank of the member that has a given rank in the group. -/
structure Comm where
  size : Nat → Nat
  rank : Nat → Nat
  member : Nat → Nat → Nat

/-- Extents of the sub-grid kept by `MPI_Cart_sub`; a dropped dimension counts
as an extent of one. -/
def keptDims (dims remain : Int3) : Int3 :=
  ⟨if remain.a0 ≠ 0 then dims.a0 else 1,
   if remain.a1 ≠ 0 then dims.a1 else 1,
   if remain.a2 ≠ 0 then dims.a2 else 1⟩

/-- Coordinates of a process inside its sub-grid. -/
def keptCoords (remain coords : Int3) : Int3 :=
  ⟨if remain.a0 ≠ 0 then coords.a0 else 0,
   if remain.a1 ≠ 0 then coords.a1 else 0,
   if remain.a2 ≠ 0 then coords.a2 else 0⟩

/-- Coordinates in the full grid of the sub-grid member `sub` of the sub-grid
that contains `own`. -/
def mergeCoords (remain sub own : Int3) : Int3 :=
  ⟨if remain.a0 ≠ 0 then sub.a0 else own.a0,
   if remain.a1 ≠ 0 then sub.a1 else own.a1,
   if remain.a2 ≠ 0 then sub.a2 else own.a2⟩

/-- `MPI_Cart_sub`: the grid is partitioned into the sub-grids that share the
coordinates of the dropped dimensions; ranks in a sub-grid are row-major in the
kept coordinates. -/
def MPI_Cart_sub (dims remain : Int3) : Comm where
  size := fun _ => (keptDims dims remain).prod
  rank := fun r =>
    MPI_Cart_rank (keptDims dims remain) (keptCoords remain (MPI_Cart_coords dims r))
  member := fun r s =>
    MPI_Cart_rank dims
      (mergeCoords remain (MPI_Cart_coords (keptDims dims remain) s) (MPI_Cart_coords dims r))

/-- The group a process ends up in after `MPI_Comm_split`: the members of its
parent group that passed the same colour, ordered by key. -/
def splitGroup (parent : Comm) (color key : Nat → Nat) (r : Nat) : List Nat :=
  List.insertionSort (fun a b => key a ≤ key b)
    (((List.range (parent.size r)).map (parent.member r)).filter
      (fun q => decide (color q = color r)))

/-- `MPI_Comm_split`. -/
def MPI_Comm_split (parent : Comm) (color key : Nat → Nat) : Comm where
  size := fun r => (splitGroup parent color key r).length
  rank := fun r => (splitGroup parent color key r).indexOf r
  member := fun r s => (splitGroup parent color key r).getD s 0

/-- Condition for `MPI_Bcast` to complete on all `p` processes: the root is a
rank of the group and all members of a group pass the same root. -/
def bcastValid (p : Nat) (comm : Comm) (root : Nat → Nat) : Bool :=
  (List.range p).all fun r =>
    decide (root r < comm.size r) &&
    (List.range (comm.size r)).all fun s => decide (root (comm.member r s) = root r)

/-- `MPI_Bcast` of one `int`: every process ends with the value the root of its
group held. -/
def MPI_Bcast (p : Nat) (comm : Comm) (root : Nat → Nat) (buf : Nat → Int) :
    Option (Nat → Int) :=
  if bcastValid p comm root then some (fun r => buf (comm.member r (root r))) else none

/-- Condition for a scatter or gather rooted at group rank 0 and called by the
processes selected by `active`: the root of every calling group is a process
that holds the full matrix, and the whole group takes part in the call. -/
def rootedValid (p : Nat) (comm : Comm) (active : Nat → Bool) (holder : Nat → Bool) : Bool :=
  (List.range p).all fun r =>
    !active r ||
      (holder (comm.member r 0) &&
        (List.range (comm.size r)).all fun s => active (comm.member r s))

/-- `MPI_Scatter` of one `int` per process from group rank 0: a calling process
receives the element of the root buffer at its own group rank; the variable of
a process that does not call keeps its value. -/
def MPI_Scatter (p : Nat) (comm : Comm) (active holder : Nat → Bool)
    (sendbuf : Nat → Int) (recvbuf : Nat → Int) : Option (Nat → Int) :=
  if rootedValid p comm active holder then
    some (fun r => if active r then sendbuf (comm.rank r) else recvbuf r)
  else none

/-- `MPI_Gather` of one `int` per process to group rank 0, as received by the
process `root`: element `s` of the receive buffer is the value sent by the
member of group rank `s`. -/
def MPI_Gather (p : Nat) (comm : Comm) (active holder : Nat → Bool) (root : Nat)
    (sendbuf : Nat → Int) : Option (List Int) :=
  if rootedValid p comm active holder && active root then
    some ((List.range (comm.size root)).map fun s => sendbuf (comm.member root s))
  else none

/-- The `MPI_SUM` of a non-empty sequence of `int` contributions. -/
def intSum (l : List Int) : Int :=
  match l with
  | [] => 0
  | v :: vs => vs.foldl intAdd v

/-- `MPI_Reduce` with `MPI_SUM` to group rank 0: the root of every group
receives the sum of the contributions of its group; the receive variable of
the other processes keeps its value. -/
def MPI_Reduce (comm : Comm) (sendbuf recvbuf : Nat → Int) : Nat → Int :=
  fun r =>
    if comm.rank r = 0 then
      intSum ((List.range (comm.size r)).map fun s => sendbuf (comm.member r s))
    else recvbuf r

/-- Condition for `MPI_Sendrecv_replace` to complete on all `p` processes:
destination and source are ranks of the group, the source of a process sends
to that process and its destination receives from it. -/
def sendrecvValid (p : Nat) (comm : Comm) (dest source : Nat → Int) : Bool :=
  (List.range p).all fun r =>
    decide (0 ≤ dest r) && decide (dest r < comm.size r) &&
    decide (0 ≤ source r) && decide (source r < comm.size r) &&
    decide (dest (comm.member r (source r).toNat) = comm.rank r) &&
    decide (source (comm.member r (dest r).toNat) = comm.rank r)

/-- `MPI_Sendrecv_replace` of one `int`: every process ends with the value its
source held. -/
def MPI_Sendrecv_replace (p : Nat) (comm : Comm) (dest source : Nat → Int)
    (buf : Nat → Int) : Option (Nat → Int) :=
  if sendrecvValid p comm dest source then
    some (fun r => buf (comm.member r (source r).toNat))
  else none

/-- The values of the local variables of `main` on every process. -/
structure Locals where
  localA : Nat → Int
  localB : Nat → Int
  localC : Nat → Int
  finalC : Nat → Int

/-! ## dns.c -/

namespace Dns

/-- The macro `X` of dns.c. -/
def X : Nat := 1
/-- The macro `Y` of dns.c. -/
def Y : Nat := 2
/-- The macro `Z` of dns.c. -/
def Z : Nat := 0

/-- The `struct Communicators` of dns.c, together with the coordinates every
process obtains from `MPI_Cart_coords`. -/
structure Communicators where
  commXYplanes : Comm
  commYZplanes : Comm
  commZXplanes : Comm
  commXsingleDim : Comm
  commYsingleDim : Comm
  commZsingleDim : Comm
  coords : Nat → Int3

/-- The array `remaining_dims` after the three assignments that precede a call
of `MPI_Cart_sub`. -/
def remaining (x y z : Nat) : Int3 :=
  (((Int3.mk 0 0 0).set X x).set Y y).set Z z

/-- Embedding of `createCommunicators` (dns.c, lines 145-180).  The call of
`MPI_Cart_create` succeeds on every process only if the grid has exactly `p`
processes: with fewer, the processes left out receive `MPI_COMM_NULL` and fail
in `MPI_Comm_rank`. -/
def createCommunicators (p : Nat) (dims : Int3) : Option Communicators :=
  if dims.prod = p then
    some
      { commXYplanes := MPI_Cart_sub dims (remaining 1 1 0)
        commYZplanes := MPI_Cart_sub dims (remaining 0 1 1)
        commZXplanes := MPI_Cart_sub dims (remaining 1 0 1)
        commXsingleDim := MPI_Cart_sub dims (remaining 1 0 0)
        commYsingleDim := MPI_Cart_sub dims (remaining 0 1 0)
        commZsingleDim := MPI_Cart_sub dims (remaining 0 0 1)
        coords := MPI_Cart_coords dims }
  else none

/-- The array `dims` built in `main` (dns.c, lines 76-79). -/
def gridDims (p n : Nat) : Int3 :=
  (((Int3.mk 0 0 0).set X n).set Y n).set Z (p / (n * n))

/-- The scatter of dns.c (lines 88-89): called by the processes with
`cartCoords[Z] == 0` on `commXYplanes`, with root 0; only the process of world
rank 0 holds the matrix. -/
def scatter (p : Nat) (comms : Communicators) (matrix : Nat → Int) (recv : Nat → Int) :
    Option (Nat → Int) :=
  MPI_Scatter p comms.commXYplanes (fun r => decide ((comms.coords r).get Z = 0))
    (fun r => decide (r = 0)) matrix recv

/-- The gather of dns.c (lines 119-121): called by the processes with
`cartCoords[Z] == 0` on `commXYplanes`, with root 0; the value is the content
of `matrixC` on world rank 0. -/
def gather (p : Nat) (comms : Communicators) (finalC : Nat → Int) : Option (List Int) :=
  MPI_Gather p comms.commXYplanes (fun r => decide ((comms.coords r).get Z = 0))
    (fun r => decide (r = 0)) 0 finalC

/-- Lines 84-107 of dns.c: scatter of A and B over the plane `Z = 0`,
replication along Z, and the two broadcasts rooted at the rank `cartCoords[Z]`.
Only the process of rank 0 holds the matrices. -/
def distribute (p : Nat) (comms : Communicators) (matrixA matrixB : Nat → Int)
    (s : Locals) : Option Locals := do
  let a1 ← scatter p comms matrixA s.localA
  let b1 ← scatter p comms matrixB s.localB
  let a2 ← MPI_Bcast p comms.commZsingleDim (fun _ => 0) a1
  let b2 ← MPI_Bcast p comms.commZsingleDim (fun _ => 0) b1
  let a3 ← MPI_Bcast p comms.commYsingleDim (fun r => (comms.coords r).get Z) a2
  let b3 ← MPI_Bcast p comms.commXsingleDim (fun r => (comms.coords r).get Z) b2
  pure { s with localA := a3, localB := b3 }

/-- Lines 110-114 of dns.c: the local product and its reduction along Z. -/
def multiplyReduce (comms : Communicators) (s : Locals) : Locals :=
  let c := fun r => intMul (s.localA r) (s.localB r)
  { s with localC := c, finalC := MPI_Reduce comms.commZsingleDim c s.finalC }

/-- Lines 75-121 of dns.c: from the matrices held by rank 0 to the content of
`matrixC` on rank 0 after the gather.  `init` is the content of the
uninitialised local variables. -/
def compute (p n : Nat) (matrixA matrixB : Nat → Int) (init : Locals) :
    Option (List Int) := do
  let comms ← createCommunicators p (gridDims p n)
  let s ← distribute p comms matrixA matrixB init
  let t := multiplyReduce comms s
  gather p comms t.finalC

end Dns

/-- The matrix with 2 on the diagonal and 1 elsewhere (identity plus ones). -/
def identityPlusOnes (n : Nat) : Nat → Int := fun t => if t / n = t % n then 2 else 1

/-- A content for the uninitialised variables, used to instantiate theorems. -/
def junkLocals : Locals := ⟨fun r => 1000 + r, fun r => 2000 + r, fun r => 3000 + r, fun r => 4000 + r⟩

/-- The matrix whose only non-zero element is a 1 at linear index `idx`. -/
def unitAt (idx : Nat) : Nat → Int := fun t => if t = idx then 1 else 0

/-! ## dnsVariant.c -/

namespace Variant

/-- The macro `X` of dnsVariant.c. -/
def X : Nat := 2
/-- The macro `Y` of dnsVariant.c. -/
def Y : Nat := 1
/-- The macro `Z` of dnsVariant.c. -/
def Z : Nat := 0

/-- The `struct Communicators` of dnsVariant.c, together with the rank and the
coordinates every process obtains from `MPI_Comm_rank` and `MPI_Cart_coords`. -/
structure Communicators where
  commXYplanes : Comm
  commYZplanes : Comm
  commZXplanes : Comm
  commXsingleDim : Comm
  commYsingleDim : Comm
  commZsingleDim : Comm
  commSubMatrixX : Comm
  commSubMatrixY : Comm
  cartRank : Nat → Nat
  coords : Nat → Int3

/-- The `AdjacentCells` struct: ranks of the four ring neighbours. -/
structure AdjacentCells where
  up : Int
  down : Int
  left : Int
  right : Int
  deriving DecidableEq, Repr

/-- Embedding of `findAdjacentCells` (dnsVariant.c, lines 315-340).  `/` and `%`
of C truncate towards zero. -/
def findAdjacentCells (index n m distX distY : Int) : AdjacentCells :=
  let sm_size := Int.tdiv n m
  let x := Int.tmod index n
  let y := Int.tdiv index n
  let sub_x := Int.tdiv x sm_size * sm_size
  let sub_y := Int.tdiv y sm_size * sm_size
  let up_x := x
  let up_y := Int.tmod (y - distY + sm_size) sm_size + sub_y
  let down_x := x
  let down_y := Int.tmod (y + distY) sm_size + sub_y
  let left_x := Int.tmod (x - distX + sm_size) sm_size + sub_x
  let left_y := y
  let right_x := Int.tmod (x + distX) sm_size + sub_x
  let right_y := y
  { up := up_y * n + up_x
    down := down_y * n + down_x
    left := left_y * n + left_x
    right := right_y * n + right_x }

/-- The array `remaining_dims` after the three assignments that precede a call
of `MPI_Cart_sub`. -/
def remaining (x y z : Nat) : Int3 :=
  (((Int3.mk 0 0 0).set X x).set Y y).set Z z

/-- Embedding of `createCommunicators` (dnsVariant.c, lines 257-298).  As in
dns.c the Cartesian grid must have exactly `p` processes.  The Cartesian
communicator keeps the world ranks, so `cartRank` is the world rank. -/
def createCommunicators (p : Nat) (dims : Int3) (discriminanteColore : Nat) :
    Option Communicators :=
  if dims.prod = p then
    let coords := MPI_Cart_coords dims
    let cartRank := fun r : Nat => r
    let commXsingleDim := MPI_Cart_sub dims (remaining 1 0 0)
    let commYsingleDim := MPI_Cart_sub dims (remaining 0 1 0)
    some
      { commXYplanes := MPI_Cart_sub dims (remaining 1 1 0)
        commYZplanes := MPI_Cart_sub dims (remaining 0 1 1)
        commZXplanes := MPI_Cart_sub dims (remaining 1 0 1)
        commXsingleDim := commXsingleDim
        commYsingleDim := commYsingleDim
        commZsingleDim := MPI_Cart_sub dims (remaining 0 0 1)
        commSubMatrixX :=
          MPI_Comm_split commXsingleDim (fun r => (coords r).get X % discriminanteColore) cartRank
        commSubMatrixY :=
          MPI_Comm_split commYsingleDim (fun r => (coords r).get Y % discriminanteColore) cartRank
        cartRank := cartRank
        coords := coords }
  else none

/-- The array `dims` built in `main` (dnsVariant.c, lines 155-158). -/
def gridDims (n m : Nat) : Int3 :=
  (((Int3.mk 0 0 0).set X n).set Y n).set Z m

/-- The scatter of dnsVariant.c (lines 165-168): called by the processes with
`cartCoords[Z] == 0` on `commXYplanes`, with root 0; only the process of world
rank 0 holds the matrix. -/
def scatter (p : Nat) (comms : Communicators) (matrix : Nat → Int) (recv : Nat → Int) :
    Option (Nat → Int) :=
  MPI_Scatter p comms.commXYplanes (fun r => decide ((comms.coords r).get Z = 0))
    (fun r => decide (r = 0)) matrix recv

/-- The gather of dnsVariant.c (lines 222-224): called by the processes with
`cartCoords[Z] == 0` on `commXYplanes`, with root 0; the value is the content
of `matrixC` on world rank 0. -/
def gather (p : Nat) (comms : Communicators) (finalC : Nat → Int) : Option (List Int) :=
  MPI_Gather p comms.commXYplanes (fun r => decide ((comms.coords r).get Z = 0))
    (fun r => decide (r = 0)) 0 finalC

/-- Lines 163-189 of dnsVariant.c: scatter of A and B over the plane `Z = 0`,
replication along Z, and the broadcasts over the sub-block groups rooted at
the rank `cartCoords[Z]`. -/
def distribute (p : Nat) (comms : Communicators) (matrixA matrixB : Nat → Int)
    (s : Locals) : Option Locals := do
  let a1 ← scatter p comms matrixA s.localA
  let b1 ← scatter p comms matrixB s.localB
  let a2 ← MPI_Bcast p comms.commZsingleDim (fun _ => 0) a1
  let b2 ← MPI_Bcast p comms.commZsingleDim (fun _ => 0) b1
  let a3 ← MPI_Bcast p comms.commSubMatrixX (fun r => (comms.coords r).get Z) a2
  let b3 ← MPI_Bcast p comms.commSubMatrixY (fun r => (comms.coords r).get Z) b2
  pure { s with localA := a3, localB := b3 }

/-- Lines 192-201 of dnsVariant.c: the initial alignment.  A is sent to the
left neighbour and received from the right one at distance `rigaSubMatrix`;
B is sent up and received from below at distance `colonnaSubMatrix`. -/
def skew (p n m : Nat) (comms : Communicators) (s : Locals) : Option Locals := do
  let planeRank := comms.commXYplanes.rank
  let rigaSubMatrix := fun r => (comms.coords r).get Y % (n / m)
  let colonnaSubMatrix := fun r => (comms.coords r).get X % (n / m)
  let adj := fun r =>
    findAdjacentCells (planeRank r) n m (rigaSubMatrix r) (colonnaSubMatrix r)
  let a ← MPI_Sendrecv_replace p comms.commXYplanes (fun r => (adj r).left)
    (fun r => (adj r).right) s.localA
  let b ← MPI_Sendrecv_replace p comms.commXYplanes (fun r => (adj r).up)
    (fun r => (adj r).down) s.localB
  pure { s with localA := a, localB := b }

/-- One iteration of the loop of lines 204-209 of dnsVariant.c: accumulate the
product, then send A to the right neighbour and B to the lower one, receiving
from the left and from above. -/
def shiftStep (p n m : Nat) (comms : Communicators) (s : Locals) : Option Locals := do
  let planeRank := comms.commXYplanes.rank
  let c := fun r => intAdd (s.localC r) (intMul (s.localA r) (s.localB r))
  let adj := fun r => findAdjacentCells (planeRank r) n m 1 1
  let a ← MPI_Sendrecv_replace p comms.commXYplanes (fun r => (adj r).right)
    (fun r => (adj r).left) s.localA
  let b ← MPI_Sendrecv_replace p comms.commXYplanes (fun r => (adj r).down)
    (fun r => (adj r).up) s.localB
  pure { s with localA := a, localB := b, localC := c }

/-- The loop `for(int i=0; i<n/m; i++)` of dnsVariant.c run for `iters`
iterations. -/
def shiftLoop (p n m : Nat) (comms : Communicators) (iters : Nat) (s : Locals) :
    Option Locals :=
  (List.range iters).foldlM (fun s _ => shiftStep p n m comms s) s

/-- Lines 179-209 of dnsVariant.c after the communicators exist: the values of
the local variables when the loop has ended.  `localC` is initialised to 0. -/
def accumulate (p n m : Nat) (comms : Communicators) (matrixA matrixB : Nat → Int)
    (init : Locals) : Option Locals := do
  let s ← distribute p comms matrixA matrixB { init with localC := fun _ => 0 }
  let t ← skew p n m comms s
  shiftLoop p n m comms (n / m) t

/-- Lines 154-224 of dnsVariant.c: from the matrices held by rank 0 to the
content of `matrixC` on rank 0 after the gather, for `m = p/(n*n)`.  `init` is
the content of the uninitialised local variables. -/
def compute (p n : Nat) (matrixA matrixB : Nat → Int) (init : Locals) :
    Option (List Int) := do
  let m := p / (n * n)
  let comms ← createCommunicators p (gridDims n m) (n / m)
  let u ← accumulate p n m comms matrixA matrixB init
  let finalC := MPI_Reduce comms.commZsingleDim u.localC u.finalC
  gather p comms finalC

end Variant

/-! ## Auxiliary functions for stating lemmas on the ring exchange -/

/-- The coordinate `d` places further along the ring of size `sm` that contains
coordinate `c`: the value `(c + d) % sm + c / sm * sm` computed by
`findAdjacentCells` for `down` and `right`. -/
def ringFwd (sm c d : Nat) : Nat := (c + d) % sm + c / sm * sm

/-- The coordinate `d` places back along the ring of size `sm` that contains
coordinate `c`: the value `(c - d + sm) % sm + c / sm * sm` computed by
`findAdjacentCells` for `up` and `left`. -/
def ringBwd (sm c d : Nat) : Nat := (c + sm - d) % sm + c / sm * sm

/-- The offset, inside depth slice `z`, of the contraction index the process at
row `y` and column `x` holds after `t` iterations of the shift loop. -/
def cannonIndex (sm x y t : Nat) : Nat := (x % sm + y % sm + (sm - t)) % sm

/-- The loop invariant of dnsVariant.c after `t` iterations: the process at
`(z, y, x)` holds the operands of contraction index `z*sm + cannonIndex sm x y t`
and has accumulated the products of the `t` indices it held before. -/
def CannonInv (m sm : Nat) (A B : Nat → Int) (t : Nat) (u : Locals) : Prop :=
  ∀ z y x, z < m → y < m * sm → x < m * sm →
    u.localA ((z * (m * sm) + y) * (m * sm) + x)
      = A (y * (m * sm) + (cannonIndex sm x y t + z * sm)) ∧
    u.localB ((z * (m * sm) + y) * (m * sm) + x)
      = B ((cannonIndex sm x y t + z * sm) * (m * sm) + x) ∧
    u.localC ((z * (m * sm) + y) * (m * sm) + x)
      = wrapInt (∑ i ∈ Finset.range t,
          A (y * (m * sm) + (cannonIndex sm x y i + z * sm))
            * B ((cannonIndex sm x y i + z * sm) * (m * sm) + x))

/-! ## inOutUtils.c: matrix files -/

/-- The files of the working directory: the content of an existing file is
its sequence of bytes, a byte being a natural number read modulo 256. -/
abbrev FileSys := String → Option (List Nat)

/-- Byte `t` of the object representation of an `int`: 32 bits in two's
complement, the least significant byte first (`sizeof(int)` is 4). -/
def intByte (v : Int) (t : Nat) : Nat := (v % 4294967296).toNat / 256 ^ t % 256

/-- The `int` whose object representation is the bytes `b0 b1 b2 b3`. -/
def bytesInt (b0 b1 b2 b3 : Nat) : Int :=
  wrapInt ((b0 % 256 + 256 * (b1 % 256) + 65536 * (b2 % 256) + 16777216 * (b3 % 256) : Nat) : Int)

/-- The conversion of an `int` to the 64-bit unsigned type `size_t`. -/
def toSizeT (v : Int) : Nat := (v % 18446744073709551616).toNat

/-- The argument `n*n` of `fread` and `fwrite` (inOutUtils.c, lines 64 and
87): the product is computed in `int` and converted to `size_t`. -/
def itemCount (n : Int) : Nat := toSizeT (intMul n n)

/-- The number of bytes `fread(matrix, sizeof(int), count, file)` transfers
from a file just opened: those of `count` items, or the whole file when it is
shorter. -/
def freadBytes (count : Nat) (content : List Nat) : Nat := min (4 * count) content.length

/-- Byte `j` of the buffer after `fread(matrix, sizeof(int), count, file)`:
the transferred bytes are stored from the start of the buffer, the last of
them possibly filling only a part of an element. -/
def freadByte (matrix : Nat → Int) (count : Nat) (content : List Nat) (j : Nat) : Nat :=
  if j < freadBytes count content then content.getD j 0 else intByte (matrix (j / 4)) (j % 4)

/-- The buffer after `fread(matrix, sizeof(int), count, file)` on a file just
opened. -/
def fread (matrix : Nat → Int) (count : Nat) (content : List Nat) : Nat → Int := fun i =>
  if freadBytes count content ≤ 4 * i then matrix i
  else bytesInt (freadByte matrix count content (4 * i)) (freadByte matrix count content (4 * i + 1))
    (freadByte matrix count content (4 * i + 2)) (freadByte matrix count content (4 * i + 3))

/-- The bytes `fwrite(matrix, sizeof(int), count, file)` hands to the file:
the object representations of the elements `0 .. count-1`, in order. -/
def matrixBytes (matrix : Nat → Int) (count : Nat) : List Nat :=
  (List.range (4 * count)).map fun j => intByte (matrix (j / 4)) (j % 4)

/-- Embedding of `readMatrixFromFile` (inOutUtils.c, lines 58-68): the returned
status and the buffer after the call.  `fopen(filename, "rb")` fails when the
file does not exist; the result of `fread` is not looked at. -/
def readMatrixFromFile (fs : FileSys) (matrix : Nat → Int) (n : Int) (filename : String) :
    Int × (Nat → Int) :=
  match fs filename with
  | none => (1, matrix)
  | some content => (0, fread matrix (itemCount n) content)

/-- Embedding of `writeMatrixToFile` (inOutUtils.c, lines 81-90): the returned
status and the files after the call.  `writable` tells whether
`fopen(filename, "wb")` succeeds, which empties the file; `room` is the number
of bytes the file can take before `fwrite` or the flush of `fclose` fails.  The
results of `fwrite` and `fclose` are not looked at: the status is 0 also when
fewer bytes are stored. -/
def writeMatrixToFile (fs : FileSys) (writable : String → Bool) (room : Nat)
    (matrix : Nat → Int) (n : Int) (filename : String) : Int × FileSys :=
  if writable filename then
    (0, fun f => if f = filename then some ((matrixBytes matrix (itemCount n)).take room)
      else fs f)
  else (1, fs)

/-! ## The entry points -/

/-- What a run of an entry point depends on besides the program. -/
structure Env where
  /-- The argument count `argc`. -/
  argc : Int
  /-- The number of processes of `MPI_COMM_WORLD` (distributed entry points),
  the value of the `int` variable `p`. -/
  p : Int
  /-- The value of the `int` variable that receives the result of
  `strtol`/`atoi` for `argv[1]`. -/
  n : Int
  /-- The argument `argv[2]` (printMatrix). -/
  filename : String
  /-- Whether the calls of `malloc` return a buffer. -/
  mallocOk : Bool
  /-- The files before the run. -/
  fs : FileSys
  /-- Whether a file can be opened for writing. -/
  writable : String → Bool
  /-- The number of bytes a file can take when it is written. -/
  diskRoom : String → Nat
  /-- The values `generateMatrix` stores in `matrixA`. -/
  randA : Nat → Int
  /-- The values `generateMatrix` stores in `matrixB`. -/
  randB : Nat → Int
  /-- The content of a buffer returned by `malloc`. -/
  junkBuf : Nat → Int
  /-- The content of the uninitialised local variables of the processes. -/
  junk : Locals
  /-- The variable `p` is an `int`. -/
  p_range : -2147483648 ≤ p ∧ p < 2147483648 := by decide
  /-- The variable `n` is an `int`. -/
  n_range : -2147483648 ≤ n ∧ n < 2147483648 := by decide

/-- How a run ends. -/
inductive Outcome where
  /-- The value `main` returns. -/
  | exit (code : Int)
  /-- The run is ended by `MPI_Abort(MPI_COMM_WORLD, code)`. -/
  | abort (code : Int)
  /-- An integer division by zero or an access through a null pointer. -/
  | fault
  /-- An MPI call fails and the default error handler ends the run. -/
  | mpiError
  deriving DecidableEq, Repr

/-- How the part of a distributed `main` that precedes the call of
`createCommunicators` ends on rank 0, the process that makes the checks.  The
checks of the argument count and of the divisibility precede a barrier that
rank 0 then never enters, so that no process passes it. -/
inductive Startup where
  /-- The run is ended by `MPI_Abort(MPI_COMM_WORLD, code)`. -/
  | abort (code : Int)
  /-- An integer division by zero. -/
  | fault
  /-- The call `createCommunicators(comms, dims, ...)` is reached with
  `dims[0..2]` and, in dnsVariant.c, the argument `discriminanteColore`. -/
  | callsCreateCommunicators (dims0 dims1 dims2 : Int) (discriminanteColore : Option Int)
  deriving DecidableEq, Repr

/-- The buffer whose first elements are those of a list. -/
def ofList (l : List Int) : Nat → Int := fun i => l.getD i 0

namespace Dns

/-- Lines 41-82 of dns.c: every process aborts on a wrong argument count,
rank 0 allocates and generates the matrices, every process computes
`dims[Z] = p/(n*n)`, the product `n*n` being an `int`.  No check of the
configuration is made. -/
def startup (e : Env) : Startup :=
  if e.argc ≠ 2 then .abort 1
  else if !e.mallocOk then .abort 2
  else if intMul e.n e.n = 0 then .fault
  else .callsCreateCommunicators (Int.tdiv e.p (intMul e.n e.n)) e.n e.n none

/-- Embedding of `main` of dns.c. -/
def main (e : Env) : Outcome :=
  match startup e with
  | .abort code => .abort code
  | .fault => .fault
  | .callsCreateCommunicators _ _ _ _ =>
    match compute e.p.toNat e.n.toNat e.randA e.randB e.junk with
    | none => .mpiError
    | some C =>
      if (writeMatrixToFile e.fs e.writable (e.diskRoom "matrixC_dns.bin") (ofList C) e.n
          "matrixC_dns.bin").1 ≠ 0 then .abort 3
      else .exit 0

end Dns

namespace Variant

/-- Lines 107-161 of dnsVariant.c: rank 0 aborts on a wrong argument count and
on `n % m != 0` for `m = p/(n*n)`, the other processes waiting in the barriers
of lines 117 and 129; rank 0 then allocates and reads the matrices.  Both
`p/(n*n)` and `n % m` are evaluated by every process without a test of the
divisor, the product `n*n` being an `int`. -/
def startup (e : Env) : Startup :=
  if e.argc ≠ 2 then .abort 1
  else if intMul e.n e.n = 0 then .fault
  else if Int.tdiv e.p (intMul e.n e.n) = 0 then .fault
  else if Int.tmod e.n (Int.tdiv e.p (intMul e.n e.n)) ≠ 0 then .abort 1
  else if !e.mallocOk then .abort 2
  else if (readMatrixFromFile e.fs e.junkBuf e.n "matrixA.bin").1 ≠ 0
      ∨ (readMatrixFromFile e.fs e.junkBuf e.n "matrixB.bin").1 ≠ 0 then .abort 3
  else .callsCreateCommunicators (Int.tdiv e.p (intMul e.n e.n)) e.n e.n
    (some (Int.tdiv e.n (Int.tdiv e.p (intMul e.n e.n))))

/-- Embedding of `main` of dnsVariant.c. -/
def main (e : Env) : Outcome :=
  match startup e with
  | .abort code => .abort code
  | .fault => .fault
  | .callsCreateCommunicators _ _ _ _ =>
    match compute e.p.toNat e.n.toNat
        (readMatrixFromFile e.fs e.junkBuf e.n "matrixA.bin").2
        (readMatrixFromFile e.fs e.junkBuf e.n "matrixB.bin").2 e.junk with
    | none => .mpiError
    | some C =>
      if (writeMatrixToFile e.fs e.writable (e.diskRoom "matrixC_dnsVariant.bin") (ofList C) e.n
          "matrixC_dnsVariant.bin").1 ≠ 0 then .abort 3
      else .exit 0

end Variant

/-- Two files holding the `2 x 2` operands `[2, 1, 1, 2]` and `[0, 1, 1, 0]`. -/
def sampleFiles : FileSys := fun f =>
  if f = "matrixA.bin" then some [2, 0, 0, 0, 1, 0, 0, 0, 1, 0, 0, 0, 2, 0, 0, 0]
  else if f = "matrixB.bin" then some [0, 0, 0, 0, 1, 0, 0, 0, 1, 0, 0, 0, 0, 0, 0, 0]
  else none

/-- A run with correct arguments on four processes for `n = 2`. -/
def sampleEnv : Env :=
  { argc := 2, p := 4, n := 2, filename := "matrixA.bin", mallocOk := true,
    fs := sampleFiles, writable := fun _ => true, diskRoom := fun _ => 4096,
    randA := identityPlusOnes 2, randB := unitAt 3,
    junkBuf := fun _ => 0, junk := junkLocals }

/-- Five processes for `n = 2`: `m = 5/4 = 1` and `p != n*n*m`. -/
def mismatchEnv : Env := { sampleEnv with p := 5, p_range := by decide }

/-- Eighteen processes for `n = 3`: `m = 2` and `n % m != 0`. -/
def indivisibleEnv : Env :=
  { sampleEnv with p := 18, n := 3, p_range := by decide, n_range := by decide }

/-- Embedding of `sequentialMatrixMultiply` (seqMatrixMultiply.c, lines
115-124) on the memory of the process: `mem` maps an address, counted in
`int` cells, to its content, and `matrixA`, `matrixB`, `matrixC` are the
addresses the three pointers hold.  The value is the memory after the call. -/
def sequentialMatrixMultiplyMem (mem : Nat → Int) (matrixA matrixB matrixC : Nat) (n : Nat) :
    Nat → Int :=
  (List.range n).foldl (fun M i =>
    (List.range n).foldl (fun M j =>
      (List.range n).foldl (fun M k =>
          arraySet M (matrixC + (i * n + j))
            (intAdd (M (matrixC + (i * n + j)))
              (intMul (M (matrixA + (i * n + k))) (M (matrixB + (k * n + j))))))
        (arraySet M (matrixC + (i * n + j)) 0))
      M)
    mem

/-- A file holding the three integers 7, 8, 9, and a file holding the integer
7 followed by two more bytes. -/
def shortFiles : FileSys := fun f =>
  if f = "matrixA.bin" then some [7, 0, 0, 0, 8, 0, 0, 0, 9, 0, 0, 0]
  else if f = "trailing.bin" then some [7, 0, 0, 0, 8, 0]
  else none

/-- A memory holding `A = [[2,1],[1,2]]` at address 0, `B = [[0,1],[1,0]]` at
address 4 and a result matrix with arbitrary content at address 8. -/
def sampleMemory : Nat → Int := fun t => [2, 1, 1, 2, 0, 1, 1, 0, 99, -5, 99, 99].getD t 0

namespace Variant

/-- The neighbours the process of plane rank `P` computes for the initial
alignment (dnsVariant.c, lines 197-199): `distX` is its row modulo `n/m` and
`distY` its column modulo `n/m`, the row and column of a plane rank being
`P / n` and `P % n`. -/
def skewAdj (n m P : Int) : AdjacentCells :=
  findAdjacentCells P n m (Int.tmod (Int.tdiv P n) (Int.tdiv n m))
    (Int.tmod (Int.tmod P n) (Int.tdiv n m))

/-- The neighbours the process of plane rank `P` computes in an iteration of
the loop (dnsVariant.c, line 206): both distances are 1. -/
def stepAdj (n m P : Int) : AdjacentCells := findAdjacentCells P n m 1 1

end Variant

/-! ## Arithmetic of `int` -/

theorem wrapInt_wrapInt (a : Int) : wrapInt (wrapInt a) = wrapInt a := by
  unfold wrapInt; omega

theorem wrapInt_add_left (a b : Int) : wrapInt (wrapInt a + b) = wrapInt (a + b) := by
  unfold wrapInt; omega

theorem wrapInt_add_right (a b : Int) : wrapInt (a + wrapInt b) = wrapInt (a + b) := by
  unfold wrapInt; omega

theorem wrapInt_of_range (a : Int) (h1 : -2147483648 ≤ a) (h2 : a < 2147483648) :
    wrapInt a = a := by
  unfold wrapInt; omega

theorem wrapInt_range (a : Int) : -2147483648 ≤ wrapInt a ∧ wrapInt a < 2147483648 := by
  unfold wrapInt; omega

theorem wrapInt_modEq (a : Int) : wrapInt a ≡ a [ZMOD 4294967296] := by
  have h : wrapInt a = a - 4294967296 * ((a + 2147483648) / 4294967296) := by
    unfold wrapInt; omega
  rw [h]
  exact Int.modEq_iff_dvd.mpr ⟨(a + 2147483648) / 4294967296, by ring⟩

theorem wrapInt_congr {a b : Int} (h : a ≡ b [ZMOD 4294967296]) : wrapInt a = wrapInt b := by
  have h2 : (a + 2147483648) % 4294967296 = (b + 2147483648) % 4294967296 :=
    Int.ModEq.add_right _ h
  unfold wrapInt
  rw [h2]

theorem wrapInt_mul (a b : Int) : wrapInt (wrapInt a * wrapInt b) = wrapInt (a * b) :=
  wrapInt_congr (Int.ModEq.mul (wrapInt_modEq a) (wrapInt_modEq b))

theorem foldl_intAdd (vs : List Int) (v : Int) (hv : wrapInt v = v) :
    vs.foldl intAdd v = wrapInt (v + vs.sum) := by
  induction vs generalizing v with
  | nil => simp [hv]
  | cons a vs ih =>
    show List.foldl intAdd (wrapInt (v + a)) vs = _
    rw [ih _ (wrapInt_wrapInt _), List.sum_cons, wrapInt_add_left, add_assoc]

theorem wrapInt_sum_map (h : Nat → Int) (l : List Nat) :
    wrapInt ((l.map fun k => wrapInt (h k)).sum) = wrapInt ((l.map h).sum) := by
  induction l with
  | nil => rfl
  | cons a l ih =>
    simp only [List.map_cons, List.sum_cons]
    rw [wrapInt_add_left, ← wrapInt_add_right, ih, wrapInt_add_right]

theorem list_sum_range (f : Nat → Int) (m : Nat) :
    ((List.range m).map f).sum = ∑ k ∈ Finset.range m, f k := by
  induction m with
  | zero => rfl
  | succ m ih => rw [List.sum_range_succ, Finset.sum_range_succ, ih]

/-- The `MPI_SUM` of the `m >= 1` products `h 0, ..., h (m-1)` computed in
`int` is the mathematical sum reduced to the `int` range. -/
theorem intSum_products (h : Nat → Int) (m : Nat) (hm : 0 < m) :
    intSum ((List.range m).map fun k => wrapInt (h k)) = wrapInt (∑ k ∈ Finset.range m, h k) := by
  rw [← list_sum_range, ← wrapInt_sum_map]
  generalize hl : (List.range m).map (fun k => wrapInt (h k)) = l
  cases l with
  | nil =>
    have := congrArg List.length hl
    simp at this
    omega
  | cons v vs =>
    have hv : wrapInt v = v := by
      have hmem : v ∈ (List.range m).map (fun k => wrapInt (h k)) := by rw [hl]; simp
      obtain ⟨k, -, rfl⟩ := List.mem_map.mp hmem
      exact wrapInt_wrapInt _
    simp only [intSum, List.sum_cons]
    exact foldl_intAdd vs v hv

/-! ## The sequential product -/

theorem arraySet_same (a : Nat → Int) (idx : Nat) (v : Int) : arraySet a idx v idx = v := by
  simp [arraySet]

theorem arraySet_arraySet (a : Nat → Int) (idx : Nat) (v w : Int) :
    arraySet (arraySet a idx v) idx w = arraySet a idx w := by
  funext t; simp only [arraySet]; split <;> rfl

theorem inner_loop (g : Nat → Int) (idx : Nat) (l : List Nat) (C : Nat → Int) (v : Int) :
    l.foldl (fun C k => arraySet C idx (intAdd (C idx) (g k))) (arraySet C idx v)
      = arraySet C idx (l.foldl (fun acc k => intAdd acc (g k)) v) := by
  induction l generalizing v with
  | nil => rfl
  | cons a l ih =>
    simp only [List.foldl_cons, arraySet_same, arraySet_arraySet]
    exact ih _

theorem acc_loop (h : Nat → Int) (l : List Nat) (x : Int) :
    l.foldl (fun acc k => intAdd acc (wrapInt (h k))) (wrapInt x)
      = wrapInt (x + (l.map h).sum) := by
  induction l generalizing x with
  | nil => simp
  | cons a l ih =>
    simp only [List.foldl_cons, List.map_cons, List.sum_cons]
    show List.foldl _ (wrapInt (wrapInt x + wrapInt (h a))) l = _
    rw [wrapInt_add_left, wrapInt_add_right, ih, add_assoc]

theorem row_loop (n i : Nat) (val : Nat → Int) (k : Nat) (C : Nat → Int) (t : Nat) :
    (List.range k).foldl (fun C j => arraySet C (i * n + j) (val j)) C t
      = if i * n ≤ t ∧ t < i * n + k then val (t - i * n) else C t := by
  induction k with
  | zero => simp; omega
  | succ k ih =>
    rw [List.range_succ, List.foldl_append]
    simp only [List.foldl_cons, List.foldl_nil, arraySet]
    by_cases h : t = i * n + k
    · subst h; simp
    · rw [if_neg h, ih]
      by_cases h2 : i * n ≤ t ∧ t < i * n + k
      · rw [if_pos h2, if_pos ⟨h2.1, by omega⟩]
      · rw [if_neg h2, if_neg (by omega)]

theorem outer_loop (n : Nat) (val : Nat → Nat → Int) (k : Nat) (C : Nat → Int) (t : Nat) :
    (List.range k).foldl (fun C i =>
        (List.range n).foldl (fun C j => arraySet C (i * n + j) (val i j)) C) C t
      = if t < k * n then val (t / n) (t % n) else C t := by
  induction k generalizing t with
  | zero => simp
  | succ k ih =>
    rw [List.range_succ, List.foldl_append]
    simp only [List.foldl_cons, List.foldl_nil]
    rw [row_loop]
    by_cases h : k * n ≤ t ∧ t < k * n + n
    · rw [if_pos h, if_pos (by rw [Nat.succ_mul]; exact h.2)]
      have hn : 0 < n := by omega
      have h1 : t / n = k := by
        apply Nat.div_eq_of_lt_le
        · exact h.1
        · rw [Nat.succ_mul]; exact h.2
      have h2 : t % n = t - k * n := by
        have := Nat.div_add_mod t n
        rw [h1, Nat.mul_comm] at this
        omega
      rw [h1, h2]
    · rw [if_neg h, ih]
      by_cases h3 : t < k * n
      · rw [if_pos h3, if_pos (by rw [Nat.succ_mul]; omega)]
      · rw [if_neg h3, if_neg (by rw [Nat.succ_mul]; omega)]

/-- Every cell of the result of `sequentialMatrixMultiply` within the matrix
holds the sum of products reduced to the `int` range; the cells beyond the
matrix are untouched. -/
theorem sequentialMatrixMultiply_apply (A B C : Nat → Int) (n t : Nat) :
    sequentialMatrixMultiply A B C n t
      = if t < n * n then
          wrapInt (∑ k ∈ Finset.range n, A (t / n * n + k) * B (k * n + t % n))
        else C t := by
  unfold sequentialMatrixMultiply
  have hinner : ∀ (i j : Nat) (C : Nat → Int),
      (List.range n).foldl (fun C k =>
          arraySet C (i * n + j)
            (intAdd (C (i * n + j)) (intMul (A (i * n + k)) (B (k * n + j)))))
        (arraySet C (i * n + j) 0)
      = arraySet C (i * n + j)
          (wrapInt (∑ k ∈ Finset.range n, A (i * n + k) * B (k * n + j))) := by
    intro i j C
    rw [inner_loop (fun k => intMul (A (i * n + k)) (B (k * n + j)))]
    have := acc_loop (fun k => A (i * n + k) * B (k * n + j)) (List.range n) 0
    simp only [zero_add, list_sum_range] at this
    rw [← this]
    rfl
  simp only [hinner]
  rw [outer_loop n (fun i j => wrapInt (∑ k ∈ Finset.range n, A (i * n + k) * B (k * n + j)))]


/-! ## Coordinates in the grid `m x n x n` -/

theorem divmod_helper (a b n : Nat) (hb : b < n) : (a * n + b) / n = a ∧ (a * n + b) % n = b := by
  have hn : 0 < n := by omega
  constructor
  · rw [Nat.add_comm, Nat.add_mul_div_right _ _ hn, Nat.div_eq_of_lt hb, Nat.zero_add]
  · rw [Nat.add_comm, Nat.add_mul_mod_self_right, Nat.mod_eq_of_lt hb]

theorem coords_rank (m n z i j : Nat) (hi : i < n) (hj : j < n) :
    MPI_Cart_coords ⟨m, n, n⟩ ((z * n + i) * n + j) = ⟨z, i, j⟩ := by
  have h1 := divmod_helper (z * n + i) j n hj
  have h2 := divmod_helper z i n hi
  simp only [MPI_Cart_coords, ← Nat.div_div_eq_div_mul, h1.1, h1.2, h2.1, h2.2]

theorem grid_cases (m n r : Nat) (hr : r < m * n * n) :
    ∃ z i j, z < m ∧ i < n ∧ j < n ∧ r = (z * n + i) * n + j := by
  have hn : 0 < n := by
    rcases Nat.eq_zero_or_pos n with h | h
    · subst h; simp at hr
    · exact h
  refine ⟨r / n / n, r / n % n, r % n, ?_, Nat.mod_lt _ hn, Nat.mod_lt _ hn, ?_⟩
  · rw [Nat.div_div_eq_div_mul]
    apply Nat.div_lt_of_lt_mul
    rw [Nat.mul_comm, ← Nat.mul_assoc]; exact hr
  · have h1 := Nat.div_add_mod (r / n) n
    have h2 := Nat.div_add_mod r n
    rw [Nat.mul_comm] at h1 h2
    rw [h1, h2]

theorem dns_gridDims (n m : Nat) (hn : 0 < n) : Dns.gridDims (n * n * m) n = ⟨m, n, n⟩ := by
  have h : n * n * m / (n * n) = m := Nat.mul_div_cancel_left m (Nat.mul_pos hn hn)
  simp [Dns.gridDims, Int3.set, Dns.X, Dns.Y, Dns.Z, h]

theorem dns_createCommunicators (n m : Nat) (hn : 0 < n) :
    Dns.createCommunicators (n * n * m) (Dns.gridDims (n * n * m) n) = some
      { commXYplanes := MPI_Cart_sub ⟨m, n, n⟩ ⟨0, 1, 1⟩
        commYZplanes := MPI_Cart_sub ⟨m, n, n⟩ ⟨1, 0, 1⟩
        commZXplanes := MPI_Cart_sub ⟨m, n, n⟩ ⟨1, 1, 0⟩
        commXsingleDim := MPI_Cart_sub ⟨m, n, n⟩ ⟨0, 1, 0⟩
        commYsingleDim := MPI_Cart_sub ⟨m, n, n⟩ ⟨0, 0, 1⟩
        commZsingleDim := MPI_Cart_sub ⟨m, n, n⟩ ⟨1, 0, 0⟩
        coords := MPI_Cart_coords ⟨m, n, n⟩ } := by
  rw [dns_gridDims n m hn]
  have : (Int3.mk m n n).prod = n * n * m := by simp [Int3.prod]; ring
  simp [Dns.createCommunicators, this, Dns.remaining, Int3.set, Dns.X, Dns.Y, Dns.Z]

/-- Members of a plane group `X`-`Y` (fixed first coordinate). -/
theorem plane_member (m n r s : Nat) :
    (MPI_Cart_sub ⟨m, n, n⟩ ⟨0, 1, 1⟩).member r s
      = (r / (n * n) * n + s / n % n) * n + s % n := by
  simp [MPI_Cart_sub, MPI_Cart_rank, MPI_Cart_coords, keptDims, mergeCoords]

theorem plane_rank (m n r : Nat) :
    (MPI_Cart_sub ⟨m, n, n⟩ ⟨0, 1, 1⟩).rank r = r / n % n * n + r % n := by
  simp [MPI_Cart_sub, MPI_Cart_rank, MPI_Cart_coords, keptDims, keptCoords]

theorem plane_size (m n r : Nat) : (MPI_Cart_sub ⟨m, n, n⟩ ⟨0, 1, 1⟩).size r = n * n := by
  simp [MPI_Cart_sub, keptDims, Int3.prod]

theorem depth_member (m n r s : Nat) :
    (MPI_Cart_sub ⟨m, n, n⟩ ⟨1, 0, 0⟩).member r s = (s * n + r / n % n) * n + r % n := by
  simp [MPI_Cart_sub, MPI_Cart_rank, MPI_Cart_coords, keptDims, mergeCoords]

theorem depth_rank (m n r : Nat) :
    (MPI_Cart_sub ⟨m, n, n⟩ ⟨1, 0, 0⟩).rank r = r / (n * n) := by
  simp [MPI_Cart_sub, MPI_Cart_rank, MPI_Cart_coords, keptDims, keptCoords]

theorem depth_size (m n r : Nat) : (MPI_Cart_sub ⟨m, n, n⟩ ⟨1, 0, 0⟩).size r = m := by
  simp [MPI_Cart_sub, keptDims, Int3.prod]

theorem last_member (m n r s : Nat) :
    (MPI_Cart_sub ⟨m, n, n⟩ ⟨0, 0, 1⟩).member r s
      = (r / (n * n) * n + r / n % n) * n + s % n := by
  simp [MPI_Cart_sub, MPI_Cart_rank, MPI_Cart_coords, keptDims, mergeCoords]

theorem last_rank (m n r : Nat) : (MPI_Cart_sub ⟨m, n, n⟩ ⟨0, 0, 1⟩).rank r = r % n := by
  simp [MPI_Cart_sub, MPI_Cart_rank, MPI_Cart_coords, keptDims, keptCoords]

theorem last_size (m n r : Nat) : (MPI_Cart_sub ⟨m, n, n⟩ ⟨0, 0, 1⟩).size r = n := by
  simp [MPI_Cart_sub, keptDims, Int3.prod]

theorem middle_member (m n r s : Nat) :
    (MPI_Cart_sub ⟨m, n, n⟩ ⟨0, 1, 0⟩).member r s
      = (r / (n * n) * n + s % n) * n + r % n := by
  simp [MPI_Cart_sub, MPI_Cart_rank, MPI_Cart_coords, keptDims, mergeCoords]

theorem middle_rank (m n r : Nat) : (MPI_Cart_sub ⟨m, n, n⟩ ⟨0, 1, 0⟩).rank r = r / n % n := by
  simp [MPI_Cart_sub, MPI_Cart_rank, MPI_Cart_coords, keptDims, keptCoords]

theorem middle_size (m n r : Nat) : (MPI_Cart_sub ⟨m, n, n⟩ ⟨0, 1, 0⟩).size r = n := by
  simp [MPI_Cart_sub, keptDims, Int3.prod]

theorem rank_parts (n z i j : Nat) (hi : i < n) (hj : j < n) :
    ((z * n + i) * n + j) / (n * n) = z ∧ ((z * n + i) * n + j) / n % n = i ∧
      ((z * n + i) * n + j) % n = j := by
  have h := coords_rank 0 n z i j hi hj
  simp only [MPI_Cart_coords, Int3.mk.injEq] at h
  exact h

theorem grid_cases' (m n r : Nat) (hr : r < n * n * m) :
    ∃ z i j, z < m ∧ i < n ∧ j < n ∧ r = (z * n + i) * n + j :=
  grid_cases m n r (by rw [Nat.mul_comm m n, Nat.mul_comm (n * m) n, ← Nat.mul_assoc]; exact hr)

/-- Scatter and gather over the plane `Z = 0` are well formed: the root of
that plane is world rank 0 and the whole plane takes part. -/
theorem plane_rootedValid (m n : Nat) :
    rootedValid (n * n * m) (MPI_Cart_sub ⟨m, n, n⟩ ⟨0, 1, 1⟩)
      (fun r => decide ((MPI_Cart_coords ⟨m, n, n⟩ r).get 0 = 0)) (fun r => decide (r = 0))
      = true := by
  unfold rootedValid
  rw [List.all_eq_true]
  intro r hr
  rw [List.mem_range] at hr
  obtain ⟨z, i, j, hz, hi, hj, rfl⟩ := grid_cases' m n r hr
  have hn : 0 < n := by omega
  obtain ⟨p1, p2, p3⟩ := rank_parts n z i j hi hj
  simp only [coords_rank m n z i j hi hj, Int3.get, plane_member, plane_size, p1,
    Bool.or_eq_true, Bool.not_eq_true', decide_eq_false_iff_not, Bool.and_eq_true,
    decide_eq_true_eq, List.all_eq_true, List.mem_range]
  by_cases h0 : z = 0
  · right
    subst h0
    refine ⟨by simp, ?_⟩
    intro s _
    rw [coords_rank m n 0 _ _ (Nat.mod_lt _ hn) (Nat.mod_lt _ hn)]
  · left; exact h0

theorem depth_bcastValid (m n : Nat) (hm : 0 < m) :
    bcastValid (n * n * m) (MPI_Cart_sub ⟨m, n, n⟩ ⟨1, 0, 0⟩) (fun _ => 0) = true := by
  unfold bcastValid
  simp [depth_size, hm]

theorem last_bcastValid (m n : Nat) (hmn : m ≤ n) :
    bcastValid (n * n * m) (MPI_Cart_sub ⟨m, n, n⟩ ⟨0, 0, 1⟩)
      (fun r => (MPI_Cart_coords ⟨m, n, n⟩ r).get 0) = true := by
  unfold bcastValid
  rw [List.all_eq_true]
  intro r hr
  rw [List.mem_range] at hr
  obtain ⟨z, i, j, hz, hi, hj, rfl⟩ := grid_cases' m n r hr
  have hn : 0 < n := by omega
  obtain ⟨p1, p2, p3⟩ := rank_parts n z i j hi hj
  simp only [coords_rank m n z i j hi hj, Int3.get, last_member, last_size, p1, p2,
    Bool.and_eq_true, decide_eq_true_eq, List.all_eq_true, List.mem_range]
  refine ⟨by omega, ?_⟩
  intro s _
  rw [coords_rank m n z i _ hi (Nat.mod_lt _ hn)]

theorem middle_bcastValid (m n : Nat) (hmn : m ≤ n) :
    bcastValid (n * n * m) (MPI_Cart_sub ⟨m, n, n⟩ ⟨0, 1, 0⟩)
      (fun r => (MPI_Cart_coords ⟨m, n, n⟩ r).get 0) = true := by
  unfold bcastValid
  rw [List.all_eq_true]
  intro r hr
  rw [List.mem_range] at hr
  obtain ⟨z, i, j, hz, hi, hj, rfl⟩ := grid_cases' m n r hr
  have hn : 0 < n := by omega
  obtain ⟨p1, p2, p3⟩ := rank_parts n z i j hi hj
  simp only [coords_rank m n z i j hi hj, Int3.get, middle_member, middle_size, p1, p3,
    Bool.and_eq_true, decide_eq_true_eq, List.all_eq_true, List.mem_range]
  refine ⟨by omega, ?_⟩
  intro s _
  rw [coords_rank m n z _ j (Nat.mod_lt _ hn) hj]

/-- The state `distribute` of dns.c ends in, for a valid grid. -/
theorem dns_distribute (n m : Nat) (hm : 1 ≤ m) (hmn : m ≤ n) (A B : Nat → Int)
    (init : Locals) (comms : Dns.Communicators)
    (hc : Dns.createCommunicators (n * n * m) (Dns.gridDims (n * n * m) n) = some comms) :
    ∃ s, Dns.distribute (n * n * m) comms A B init = some s ∧
      s.localC = init.localC ∧ s.finalC = init.finalC ∧
      ∀ z i j, z < m → i < n → j < n →
        s.localA ((z * n + i) * n + j) = A (i * n + z) ∧
        s.localB ((z * n + i) * n + j) = B (z * n + j) := by
  have hn : 0 < n := by omega
  rw [dns_createCommunicators n m hn] at hc
  cases hc
  simp only [Dns.distribute, Dns.scatter, Dns.Z, MPI_Scatter, MPI_Bcast, plane_rootedValid,
    depth_bcastValid m n hm, last_bcastValid m n hmn, middle_bcastValid m n hmn, if_true,
    Option.bind_eq_bind, Option.some_bind, Option.pure_def, bind_pure_comp]
  refine ⟨_, rfl, rfl, rfl, ?_⟩
  intro z i j hz hi hj
  obtain ⟨p1, p2, p3⟩ := rank_parts n z i j hi hj
  have hzn : z < n := by omega
  simp only [coords_rank m n z i j hi hj, Int3.get, last_member, middle_member, depth_member,
    plane_rank, p1, p2, p3]
  simp only [Nat.mod_eq_of_lt hzn]
  obtain ⟨q1, q2, q3⟩ := rank_parts n z i z hi hzn
  obtain ⟨r1, r2, r3⟩ := rank_parts n z z j hzn hj
  simp only [q1, q2, q3, r1, r2, r3, Nat.zero_mul, Nat.zero_add]
  obtain ⟨s1, s2, s3⟩ := rank_parts n 0 i z hi hzn
  obtain ⟨t1, t2, t3⟩ := rank_parts n 0 z j hzn hj
  simp only [Nat.zero_mul, Nat.zero_add] at s1 s2 s3 t1 t2 t3
  have c1 := coords_rank m n 0 i z hi hzn
  have c2 := coords_rank m n 0 z j hzn hj
  simp only [Nat.zero_mul, Nat.zero_add] at c1 c2
  simp only [c1, c2, s2, s3, t2, t3, decide_True, if_true]
  exact ⟨trivial, trivial⟩

/-- The matrix dns.c gathers on rank 0 for a grid of depth `1 <= m <= n`. -/
theorem dns_compute (n m : Nat) (hm : 1 ≤ m) (hmn : m ≤ n) (A B : Nat → Int) (init : Locals) :
    Dns.compute (n * n * m) n A B init
      = some ((List.range (n * n)).map fun t =>
          wrapInt (∑ k ∈ Finset.range m, A (t / n * n + k) * B (k * n + t % n))) := by
  have hn : 0 < n := by omega
  obtain ⟨s, hs, -, -, hAB⟩ := dns_distribute n m hm hmn A B init _ (dns_createCommunicators n m hn)
  simp only [Dns.compute, dns_createCommunicators n m hn, Option.bind_eq_bind, Option.some_bind,
    hs, Dns.gather, Dns.Z, MPI_Gather, plane_rootedValid, Bool.true_and]
  have h0 : (MPI_Cart_coords ⟨m, n, n⟩ 0).get 0 = 0 := by simp [MPI_Cart_coords, Int3.get]
  simp only [h0, decide_True, if_true, plane_size, Option.some.injEq]
  apply List.map_congr_left
  intro t ht
  rw [List.mem_range] at ht
  have htn : t / n < n := Nat.div_lt_of_lt_mul ht
  have htm : t % n < n := Nat.mod_lt _ hn
  simp only [plane_member, Nat.zero_div, Nat.zero_mul, Nat.zero_add, Nat.mod_eq_of_lt htn,
    Dns.multiplyReduce, MPI_Reduce, depth_rank, depth_size, depth_member]
  obtain ⟨p1, p2, p3⟩ := rank_parts n 0 (t / n) (t % n) htn htm
  simp only [Nat.zero_mul, Nat.zero_add] at p1 p2 p3
  simp only [p1, p2, p3, if_true]
  rw [← intSum_products _ m hm]
  congr 1
  apply List.map_congr_left
  intro k hk
  rw [List.mem_range] at hk
  obtain ⟨ha, hb⟩ := hAB k (t / n) (t % n) hk htn htm
  rw [ha, hb]
  rfl

/-! ## Claims on the basic engine (dns.c) -/

/-- C2: for every `n >= 1`, with depth extent `m = n` and `p = n*n*n` processes,
the matrix dns.c gathers on the coordinator is, element for element, the
matrix `sequentialMatrixMultiply` produces from the same operands, whatever
the uninitialised variables and the result buffer held before. -/
theorem C2_basic_engine_equals_sequential (n : Nat) (hn : 1 ≤ n) (A B C0 : Nat → Int)
    (init : Locals) :
    Dns.compute (n * n * n) n A B init
      = some (toList (sequentialMatrixMultiply A B C0 n) (n * n)) := by
  rw [dns_compute n n hn (Nat.le_refl n) A B init, toList]
  congr 1
  apply List.map_congr_left
  intro t ht
  rw [List.mem_range] at ht
  rw [sequentialMatrixMultiply_apply, if_pos ht]

/-- C2, the scenario `n = 4`, `m = 4`, 64 participants, `A = B =` identity plus
ones: the gathered matrix is the sequential product, which is 7 on the
diagonal and 6 elsewhere. -/
theorem C2_basic_engine_4x4x4 :
    1 ≤ 4 ∧
    Dns.compute (4 * 4 * 4) 4 (identityPlusOnes 4) (identityPlusOnes 4) junkLocals
      = some (toList (sequentialMatrixMultiply (identityPlusOnes 4) (identityPlusOnes 4)
          (fun _ => 0) 4) (4 * 4)) ∧
    toList (sequentialMatrixMultiply (identityPlusOnes 4) (identityPlusOnes 4) (fun _ => 0) 4)
        (4 * 4)
      = [7, 6, 6, 6, 6, 7, 6, 6, 6, 6, 7, 6, 6, 6, 6, 7] :=
  ⟨by decide,
   C2_basic_engine_equals_sequential 4 (by decide) (identityPlusOnes 4) (identityPlusOnes 4)
     (fun _ => 0) junkLocals,
   by decide⟩

/-- C3: for every `n >= 1` and `1 <= m <= n` with `p = n*n*m`, dns.c gathers
an `n x n` matrix whose element `(i, j)` is the sum over `k < m` of
`A[i*n+k] * B[k*n+j]` in `int` arithmetic: the contraction covers the first `m`
indices only.  For every `m < n` there are operands for which this partial
sum is not the full product computed by `sequentialMatrixMultiply`. -/
theorem C3_basic_engine_truncation (n m : Nat) (hm : 1 ≤ m) (hmn : m ≤ n) :
    (∀ (A B : Nat → Int) (init : Locals),
      ∃ C, Dns.compute (n * n * m) n A B init = some C ∧ C.length = n * n ∧
        ∀ i j, i < n → j < n →
          C[i * n + j]? = some (wrapInt (∑ k ∈ Finset.range m, A (i * n + k) * B (k * n + j)))) ∧
    (m < n → ∃ A B : Nat → Int, ∀ (init : Locals) (C0 : Nat → Int),
      Dns.compute (n * n * m) n A B init
        ≠ some (toList (sequentialMatrixMultiply A B C0 n) (n * n))) := by
  have hn : 0 < n := by omega
  constructor
  · intro A B init
    refine ⟨_, dns_compute n m hm hmn A B init, by simp, ?_⟩
    intro i j hi hj
    have hlt : i * n + j < n * n := by
      calc i * n + j < i * n + n := by omega
        _ = (i + 1) * n := by ring
        _ ≤ n * n := Nat.mul_le_mul_right n hi
    obtain ⟨d1, d2⟩ := divmod_helper i j n hj
    simp [List.getElem?_map, List.getElem?_range hlt, d1, d2]
  · intro hlt
    refine ⟨unitAt (n - 1), unitAt ((n - 1) * n), ?_⟩
    intro init C0 hEq
    rw [dns_compute n m hm hmn, toList, Option.some.injEq] at hEq
    have hpos : 0 < n * n := Nat.mul_pos hn hn
    have h0 := congrArg (fun l => l[0]?) hEq
    simp only [List.getElem?_map, List.getElem?_range hpos, Option.map_some',
      Option.some.injEq, sequentialMatrixMultiply_apply, if_pos hpos, Nat.zero_div,
      Nat.zero_mul, Nat.zero_add, Nat.zero_mod, Nat.add_zero] at h0
    have hfull : (∑ k ∈ Finset.range n, unitAt (n - 1) k * unitAt ((n - 1) * n) (k * n)) = 1 := by
      rw [Finset.sum_eq_single (n - 1)]
      · simp [unitAt]
      · intro b _ hb
        simp [unitAt, hb]
      · intro h
        exact absurd (Finset.mem_range.mpr (by omega)) h
    have hpart : (∑ k ∈ Finset.range m, unitAt (n - 1) k * unitAt ((n - 1) * n) (k * n)) = 0 := by
      apply Finset.sum_eq_zero
      intro k hk
      rw [Finset.mem_range] at hk
      have : k ≠ n - 1 := by omega
      simp [unitAt, this]
    rw [hfull, hpart] at h0
    revert h0
    decide

/-- C3 at `n = 2`, `m = 1`, four processes. -/
theorem C3_basic_engine_truncation_2x2x1 :
    1 ≤ 1 ∧ 1 ≤ 2 ∧
    ((∀ (A B : Nat → Int) (init : Locals),
      ∃ C, Dns.compute (2 * 2 * 1) 2 A B init = some C ∧ C.length = 2 * 2 ∧
        ∀ i j, i < 2 → j < 2 →
          C[i * 2 + j]? = some (wrapInt (∑ k ∈ Finset.range 1, A (i * 2 + k) * B (k * 2 + j)))) ∧
    (1 < 2 → ∃ A B : Nat → Int, ∀ (init : Locals) (C0 : Nat → Int),
      Dns.compute (2 * 2 * 1) 2 A B init
        ≠ some (toList (sequentialMatrixMultiply A B C0 2) (2 * 2)))) :=
  ⟨by decide, by decide, C3_basic_engine_truncation 2 1 (by decide) (by decide)⟩

/-- C8: for every `n >= 1` and `1 <= m <= n`, after the scatter, the depth
replication and the two broadcasts rooted at the rank `cartCoords[Z]`, the
process at (Row `i`, Column `j`, Depth `k`), that is with `cartCoords[X] = i`,
`cartCoords[Y] = j`, `cartCoords[Z] = k`, holds `localA = A[i*n+k]` and
`localB = B[k*n+j]`.  The group of the broadcast of A (`commYsingleDim`) has
`n` members and its member of rank `c` differs from the process in the Column
coordinate only, which is `c`; the group of the broadcast of B
(`commXsingleDim`) has `n` members and its member of rank `c` differs in the
Row coordinate only, which is `c`.  Every coordinate triple of the grid is
the position of a process. -/
theorem C8_basic_axis_alignment (n m : Nat) (hn : 1 ≤ n) (hm : 1 ≤ m) (hmn : m ≤ n)
    (A B : Nat → Int) (init : Locals) :
    ∃ comms s,
      Dns.createCommunicators (n * n * m) (Dns.gridDims (n * n * m) n) = some comms ∧
      Dns.distribute (n * n * m) comms A B init = some s ∧
      (∀ i j k, i < n → j < n → k < m → ∃ r, r < n * n * m ∧
        (comms.coords r).get Dns.X = i ∧ (comms.coords r).get Dns.Y = j ∧
        (comms.coords r).get Dns.Z = k) ∧
      ∀ r, r < n * n * m →
        (comms.coords r).get Dns.X < n ∧ (comms.coords r).get Dns.Y < n ∧
        (comms.coords r).get Dns.Z < m ∧
        s.localA r = A ((comms.coords r).get Dns.X * n + (comms.coords r).get Dns.Z) ∧
        s.localB r = B ((comms.coords r).get Dns.Z * n + (comms.coords r).get Dns.Y) ∧
        comms.commYsingleDim.size r = n ∧
        (∀ c, c < n → comms.coords (comms.commYsingleDim.member r c)
          = (comms.coords r).set Dns.Y c) ∧
        comms.commXsingleDim.size r = n ∧
        (∀ c, c < n → comms.coords (comms.commXsingleDim.member r c)
          = (comms.coords r).set Dns.X c) := by
  have hn0 : 0 < n := hn
  obtain ⟨s, hs, -, -, hAB⟩ :=
    dns_distribute n m hm hmn A B init _ (dns_createCommunicators n m hn0)
  refine ⟨_, s, dns_createCommunicators n m hn0, hs, ?_, ?_⟩
  · intro i j k hi hj hk
    refine ⟨(k * n + i) * n + j, ?_, ?_⟩
    · calc (k * n + i) * n + j < (k * n + i) * n + n := by omega
        _ = (k * n + (i + 1)) * n := by ring
        _ ≤ (k * n + n) * n := Nat.mul_le_mul_right n (by omega)
        _ = n * n * (k + 1) := by ring
        _ ≤ n * n * m := Nat.mul_le_mul_left _ hk
    · simp [coords_rank m n k i j hi hj, Int3.get, Dns.X, Dns.Y, Dns.Z]
  · intro r hr
    obtain ⟨z, i, j, hz, hi, hj, rfl⟩ := grid_cases' m n r hr
    obtain ⟨ha, hb⟩ := hAB z i j hz hi hj
    obtain ⟨p1, p2, p3⟩ := rank_parts n z i j hi hj
    simp only [coords_rank m n z i j hi hj, Int3.get, Int3.set, Dns.X, Dns.Y, Dns.Z, ha, hb,
      last_size, middle_size, last_member, middle_member, p1, p2, p3]
    refine ⟨hi, hj, hz, trivial, trivial, trivial, ?_, trivial, ?_⟩
    · intro c hc
      rw [Nat.mod_eq_of_lt hc, coords_rank m n z i c hi hc]
    · intro c hc
      rw [Nat.mod_eq_of_lt hc, coords_rank m n z c j hc hj]

/-- C8 at `n = 2`, `m = 2`, eight processes. -/
theorem C8_basic_axis_alignment_2x2x2 :
    1 ≤ 2 ∧ 1 ≤ 2 ∧ 2 ≤ 2 ∧
    ∃ comms s,
      Dns.createCommunicators (2 * 2 * 2) (Dns.gridDims (2 * 2 * 2) 2) = some comms ∧
      Dns.distribute (2 * 2 * 2) comms (identityPlusOnes 2) (unitAt 3) junkLocals = some s ∧
      (∀ i j k, i < 2 → j < 2 → k < 2 → ∃ r, r < 2 * 2 * 2 ∧
        (comms.coords r).get Dns.X = i ∧ (comms.coords r).get Dns.Y = j ∧
        (comms.coords r).get Dns.Z = k) ∧
      ∀ r, r < 2 * 2 * 2 →
        (comms.coords r).get Dns.X < 2 ∧ (comms.coords r).get Dns.Y < 2 ∧
        (comms.coords r).get Dns.Z < 2 ∧
        s.localA r
          = identityPlusOnes 2 ((comms.coords r).get Dns.X * 2 + (comms.coords r).get Dns.Z) ∧
        s.localB r = unitAt 3 ((comms.coords r).get Dns.Z * 2 + (comms.coords r).get Dns.Y) ∧
        comms.commYsingleDim.size r = 2 ∧
        (∀ c, c < 2 → comms.coords (comms.commYsingleDim.member r c)
          = (comms.coords r).set Dns.Y c) ∧
        comms.commXsingleDim.size r = 2 ∧
        (∀ c, c < 2 → comms.coords (comms.commXsingleDim.member r c)
          = (comms.coords r).set Dns.X c) :=
  ⟨by decide, by decide, by decide,
   C8_basic_axis_alignment 2 2 (by decide) (by decide) (by decide) (identityPlusOnes 2)
     (unitAt 3) junkLocals⟩

/-! ## `findAdjacentCells` on non-negative arguments -/

/-- On the arguments `main` passes (ranks and distances are natural numbers and
no intermediate value is negative) the truncating operations of C are the
operations of the natural numbers. -/
theorem findAdjacentCells_cast (idx n m dx dy : Nat) (hdx : dx ≤ idx % n + n / m)
    (hdy : dy ≤ idx / n + n / m) :
    Variant.findAdjacentCells idx n m dx dy =
      { up := (ringBwd (n / m) (idx / n) dy * n + idx % n : Nat)
        down := (ringFwd (n / m) (idx / n) dy * n + idx % n : Nat)
        left := (idx / n * n + ringBwd (n / m) (idx % n) dx : Nat)
        right := (idx / n * n + ringFwd (n / m) (idx % n) dx : Nat) } := by
  have e1 : ((idx / n : Nat) : Int) - (dy : Int) + ((n / m : Nat) : Int)
      = ((idx / n + n / m - dy : Nat) : Int) := by omega
  have e2 : ((idx % n : Nat) : Int) - (dx : Int) + ((n / m : Nat) : Int)
      = ((idx % n + n / m - dx : Nat) : Int) := by omega
  simp only [Variant.findAdjacentCells, ← Int.ofNat_tdiv, ← Int.ofNat_tmod, e1, e2,
    ← Nat.cast_add, ← Nat.cast_mul, ringBwd, ringFwd]

theorem mod_cases (a sm : Nat) (h : a < 2 * sm) :
    (a < sm ∧ a % sm = a) ∨ (sm ≤ a ∧ a % sm = a - sm) := by
  rcases Nat.lt_or_ge a sm with h1 | h1
  · exact Or.inl ⟨h1, Nat.mod_eq_of_lt h1⟩
  · right
    refine ⟨h1, ?_⟩
    rw [Nat.mod_eq_sub_mod h1, Nat.mod_eq_of_lt (by omega)]

/-- Splitting of a coordinate below `m * sm` into block number and offset. -/
theorem block_cases (m sm c : Nat) (hc : c < m * sm) :
    ∃ q e, q < m ∧ e < sm ∧ c = q * sm + e := by
  have hsm : 0 < sm := by
    rcases Nat.eq_zero_or_pos sm with h | h
    · subst h; simp at hc
    · exact h
  refine ⟨c / sm, c % sm, Nat.div_lt_of_lt_mul (by rw [Nat.mul_comm]; exact hc),
    Nat.mod_lt _ hsm, ?_⟩
  rw [Nat.mul_comm]; exact (Nat.div_add_mod c sm).symm

theorem block_lt (m sm q e : Nat) (hq : q < m) (he : e < sm) : q * sm + e < m * sm := by
  calc q * sm + e < q * sm + sm := by omega
    _ = (q + 1) * sm := by ring
    _ ≤ m * sm := Nat.mul_le_mul_right sm hq

theorem ringFwd_block (sm q e d : Nat) (he : e < sm) :
    ringFwd sm (q * sm + e) d = q * sm + (e + d) % sm := by
  obtain ⟨h1, h2⟩ := divmod_helper q e sm he
  unfold ringFwd
  rw [h1, Nat.add_comm _ ((e + d) % sm)]
  congr 1
  rw [Nat.add_assoc, Nat.add_comm (q * sm), Nat.add_mul_mod_self_right]

theorem ringBwd_block (sm q e d : Nat) (he : e < sm) (hd : d ≤ sm) :
    ringBwd sm (q * sm + e) d = q * sm + (e + sm - d) % sm := by
  obtain ⟨h1, h2⟩ := divmod_helper q e sm he
  unfold ringBwd
  rw [h1, Nat.add_comm _ ((e + sm - d) % sm)]
  congr 1
  have : q * sm + e + sm - d = (e + sm - d) + q * sm := by omega
  rw [this, Nat.add_mul_mod_self_right]

theorem ringBwd_ringFwd (m sm c d : Nat) (hc : c < m * sm) (hd : d ≤ sm) :
    ringBwd sm (ringFwd sm c d) d = c := by
  obtain ⟨q, e, hq, he, rfl⟩ := block_cases m sm c hc
  have hsm : 0 < sm := by omega
  rw [ringFwd_block sm q e d he, ringBwd_block sm q _ d (Nat.mod_lt _ hsm) hd]
  congr 1
  rcases mod_cases (e + d) sm (by omega) with ⟨h1, h2⟩ | ⟨h1, h2⟩
  · rw [h2]
    rcases mod_cases (e + d + sm - d) sm (by omega) with ⟨h3, h4⟩ | ⟨h3, h4⟩
    · omega
    · omega
  · rw [h2]
    rcases mod_cases (e + d - sm + sm - d) sm (by omega) with ⟨h3, h4⟩ | ⟨h3, h4⟩
    · omega
    · omega

theorem ringFwd_ringBwd (m sm c d : Nat) (hc : c < m * sm) (hd : d ≤ sm) :
    ringFwd sm (ringBwd sm c d) d = c := by
  obtain ⟨q, e, hq, he, rfl⟩ := block_cases m sm c hc
  have hsm : 0 < sm := by omega
  rw [ringBwd_block sm q e d he hd, ringFwd_block sm q _ d (Nat.mod_lt _ hsm)]
  congr 1
  rcases mod_cases (e + sm - d) sm (by omega) with ⟨h1, h2⟩ | ⟨h1, h2⟩
  · rw [h2]
    rcases mod_cases (e + sm - d + d) sm (by omega) with ⟨h3, h4⟩ | ⟨h3, h4⟩
    · omega
    · omega
  · rw [h2]
    rcases mod_cases (e + sm - d - sm + d) sm (by omega) with ⟨h3, h4⟩ | ⟨h3, h4⟩
    · omega
    · omega

theorem ringFwd_lt (m sm c d : Nat) (hc : c < m * sm) : ringFwd sm c d < m * sm := by
  obtain ⟨q, e, hq, he, rfl⟩ := block_cases m sm c hc
  rw [ringFwd_block sm q e d he]
  exact block_lt m sm q _ hq (Nat.mod_lt _ (by omega))

theorem ringBwd_lt (m sm c d : Nat) (hc : c < m * sm) (hd : d ≤ sm) :
    ringBwd sm c d < m * sm := by
  obtain ⟨q, e, hq, he, rfl⟩ := block_cases m sm c hc
  rw [ringBwd_block sm q e d he hd]
  exact block_lt m sm q _ hq (Nat.mod_lt _ (by omega))

theorem ringFwd_mod (sm c d : Nat) :
    ringFwd sm c d % sm = (c % sm + d) % sm := by
  unfold ringFwd
  rw [Nat.add_mul_mod_self_right, Nat.mod_mod, Nat.mod_add_mod]

theorem ringFwd_div (sm c d : Nat) (hsm : 0 < sm) : ringFwd sm c d / sm = c / sm := by
  unfold ringFwd
  rw [Nat.add_mul_div_right _ _ hsm, Nat.div_eq_of_lt (Nat.mod_lt _ hsm), Nat.zero_add]

theorem ringBwd_div (sm c d : Nat) (hsm : 0 < sm) : ringBwd sm c d / sm = c / sm := by
  unfold ringBwd
  rw [Nat.add_mul_div_right _ _ hsm, Nat.div_eq_of_lt (Nat.mod_lt _ hsm), Nat.zero_add]

theorem ringBwd_mod (sm c d : Nat) (hd : d ≤ sm) :
    ringBwd sm c d % sm = (c % sm + (sm - d)) % sm := by
  unfold ringBwd
  rw [Nat.add_mul_mod_self_right, Nat.mod_mod]
  have : c + sm - d = c + (sm - d) := by omega
  rw [this, Nat.mod_add_mod]

theorem cast_ringBwd (sm c d : Nat) (hd : d ≤ c + sm) :
    ((ringBwd sm c d : Nat) : Int)
      = ((c : Int) % sm - d) % sm + (sm : Int) * ((c : Int) / sm) := by
  unfold ringBwd
  have h1 : (((c + sm - d) % sm : Nat) : Int) = ((c : Int) % sm - d) % sm := by
    rw [Int.natCast_mod, Nat.cast_sub hd, Nat.cast_add]
    have e : (c : Int) + sm - d = (c - d) + sm := by ring
    rw [e, Int.add_emod_self]
    exact ((Int.mod_modEq c sm).sub_right d).symm
  rw [Nat.cast_add, h1, Nat.cast_mul, Int.natCast_div, mul_comm]

theorem cast_ringFwd (sm c d : Nat) :
    ((ringFwd sm c d : Nat) : Int)
      = ((c : Int) % sm + d) % sm + (sm : Int) * ((c : Int) / sm) := by
  unfold ringFwd
  have h1 : (((c + d) % sm : Nat) : Int) = ((c : Int) % sm + d) % sm := by
    rw [Int.natCast_mod, Nat.cast_add]
    exact ((Int.mod_modEq c sm).add_right d).symm
  rw [Nat.cast_add, h1, Nat.cast_mul, Int.natCast_div, mul_comm]

/-- C6: for `n >= 1`, `m >= 1` with `n % m = 0`, `sm = n/m`, an index in
`[0, n*n)` with `y = index / n`, `x = index % n`, and distances in `[0, sm]`,
`findAdjacentCells` returns `up = ((y % sm - distY) mod sm + sm*(y/sm))*n + x`,
`down = ((y % sm + distY) mod sm + sm*(y/sm))*n + x`,
`left = y*n + ((x % sm - distX) mod sm + sm*(x/sm))` and
`right = y*n + ((x % sm + distX) mod sm + sm*(x/sm))`; up and down keep the
column, left and right keep the row, the four neighbours are in `[0, n*n)` and
in the sub-block of side `sm` that contains the index. -/
theorem C6_findAdjacentCells_ring (n m index distX distY : Int) (hn : 1 ≤ n) (hm : 1 ≤ m)
    (hdiv : n % m = 0) (hi0 : 0 ≤ index) (hi : index < n * n)
    (hx0 : 0 ≤ distX) (hx : distX ≤ n / m) (hy0 : 0 ≤ distY) (hy : distY ≤ n / m) :
    (Variant.findAdjacentCells index n m distX distY).up
        = ((index / n % (n / m) - distY) % (n / m) + n / m * (index / n / (n / m))) * n
          + index % n ∧
    (Variant.findAdjacentCells index n m distX distY).down
        = ((index / n % (n / m) + distY) % (n / m) + n / m * (index / n / (n / m))) * n
          + index % n ∧
    (Variant.findAdjacentCells index n m distX distY).left
        = index / n * n
          + ((index % n % (n / m) - distX) % (n / m) + n / m * (index % n / (n / m))) ∧
    (Variant.findAdjacentCells index n m distX distY).right
        = index / n * n
          + ((index % n % (n / m) + distX) % (n / m) + n / m * (index % n / (n / m))) ∧
    (∀ v ∈ [(Variant.findAdjacentCells index n m distX distY).up,
            (Variant.findAdjacentCells index n m distX distY).down],
        v % n = index % n) ∧
    (∀ v ∈ [(Variant.findAdjacentCells index n m distX distY).left,
            (Variant.findAdjacentCells index n m distX distY).right],
        v / n = index / n) ∧
    (∀ v ∈ [(Variant.findAdjacentCells index n m distX distY).up,
            (Variant.findAdjacentCells index n m distX distY).down,
            (Variant.findAdjacentCells index n m distX distY).left,
            (Variant.findAdjacentCells index n m distX distY).right],
        0 ≤ v ∧ v < n * n ∧ v / n / (n / m) = index / n / (n / m) ∧
          v % n / (n / m) = index % n / (n / m)) := by
  lift n to ℕ using (by omega)
  lift m to ℕ using (by omega)
  lift index to ℕ using hi0 with idx
  lift distX to ℕ using hx0 with dx
  lift distY to ℕ using hy0 with dy
  have hn' : 0 < n := by omega
  have hm' : 0 < m := by omega
  have hdvd : n % m = 0 := by exact_mod_cast hdiv
  have hnm : n = m * (n / m) := by
    have := Nat.div_add_mod n m
    rw [hdvd, Nat.add_zero] at this
    exact this.symm
  have hsm : 0 < n / m := by
    rcases Nat.eq_zero_or_pos (n / m) with h | h
    · rw [h, Nat.mul_zero] at hnm; omega
    · exact h
  have hdx : dx ≤ n / m := by exact_mod_cast hx
  have hdy : dy ≤ n / m := by exact_mod_cast hy
  have hidx : idx < n * n := by exact_mod_cast hi
  have hyn : idx / n < n := Nat.div_lt_of_lt_mul hidx
  have hxn : idx % n < n := Nat.mod_lt _ hn'
  have hyb : idx / n < m * (n / m) := by rw [← hnm]; exact hyn
  have hxb : idx % n < m * (n / m) := by rw [← hnm]; exact hxn
  rw [findAdjacentCells_cast idx n m dx dy (hdx.trans (Nat.le_add_left _ _))
    (hdy.trans (Nat.le_add_left _ _))]
  -- the four neighbours as natural numbers
  have hUlt : ringBwd (n / m) (idx / n) dy < n := by
    have := ringBwd_lt m (n / m) (idx / n) dy hyb hdy; omega
  have hDlt : ringFwd (n / m) (idx / n) dy < n := by
    have := ringFwd_lt m (n / m) (idx / n) dy hyb; omega
  have hLlt : ringBwd (n / m) (idx % n) dx < n := by
    have := ringBwd_lt m (n / m) (idx % n) dx hxb hdx; omega
  have hRlt : ringFwd (n / m) (idx % n) dx < n := by
    have := ringFwd_lt m (n / m) (idx % n) dx hxb; omega
  have key : ∀ a b : Nat, a < n → b < n →
      (0 : Int) ≤ ((a * n + b : Nat) : Int) ∧ ((a * n + b : Nat) : Int) < (n : Int) * n ∧
      ((a * n + b : Nat) : Int) / n = a ∧ ((a * n + b : Nat) : Int) % n = b := by
    intro a b ha hb
    obtain ⟨d1, d2⟩ := divmod_helper a b n hb
    refine ⟨Int.natCast_nonneg _, ?_, ?_, ?_⟩
    · have : a * n + b < n * n := by
        have := block_lt n n a b ha hb; exact this
      exact_mod_cast this
    · rw [← Int.natCast_div, d1]
    · rw [← Int.natCast_mod, d2]
  obtain ⟨u1, u2, u3, u4⟩ := key _ _ hUlt hxn
  obtain ⟨w1, w2, w3, w4⟩ := key _ _ hDlt hxn
  obtain ⟨l1, l2, l3, l4⟩ := key _ _ hyn hLlt
  obtain ⟨r1, r2, r3, r4⟩ := key _ _ hyn hRlt
  have bU : ((ringBwd (n / m) (idx / n) dy : Nat) : Int) / ((n : Int) / m)
      = (idx : Int) / n / ((n : Int) / m) := by
    rw [← Int.natCast_div, ← Int.natCast_div, ← Int.natCast_div, ← Int.natCast_div,
      ringBwd_div _ _ _ hsm]
  have bD : ((ringFwd (n / m) (idx / n) dy : Nat) : Int) / ((n : Int) / m)
      = (idx : Int) / n / ((n : Int) / m) := by
    rw [← Int.natCast_div, ← Int.natCast_div, ← Int.natCast_div, ← Int.natCast_div,
      ringFwd_div _ _ _ hsm]
  have bL : ((ringBwd (n / m) (idx % n) dx : Nat) : Int) / ((n : Int) / m)
      = (idx : Int) % n / ((n : Int) / m) := by
    rw [← Int.natCast_div, ← Int.natCast_div, ← Int.natCast_mod, ← Int.natCast_div,
      ringBwd_div _ _ _ hsm]
  have bR : ((ringFwd (n / m) (idx % n) dx : Nat) : Int) / ((n : Int) / m)
      = (idx : Int) % n / ((n : Int) / m) := by
    rw [← Int.natCast_div, ← Int.natCast_div, ← Int.natCast_mod, ← Int.natCast_div,
      ringFwd_div _ _ _ hsm]
  have cy : ((idx / n : Nat) : Int) = (idx : Int) / n := Int.natCast_div _ _
  have cx : ((idx % n : Nat) : Int) = (idx : Int) % n := Int.natCast_mod _ _
  have cs : ((n / m : Nat) : Int) = (n : Int) / m := Int.natCast_div _ _
  refine ⟨?_, ?_, ?_, ?_, ?_, ?_, ?_⟩
  · simp only [Nat.cast_add, Nat.cast_mul, cast_ringBwd _ _ _ (hdy.trans (Nat.le_add_left _ (idx / n))),
      cy, cx, cs]
  · simp only [Nat.cast_add, Nat.cast_mul, cast_ringFwd, cy, cx, cs]
  · simp only [Nat.cast_add, Nat.cast_mul, cast_ringBwd _ _ _ (hdx.trans (Nat.le_add_left _ (idx % n))),
      cy, cx, cs]
  · simp only [Nat.cast_add, Nat.cast_mul, cast_ringFwd, cy, cx, cs]
  · intro v hv
    simp only [List.mem_cons, List.mem_singleton, List.not_mem_nil, or_false] at hv
    rcases hv with rfl | rfl
    · rw [u4, cx]
    · rw [w4, cx]
  · intro v hv
    simp only [List.mem_cons, List.mem_singleton, List.not_mem_nil, or_false] at hv
    rcases hv with rfl | rfl
    · rw [l3, cy]
    · rw [r3, cy]
  · intro v hv
    simp only [List.mem_cons, List.mem_singleton, List.not_mem_nil, or_false] at hv
    rcases hv with rfl | rfl | rfl | rfl
    · exact ⟨u1, u2, by rw [u3, bU], by rw [u4, cx]⟩
    · exact ⟨w1, w2, by rw [w3, bD], by rw [w4, cx]⟩
    · exact ⟨l1, l2, by rw [l3, cy], by rw [l4, bL]⟩
    · exact ⟨r1, r2, by rw [r3, cy], by rw [r4, bR]⟩

/-! ## The sub-block groups of dnsVariant.c -/

theorem filter_eq_range (c k : Nat) :
    (List.range k).filter (fun i => decide (i = c)) = if c < k then [c] else [] := by
  induction k with
  | zero => simp
  | succ k ih =>
    rw [List.range_succ, List.filter_append, ih]
    by_cases h1 : c < k
    · have h2 : k ≠ c := by omega
      simp [h1, h2, Nat.lt_succ_of_lt h1]
    · by_cases h3 : k = c
      · subst h3; simp
      · have h4 : ¬ c < k + 1 := by omega
        simp [h1, h3, h4]

/-- The coordinates below `m * sm` that are congruent to `c` modulo `sm`, in
increasing order. -/
theorem filter_mod_range (sm c m : Nat) (hc : c < sm) :
    (List.range (m * sm)).filter (fun s => decide (s % sm = c))
      = (List.range m).map (fun t => c + t * sm) := by
  induction m with
  | zero => simp
  | succ m ih =>
    rw [Nat.succ_mul, List.range_add, List.filter_append, ih, List.range_succ, List.map_append,
      List.filter_map]
    congr 1
    have hfun : ((fun s => decide (s % sm = c)) ∘ fun x => m * sm + x)
        = fun x => decide (x % sm = c) := by
      funext x
      have e : (m * sm + x) % sm = x % sm := by
        rw [Nat.add_comm, Nat.add_mul_mod_self_right]
      simp only [Function.comp, e]
    rw [hfun]
    have hfil : (List.range sm).filter (fun x => decide (x % sm = c))
        = (List.range sm).filter (fun i => decide (i = c)) := by
      apply List.filter_congr
      intro x hx
      rw [List.mem_range] at hx
      rw [Nat.mod_eq_of_lt hx]
    rw [hfil, filter_eq_range, if_pos hc]
    simp [Nat.add_comm]

theorem sorted_map_range (f : Nat → Nat) (hf : ∀ a b, a < b → f a ≤ f b) (m : Nat) :
    List.Sorted (fun a b => a ≤ b) ((List.range m).map f) := by
  unfold List.Sorted
  rw [List.pairwise_map]
  exact (List.pairwise_lt_range m).imp (fun {a b} h => hf a b h)

theorem getD_map_range (f : Nat → Nat) (m s : Nat) (hs : s < m) :
    ((List.range m).map f).getD s 0 = f s := by
  rw [List.getD_eq_getElem?_getD, List.getElem?_map, List.getElem?_range hs]
  rfl

/-- The group `commSubMatrixX` of the process at `(z, y, x)`: the `m` processes
of its row whose column is congruent to `x` modulo `sm`, by increasing column. -/
theorem splitGroup_X (m sm z y x : Nat) (hsm : 0 < sm) (hy : y < m * sm) (hx : x < m * sm) :
    splitGroup (MPI_Cart_sub ⟨m, m * sm, m * sm⟩ ⟨0, 0, 1⟩)
        (fun r => (MPI_Cart_coords ⟨m, m * sm, m * sm⟩ r).get 2 % sm) (fun r => r)
        ((z * (m * sm) + y) * (m * sm) + x)
      = (List.range m).map (fun t => (z * (m * sm) + y) * (m * sm) + (x % sm + t * sm)) := by
  obtain ⟨p1, p2, p3⟩ := rank_parts (m * sm) z y x hy hx
  unfold splitGroup
  have hmap : (List.range ((MPI_Cart_sub ⟨m, m * sm, m * sm⟩ ⟨0, 0, 1⟩).size
        ((z * (m * sm) + y) * (m * sm) + x))).map
        ((MPI_Cart_sub ⟨m, m * sm, m * sm⟩ ⟨0, 0, 1⟩).member ((z * (m * sm) + y) * (m * sm) + x))
      = (List.range (m * sm)).map (fun s => (z * (m * sm) + y) * (m * sm) + s) := by
    rw [last_size]
    apply List.map_congr_left
    intro s hs
    rw [List.mem_range] at hs
    rw [last_member, p1, p2, Nat.mod_eq_of_lt hs]
  rw [hmap, List.filter_map]
  have hfil : (List.range (m * sm)).filter
        ((fun q => decide ((MPI_Cart_coords ⟨m, m * sm, m * sm⟩ q).get 2 % sm
            = (MPI_Cart_coords ⟨m, m * sm, m * sm⟩ ((z * (m * sm) + y) * (m * sm) + x)).get 2 % sm))
          ∘ fun s => (z * (m * sm) + y) * (m * sm) + s)
      = (List.range (m * sm)).filter (fun s => decide (s % sm = x % sm)) := by
    apply List.filter_congr
    intro s hs
    rw [List.mem_range] at hs
    simp only [Function.comp, coords_rank m (m * sm) z y s hy hs,
      coords_rank m (m * sm) z y x hy hx, Int3.get]
  rw [hfil, filter_mod_range sm (x % sm) m (Nat.mod_lt _ hsm), List.map_map]
  apply List.Sorted.insertionSort_eq
  apply sorted_map_range
  intro a b hab
  simp only [Function.comp]
  have : a * sm ≤ b * sm := Nat.mul_le_mul_right sm (Nat.le_of_lt hab)
  omega

/-- The group `commSubMatrixY` of the process at `(z, y, x)`: the `m` processes
of its column whose row is congruent to `y` modulo `sm`, by increasing row. -/
theorem splitGroup_Y (m sm z y x : Nat) (hsm : 0 < sm) (hy : y < m * sm) (hx : x < m * sm) :
    splitGroup (MPI_Cart_sub ⟨m, m * sm, m * sm⟩ ⟨0, 1, 0⟩)
        (fun r => (MPI_Cart_coords ⟨m, m * sm, m * sm⟩ r).get 1 % sm) (fun r => r)
        ((z * (m * sm) + y) * (m * sm) + x)
      = (List.range m).map (fun t => (z * (m * sm) + (y % sm + t * sm)) * (m * sm) + x) := by
  obtain ⟨p1, p2, p3⟩ := rank_parts (m * sm) z y x hy hx
  unfold splitGroup
  have hmap : (List.range ((MPI_Cart_sub ⟨m, m * sm, m * sm⟩ ⟨0, 1, 0⟩).size
        ((z * (m * sm) + y) * (m * sm) + x))).map
        ((MPI_Cart_sub ⟨m, m * sm, m * sm⟩ ⟨0, 1, 0⟩).member ((z * (m * sm) + y) * (m * sm) + x))
      = (List.range (m * sm)).map (fun s => (z * (m * sm) + s) * (m * sm) + x) := by
    rw [middle_size]
    apply List.map_congr_left
    intro s hs
    rw [List.mem_range] at hs
    rw [middle_member, p1, p3, Nat.mod_eq_of_lt hs]
  rw [hmap, List.filter_map]
  have hfil : (List.range (m * sm)).filter
        ((fun q => decide ((MPI_Cart_coords ⟨m, m * sm, m * sm⟩ q).get 1 % sm
            = (MPI_Cart_coords ⟨m, m * sm, m * sm⟩ ((z * (m * sm) + y) * (m * sm) + x)).get 1 % sm))
          ∘ fun s => (z * (m * sm) + s) * (m * sm) + x)
      = (List.range (m * sm)).filter (fun s => decide (s % sm = y % sm)) := by
    apply List.filter_congr
    intro s hs
    rw [List.mem_range] at hs
    simp only [Function.comp, coords_rank m (m * sm) z s x hs hx,
      coords_rank m (m * sm) z y x hy hx, Int3.get]
  rw [hfil, filter_mod_range sm (y % sm) m (Nat.mod_lt _ hsm), List.map_map]
  apply List.Sorted.insertionSort_eq
  apply sorted_map_range
  intro a b hab
  simp only [Function.comp]
  have h1 : a * sm ≤ b * sm := Nat.mul_le_mul_right sm (Nat.le_of_lt hab)
  have h2 : z * (m * sm) + (y % sm + a * sm) ≤ z * (m * sm) + (y % sm + b * sm) := by omega
  have h3 := Nat.mul_le_mul_right (m * sm) h2
  omega

theorem variant_createCommunicators (m sm : Nat) :
    Variant.createCommunicators (m * sm * (m * sm) * m) (Variant.gridDims (m * sm) m) sm = some
      { commXYplanes := MPI_Cart_sub ⟨m, m * sm, m * sm⟩ ⟨0, 1, 1⟩
        commYZplanes := MPI_Cart_sub ⟨m, m * sm, m * sm⟩ ⟨1, 1, 0⟩
        commZXplanes := MPI_Cart_sub ⟨m, m * sm, m * sm⟩ ⟨1, 0, 1⟩
        commXsingleDim := MPI_Cart_sub ⟨m, m * sm, m * sm⟩ ⟨0, 0, 1⟩
        commYsingleDim := MPI_Cart_sub ⟨m, m * sm, m * sm⟩ ⟨0, 1, 0⟩
        commZsingleDim := MPI_Cart_sub ⟨m, m * sm, m * sm⟩ ⟨1, 0, 0⟩
        commSubMatrixX := MPI_Comm_split (MPI_Cart_sub ⟨m, m * sm, m * sm⟩ ⟨0, 0, 1⟩)
          (fun r => (MPI_Cart_coords ⟨m, m * sm, m * sm⟩ r).get 2 % sm) (fun r => r)
        commSubMatrixY := MPI_Comm_split (MPI_Cart_sub ⟨m, m * sm, m * sm⟩ ⟨0, 1, 0⟩)
          (fun r => (MPI_Cart_coords ⟨m, m * sm, m * sm⟩ r).get 1 % sm) (fun r => r)
        cartRank := fun r => r
        coords := MPI_Cart_coords ⟨m, m * sm, m * sm⟩ } := by
  have hd : Variant.gridDims (m * sm) m = ⟨m, m * sm, m * sm⟩ := by
    simp [Variant.gridDims, Int3.set, Variant.X, Variant.Y, Variant.Z]
  have hp : (Int3.mk m (m * sm) (m * sm)).prod = m * sm * (m * sm) * m := by
    simp [Int3.prod]; ring
  rw [hd]
  simp [Variant.createCommunicators, hp, Variant.remaining, Int3.set, Variant.X, Variant.Y,
    Variant.Z]

theorem subX_bcastValid (m sm : Nat) (hsm : 0 < sm) :
    bcastValid (m * sm * (m * sm) * m)
      (MPI_Comm_split (MPI_Cart_sub ⟨m, m * sm, m * sm⟩ ⟨0, 0, 1⟩)
        (fun r => (MPI_Cart_coords ⟨m, m * sm, m * sm⟩ r).get 2 % sm) (fun r => r))
      (fun r => (MPI_Cart_coords ⟨m, m * sm, m * sm⟩ r).get 0) = true := by
  unfold bcastValid
  rw [List.all_eq_true]
  intro r hr
  rw [List.mem_range] at hr
  obtain ⟨z, y, x, hz, hy, hx, rfl⟩ := grid_cases' m (m * sm) r hr
  simp only [MPI_Comm_split, splitGroup_X m sm z y x hsm hy hx]
  simp only [List.length_map,
    List.length_range, coords_rank m (m * sm) z y x hy hx, Int3.get, Bool.and_eq_true,
    decide_eq_true_eq, List.all_eq_true, List.mem_range]
  refine ⟨hz, ?_⟩
  intro s hs
  rw [getD_map_range _ m s hs]
  have hlt : x % sm + s * sm < m * sm := by
    rw [Nat.add_comm]; exact block_lt m sm s _ hs (Nat.mod_lt _ hsm)
  rw [coords_rank m (m * sm) z y _ hy hlt]

theorem subY_bcastValid (m sm : Nat) (hsm : 0 < sm) :
    bcastValid (m * sm * (m * sm) * m)
      (MPI_Comm_split (MPI_Cart_sub ⟨m, m * sm, m * sm⟩ ⟨0, 1, 0⟩)
        (fun r => (MPI_Cart_coords ⟨m, m * sm, m * sm⟩ r).get 1 % sm) (fun r => r))
      (fun r => (MPI_Cart_coords ⟨m, m * sm, m * sm⟩ r).get 0) = true := by
  unfold bcastValid
  rw [List.all_eq_true]
  intro r hr
  rw [List.mem_range] at hr
  obtain ⟨z, y, x, hz, hy, hx, rfl⟩ := grid_cases' m (m * sm) r hr
  simp only [MPI_Comm_split, splitGroup_Y m sm z y x hsm hy hx]
  simp only [List.length_map,
    List.length_range, coords_rank m (m * sm) z y x hy hx, Int3.get, Bool.and_eq_true,
    decide_eq_true_eq, List.all_eq_true, List.mem_range]
  refine ⟨hz, ?_⟩
  intro s hs
  rw [getD_map_range _ m s hs]
  have hlt : y % sm + s * sm < m * sm := by
    rw [Nat.add_comm]; exact block_lt m sm s _ hs (Nat.mod_lt _ hsm)
  rw [coords_rank m (m * sm) z _ x hlt hx]

/-- The state `distribute` of dnsVariant.c ends in: the process at `(z, y, x)`
holds the element of A in its row at column `z*sm + x % sm`, and the element of
B in its column at row `z*sm + y % sm`. -/
theorem variant_distribute (m sm : Nat) (hm : 0 < m) (hsm : 0 < sm) (A B : Nat → Int)
    (init : Locals) (comms : Variant.Communicators)
    (hc : Variant.createCommunicators (m * sm * (m * sm) * m) (Variant.gridDims (m * sm) m) sm
      = some comms) :
    ∃ s, Variant.distribute (m * sm * (m * sm) * m) comms A B init = some s ∧
      s.localC = init.localC ∧ s.finalC = init.finalC ∧
      ∀ z y x, z < m → y < m * sm → x < m * sm →
        s.localA ((z * (m * sm) + y) * (m * sm) + x) = A (y * (m * sm) + (x % sm + z * sm)) ∧
        s.localB ((z * (m * sm) + y) * (m * sm) + x) = B ((y % sm + z * sm) * (m * sm) + x) := by
  rw [variant_createCommunicators] at hc
  cases hc
  simp only [Variant.distribute, Variant.scatter, Variant.Z, MPI_Scatter, MPI_Bcast, plane_rootedValid,
    depth_bcastValid m (m * sm) hm, subX_bcastValid m sm hsm, subY_bcastValid m sm hsm, if_true,
    Option.bind_eq_bind, Option.some_bind, Option.pure_def, bind_pure_comp]
  refine ⟨_, rfl, rfl, rfl, ?_⟩
  intro z y x hz hy hx
  have hxl : x % sm + z * sm < m * sm := by
    rw [Nat.add_comm]; exact block_lt m sm z _ hz (Nat.mod_lt _ hsm)
  have hyl : y % sm + z * sm < m * sm := by
    rw [Nat.add_comm]; exact block_lt m sm z _ hz (Nat.mod_lt _ hsm)
  simp only [MPI_Comm_split, splitGroup_X m sm z y x hsm hy hx,
    splitGroup_Y m sm z y x hsm hy hx]
  simp only [coords_rank m (m * sm) z y x hy hx, Int3.get,
    getD_map_range _ m z hz, depth_member, plane_rank]
  obtain ⟨q1, q2, q3⟩ := rank_parts (m * sm) z y (x % sm + z * sm) hy hxl
  obtain ⟨r1, r2, r3⟩ := rank_parts (m * sm) z (y % sm + z * sm) x hyl hx
  simp only [q1, q2, q3, r1, r2, r3, Nat.zero_mul, Nat.zero_add]
  obtain ⟨s1, s2, s3⟩ := rank_parts (m * sm) 0 y (x % sm + z * sm) hy hxl
  obtain ⟨t1, t2, t3⟩ := rank_parts (m * sm) 0 (y % sm + z * sm) x hyl hx
  simp only [Nat.zero_mul, Nat.zero_add] at s1 s2 s3 t1 t2 t3
  have c1 := coords_rank m (m * sm) 0 y (x % sm + z * sm) hy hxl
  have c2 := coords_rank m (m * sm) 0 (y % sm + z * sm) x hyl hx
  simp only [Nat.zero_mul, Nat.zero_add] at c1 c2
  simp only [c1, c2, s2, s3, t2, t3, decide_True, if_true]
  exact ⟨trivial, trivial⟩

/-! ## The ring exchanges of dnsVariant.c -/

theorem plane_rank_at (m n z y x : Nat) (hy : y < n) (hx : x < n) :
    (MPI_Cart_sub ⟨m, n, n⟩ ⟨0, 1, 1⟩).rank ((z * n + y) * n + x) = y * n + x := by
  obtain ⟨p1, p2, p3⟩ := rank_parts n z y x hy hx
  rw [plane_rank, p2, p3]

theorem plane_member_at (m n z y x y' x' : Nat) (hy : y < n) (hx : x < n) (hy' : y' < n)
    (hx' : x' < n) :
    (MPI_Cart_sub ⟨m, n, n⟩ ⟨0, 1, 1⟩).member ((z * n + y) * n + x) (y' * n + x')
      = (z * n + y') * n + x' := by
  obtain ⟨p1, p2, p3⟩ := rank_parts n z y x hy hx
  obtain ⟨d1, d2⟩ := divmod_helper y' x' n hx'
  rw [plane_member, p1, d1, d2, Nat.mod_eq_of_lt hy']

/-- The neighbours `findAdjacentCells` returns to the process at `(z, y, x)` for
distances not larger than the ring. -/
theorem adj_at (m sm y x dx dy : Nat) (hm : 0 < m) (hx : x < m * sm)
    (hdx : dx ≤ sm) (hdy : dy ≤ sm) :
    Variant.findAdjacentCells ((y * (m * sm) + x : Nat) : Int)
        ((m * sm : Nat) : Int) (m : Int) (dx : Int) (dy : Int)
      = { up := ((ringBwd sm y dy * (m * sm) + x : Nat) : Int)
          down := ((ringFwd sm y dy * (m * sm) + x : Nat) : Int)
          left := ((y * (m * sm) + ringBwd sm x dx : Nat) : Int)
          right := ((y * (m * sm) + ringFwd sm x dx : Nat) : Int) } := by
  have hdiv : m * sm / m = sm := Nat.mul_div_cancel_left sm hm
  obtain ⟨d1, d2⟩ := divmod_helper y x (m * sm) hx
  rw [findAdjacentCells_cast (y * (m * sm) + x) (m * sm) m dx dy
      (by rw [hdiv]; exact hdx.trans (Nat.le_add_left _ _))
      (by rw [hdiv]; exact hdy.trans (Nat.le_add_left _ _)),
    hdiv, d1, d2]

/-- Exchanges along a row, in both directions: every process names a partner
in its plane and the partner names it back, when the distance is the same for
all processes of a row. -/
theorem sendrecv_rows (m sm : Nat) (hm : 0 < m) (dX dY : Nat → Nat)
    (hX : ∀ r, dX r ≤ sm) (hY : ∀ r, dY r ≤ sm)
    (hrow : ∀ z y x x', y < m * sm → x < m * sm → x' < m * sm →
      dX ((z * (m * sm) + y) * (m * sm) + x') = dX ((z * (m * sm) + y) * (m * sm) + x)) :
    sendrecvValid (m * sm * (m * sm) * m) (MPI_Cart_sub ⟨m, m * sm, m * sm⟩ ⟨0, 1, 1⟩)
      (fun r => (Variant.findAdjacentCells ((MPI_Cart_sub ⟨m, m * sm, m * sm⟩ ⟨0, 1, 1⟩).rank r)
        ((m * sm : Nat) : Int) (m : Int) (dX r) (dY r)).left)
      (fun r => (Variant.findAdjacentCells ((MPI_Cart_sub ⟨m, m * sm, m * sm⟩ ⟨0, 1, 1⟩).rank r)
        ((m * sm : Nat) : Int) (m : Int) (dX r) (dY r)).right) = true ∧
    sendrecvValid (m * sm * (m * sm) * m) (MPI_Cart_sub ⟨m, m * sm, m * sm⟩ ⟨0, 1, 1⟩)
      (fun r => (Variant.findAdjacentCells ((MPI_Cart_sub ⟨m, m * sm, m * sm⟩ ⟨0, 1, 1⟩).rank r)
        ((m * sm : Nat) : Int) (m : Int) (dX r) (dY r)).right)
      (fun r => (Variant.findAdjacentCells ((MPI_Cart_sub ⟨m, m * sm, m * sm⟩ ⟨0, 1, 1⟩).rank r)
        ((m * sm : Nat) : Int) (m : Int) (dX r) (dY r)).left) = true := by
  have main : ∀ r, r < m * sm * (m * sm) * m →
      ∃ z y x, y < m * sm ∧ x < m * sm ∧ r = (z * (m * sm) + y) * (m * sm) + x ∧
        ringBwd sm x (dX r) < m * sm ∧ ringFwd sm x (dX r) < m * sm ∧
        y * (m * sm) + ringBwd sm x (dX r) < m * sm * (m * sm) ∧
        y * (m * sm) + ringFwd sm x (dX r) < m * sm * (m * sm) := by
    intro r hr
    obtain ⟨z, y, x, hz, hy, hx, rfl⟩ := grid_cases' m (m * sm) r hr
    have hb := ringBwd_lt m sm x (dX ((z * (m * sm) + y) * (m * sm) + x)) hx (hX _)
    have hf := ringFwd_lt m sm x (dX ((z * (m * sm) + y) * (m * sm) + x)) hx
    exact ⟨z, y, x, hy, hx, rfl, hb, hf, block_lt _ _ _ _ hy hb, block_lt _ _ _ _ hy hf⟩
  constructor
  all_goals
    unfold sendrecvValid
    rw [List.all_eq_true]
    intro r hr
    rw [List.mem_range] at hr
    obtain ⟨z, y, x, hy, hx, rfl, hb, hf, hbl, hfl⟩ := main r hr
    simp only [adj_at m sm y x _ _ hm hx (hX _) (hY _), plane_size, Int.toNat_natCast,
      plane_member_at m (m * sm) z y x _ _ hy hx hy hb,
      plane_member_at m (m * sm) z y x _ _ hy hx hy hf,
      plane_rank_at m (m * sm) z y _ hy hb, plane_rank_at m (m * sm) z y _ hy hf,
      adj_at m sm y _ _ _ hm hb (hX _) (hY _),
      adj_at m sm y _ _ _ hm hf (hX _) (hY _),
      hrow z y x _ hy hx hb, hrow z y x _ hy hx hf,
      ringBwd_ringFwd m sm x _ hx (hX _), ringFwd_ringBwd m sm x _ hx (hX _),
      plane_rank_at m (m * sm) z y x hy hx,
      Bool.and_eq_true, decide_eq_true_eq, Nat.cast_lt, Nat.cast_nonneg, and_true, true_and]
    first | exact ⟨hbl, hfl⟩ | exact ⟨hfl, hbl⟩

/-- Exchanges along a column, in both directions: every process names a
partner in its plane and the partner names it back, when the distance is the
same for all processes of a column. -/
theorem sendrecv_cols (m sm : Nat) (hm : 0 < m) (dX dY : Nat → Nat)
    (hX : ∀ r, dX r ≤ sm) (hY : ∀ r, dY r ≤ sm)
    (hcol : ∀ z y x y', y < m * sm → x < m * sm → y' < m * sm →
      dY ((z * (m * sm) + y') * (m * sm) + x) = dY ((z * (m * sm) + y) * (m * sm) + x)) :
    sendrecvValid (m * sm * (m * sm) * m) (MPI_Cart_sub ⟨m, m * sm, m * sm⟩ ⟨0, 1, 1⟩)
      (fun r => (Variant.findAdjacentCells ((MPI_Cart_sub ⟨m, m * sm, m * sm⟩ ⟨0, 1, 1⟩).rank r)
        ((m * sm : Nat) : Int) (m : Int) (dX r) (dY r)).up)
      (fun r => (Variant.findAdjacentCells ((MPI_Cart_sub ⟨m, m * sm, m * sm⟩ ⟨0, 1, 1⟩).rank r)
        ((m * sm : Nat) : Int) (m : Int) (dX r) (dY r)).down) = true ∧
    sendrecvValid (m * sm * (m * sm) * m) (MPI_Cart_sub ⟨m, m * sm, m * sm⟩ ⟨0, 1, 1⟩)
      (fun r => (Variant.findAdjacentCells ((MPI_Cart_sub ⟨m, m * sm, m * sm⟩ ⟨0, 1, 1⟩).rank r)
        ((m * sm : Nat) : Int) (m : Int) (dX r) (dY r)).down)
      (fun r => (Variant.findAdjacentCells ((MPI_Cart_sub ⟨m, m * sm, m * sm⟩ ⟨0, 1, 1⟩).rank r)
        ((m * sm : Nat) : Int) (m : Int) (dX r) (dY r)).up) = true := by
  have main : ∀ r, r < m * sm * (m * sm) * m →
      ∃ z y x, y < m * sm ∧ x < m * sm ∧ r = (z * (m * sm) + y) * (m * sm) + x ∧
        ringBwd sm y (dY r) < m * sm ∧ ringFwd sm y (dY r) < m * sm ∧
        ringBwd sm y (dY r) * (m * sm) + x < m * sm * (m * sm) ∧
        ringFwd sm y (dY r) * (m * sm) + x < m * sm * (m * sm) := by
    intro r hr
    obtain ⟨z, y, x, hz, hy, hx, rfl⟩ := grid_cases' m (m * sm) r hr
    have hb := ringBwd_lt m sm y (dY ((z * (m * sm) + y) * (m * sm) + x)) hy (hY _)
    have hf := ringFwd_lt m sm y (dY ((z * (m * sm) + y) * (m * sm) + x)) hy
    exact ⟨z, y, x, hy, hx, rfl, hb, hf, block_lt _ _ _ _ hb hx, block_lt _ _ _ _ hf hx⟩
  constructor
  all_goals
    unfold sendrecvValid
    rw [List.all_eq_true]
    intro r hr
    rw [List.mem_range] at hr
    obtain ⟨z, y, x, hy, hx, rfl, hb, hf, hbl, hfl⟩ := main r hr
    simp only [adj_at m sm y x _ _ hm hx (hX _) (hY _), plane_size, Int.toNat_natCast,
      plane_member_at m (m * sm) z y x _ _ hy hx hb hx,
      plane_member_at m (m * sm) z y x _ _ hy hx hf hx,
      plane_rank_at m (m * sm) z _ x hb hx, plane_rank_at m (m * sm) z _ x hf hx,
      adj_at m sm _ x _ _ hm hx (hX _) (hY _),
      hcol z y x _ hy hx hb, hcol z y x _ hy hx hf,
      ringBwd_ringFwd m sm y _ hy (hY _), ringFwd_ringBwd m sm y _ hy (hY _),
      plane_rank_at m (m * sm) z y x hy hx,
      Bool.and_eq_true, decide_eq_true_eq, Nat.cast_lt, Nat.cast_nonneg, and_true, true_and]
    first | exact ⟨hbl, hfl⟩ | exact ⟨hfl, hbl⟩

/-- The initial alignment of dnsVariant.c completes, and the process at
`(z, y, x)` receives A from the process `y % sm` places to its right in its
ring and B from the process `x % sm` places below it. -/
theorem variant_skew (m sm : Nat) (hm : 0 < m) (hsm : 0 < sm) (s : Locals)
    (comms : Variant.Communicators)
    (hc : Variant.createCommunicators (m * sm * (m * sm) * m) (Variant.gridDims (m * sm) m) sm
      = some comms) :
    ∃ t, Variant.skew (m * sm * (m * sm) * m) (m * sm) m comms s = some t ∧
      t.localC = s.localC ∧ t.finalC = s.finalC ∧
      ∀ z y x, z < m → y < m * sm → x < m * sm →
        t.localA ((z * (m * sm) + y) * (m * sm) + x)
          = s.localA ((z * (m * sm) + y) * (m * sm) + ringFwd sm x (y % sm)) ∧
        t.localB ((z * (m * sm) + y) * (m * sm) + x)
          = s.localB ((z * (m * sm) + ringFwd sm y (x % sm)) * (m * sm) + x) := by
  rw [variant_createCommunicators] at hc
  cases hc
  have hdiv : m * sm / m = sm := Nat.mul_div_cancel_left sm hm
  have hX : ∀ r, (MPI_Cart_coords ⟨m, m * sm, m * sm⟩ r).get Variant.Y % sm ≤ sm :=
    fun r => Nat.le_of_lt (Nat.mod_lt _ hsm)
  have hY : ∀ r, (MPI_Cart_coords ⟨m, m * sm, m * sm⟩ r).get Variant.X % sm ≤ sm :=
    fun r => Nat.le_of_lt (Nat.mod_lt _ hsm)
  have hrow : ∀ z y x x', y < m * sm → x < m * sm → x' < m * sm →
      (MPI_Cart_coords ⟨m, m * sm, m * sm⟩ ((z * (m * sm) + y) * (m * sm) + x')).get Variant.Y % sm
        = (MPI_Cart_coords ⟨m, m * sm, m * sm⟩ ((z * (m * sm) + y) * (m * sm) + x)).get Variant.Y
            % sm := by
    intro z y x x' hy hx hx'
    rw [coords_rank m _ z y x' hy hx', coords_rank m _ z y x hy hx]
    rfl
  have hcol : ∀ z y x y', y < m * sm → x < m * sm → y' < m * sm →
      (MPI_Cart_coords ⟨m, m * sm, m * sm⟩ ((z * (m * sm) + y') * (m * sm) + x)).get Variant.X % sm
        = (MPI_Cart_coords ⟨m, m * sm, m * sm⟩ ((z * (m * sm) + y) * (m * sm) + x)).get Variant.X
            % sm := by
    intro z y x y' hy hx hy'
    rw [coords_rank m _ z y' x hy' hx, coords_rank m _ z y x hy hx]
    rfl
  have hv1 := (sendrecv_rows m sm hm _ _ hX hY hrow).1
  have hv2 := (sendrecv_cols m sm hm _ _ hX hY hcol).1
  simp only [Variant.skew, MPI_Sendrecv_replace, hdiv, hv1, hv2, if_true,
    Option.bind_eq_bind, Option.some_bind, Option.pure_def, bind_pure_comp]
  refine ⟨_, rfl, rfl, rfl, ?_⟩
  intro z y x hz hy hx
  have hf1 := ringFwd_lt m sm x (y % sm) hx
  have hf2 := ringFwd_lt m sm y (x % sm) hy
  simp only [plane_rank_at m (m * sm) z y x hy hx, coords_rank m (m * sm) z y x hy hx,
    Variant.X, Variant.Y, Int3.get,
    adj_at m sm y x _ _ hm hx (Nat.le_of_lt (Nat.mod_lt _ hsm))
      (Nat.le_of_lt (Nat.mod_lt _ hsm)),
    Int.toNat_natCast, plane_member_at m (m * sm) z y x _ _ hy hx hy hf1,
    plane_member_at m (m * sm) z y x _ _ hy hx hf2 hx]
  exact ⟨trivial, trivial⟩

/-- One iteration of the loop of dnsVariant.c completes: the product is
added to `localC`, A arrives from the left neighbour and B from the upper
one. -/
theorem variant_shiftStep (m sm : Nat) (hm : 0 < m) (hsm : 0 < sm) (s : Locals)
    (comms : Variant.Communicators)
    (hc : Variant.createCommunicators (m * sm * (m * sm) * m) (Variant.gridDims (m * sm) m) sm
      = some comms) :
    ∃ t, Variant.shiftStep (m * sm * (m * sm) * m) (m * sm) m comms s = some t ∧
      t.finalC = s.finalC ∧
      t.localC = (fun r => intAdd (s.localC r) (intMul (s.localA r) (s.localB r))) ∧
      ∀ z y x, z < m → y < m * sm → x < m * sm →
        t.localA ((z * (m * sm) + y) * (m * sm) + x)
          = s.localA ((z * (m * sm) + y) * (m * sm) + ringBwd sm x 1) ∧
        t.localB ((z * (m * sm) + y) * (m * sm) + x)
          = s.localB ((z * (m * sm) + ringBwd sm y 1) * (m * sm) + x) := by
  rw [variant_createCommunicators] at hc
  cases hc
  have hv1 := (sendrecv_rows m sm hm (fun _ => 1) (fun _ => 1) (fun _ => hsm) (fun _ => hsm)
    (fun _ _ _ _ _ _ _ => rfl)).2
  have hv2 := (sendrecv_cols m sm hm (fun _ => 1) (fun _ => 1) (fun _ => hsm) (fun _ => hsm)
    (fun _ _ _ _ _ _ _ => rfl)).2
  simp only [Nat.cast_one] at hv1 hv2
  simp only [Variant.shiftStep, MPI_Sendrecv_replace, hv1, hv2, if_true,
    Option.bind_eq_bind, Option.some_bind, Option.pure_def, bind_pure_comp]
  refine ⟨_, rfl, rfl, rfl, ?_⟩
  intro z y x hz hy hx
  have hb1 := ringBwd_lt m sm x 1 hx hsm
  have hb2 := ringBwd_lt m sm y 1 hy hsm
  have hadj := adj_at m sm y x 1 1 hm hx hsm hsm
  simp only [Nat.cast_one] at hadj
  simp only [plane_rank_at m (m * sm) z y x hy hx, hadj,
    Int.toNat_natCast, plane_member_at m (m * sm) z y x _ _ hy hx hy hb1,
    plane_member_at m (m * sm) z y x _ _ hy hx hb2 hx]
  exact ⟨trivial, trivial⟩

/-! ## The shift loop of dnsVariant.c -/

theorem cannonIndex_step_x (sm x y t : Nat) (hsm : 0 < sm) (ht : t < sm) :
    cannonIndex sm (ringBwd sm x 1) y t = cannonIndex sm x y (t + 1) := by
  unfold cannonIndex
  rw [ringBwd_mod sm x 1 hsm]
  have e1 : (x % sm + (sm - 1)) % sm + y % sm + (sm - t)
      = (x % sm + (sm - 1)) % sm + (y % sm + (sm - t)) := by omega
  have e2 : x % sm + (sm - 1) + (y % sm + (sm - t))
      = x % sm + y % sm + (sm - (t + 1)) + sm := by omega
  rw [e1, Nat.mod_add_mod, e2, Nat.add_mod_right]

theorem cannonIndex_step_y (sm x y t : Nat) (hsm : 0 < sm) (ht : t < sm) :
    cannonIndex sm x (ringBwd sm y 1) t = cannonIndex sm x y (t + 1) := by
  unfold cannonIndex
  rw [ringBwd_mod sm y 1 hsm]
  have e1 : x % sm + (y % sm + (sm - 1)) % sm + (sm - t)
      = (y % sm + (sm - 1)) % sm + (x % sm + (sm - t)) := by omega
  have e2 : y % sm + (sm - 1) + (x % sm + (sm - t))
      = x % sm + y % sm + (sm - (t + 1)) + sm := by omega
  rw [e1, Nat.mod_add_mod, e2, Nat.add_mod_right]

theorem cannonIndex_zero_x (sm x y : Nat) :
    ringFwd sm x (y % sm) % sm = cannonIndex sm x y 0 := by
  unfold cannonIndex
  rw [ringFwd_mod, Nat.sub_zero, Nat.add_mod_right]

theorem cannonIndex_zero_y (sm x y : Nat) :
    ringFwd sm y (x % sm) % sm = cannonIndex sm x y 0 := by
  unfold cannonIndex
  rw [ringFwd_mod, Nat.sub_zero, Nat.add_mod_right, Nat.add_comm]

/-- The loop of dnsVariant.c keeps the invariant for up to `sm` iterations. -/
theorem variant_shiftLoop (m sm : Nat) (hm : 0 < m) (hsm : 0 < sm) (A B : Nat → Int)
    (comms : Variant.Communicators)
    (hc : Variant.createCommunicators (m * sm * (m * sm) * m) (Variant.gridDims (m * sm) m) sm
      = some comms)
    (s : Locals) (hs : CannonInv m sm A B 0 s) (t : Nat) (ht : t ≤ sm) :
    ∃ u, Variant.shiftLoop (m * sm * (m * sm) * m) (m * sm) m comms t s = some u ∧
      u.finalC = s.finalC ∧ CannonInv m sm A B t u := by
  induction t with
  | zero => exact ⟨s, rfl, rfl, hs⟩
  | succ t ih =>
    obtain ⟨u, hu, hfin, hinv⟩ := ih (Nat.le_of_succ_le ht)
    obtain ⟨v, hv, hvf, hvc, hvab⟩ := variant_shiftStep m sm hm hsm u comms hc
    refine ⟨v, ?_, by rw [hvf, hfin], ?_⟩
    · unfold Variant.shiftLoop at hu ⊢
      rw [List.range_succ, List.foldlM_append, hu]
      simp only [Option.bind_eq_bind, Option.some_bind, List.foldlM_cons, List.foldlM_nil, hv,
        Option.pure_def]
    · intro z y x hz hy hx
      obtain ⟨ha, hb⟩ := hvab z y x hz hy hx
      have hbx := ringBwd_lt m sm x 1 hx hsm
      have hby := ringBwd_lt m sm y 1 hy hsm
      obtain ⟨a1, -, -⟩ := hinv z y (ringBwd sm x 1) hz hy hbx
      obtain ⟨-, b1, -⟩ := hinv z (ringBwd sm y 1) x hz hby hx
      obtain ⟨a0, b0, c0⟩ := hinv z y x hz hy hx
      refine ⟨?_, ?_, ?_⟩
      · rw [ha, a1, cannonIndex_step_x sm x y t hsm (by omega)]
      · rw [hb, b1, cannonIndex_step_y sm x y t hsm (by omega)]
      · rw [hvc]
        simp only []
        rw [a0, b0, c0, Finset.sum_range_succ]
        unfold intAdd intMul
        rw [wrapInt_add_left, wrapInt_add_right]

theorem sum_cannonIndex (sm c : Nat) (h : Nat → Int) :
    ∑ i ∈ Finset.range sm, h ((c + (sm - i)) % sm) = ∑ l ∈ Finset.range sm, h l := by
  have red : ∀ w, (c + w) % sm = (c % sm + w) % sm := by
    intro w; rw [Nat.mod_add_mod]
  have inv : ∀ a, a < sm → (c + (sm - (c + (sm - a)) % sm)) % sm = a := by
    intro a ha
    have hc : c % sm < sm := Nat.mod_lt _ (by omega)
    rw [red (sm - a)]
    rcases mod_cases (c % sm + (sm - a)) sm (by omega) with ⟨h1, h2⟩ | ⟨h1, h2⟩
    · rw [h2, red]
      rcases mod_cases (c % sm + (sm - (c % sm + (sm - a)))) sm (by omega) with
        ⟨h3, h4⟩ | ⟨h3, h4⟩ <;> omega
    · rw [h2, red]
      rcases mod_cases (c % sm + (sm - (c % sm + (sm - a) - sm))) sm (by omega) with
        ⟨h3, h4⟩ | ⟨h3, h4⟩ <;> omega
  apply Finset.sum_nbij' (fun i => (c + (sm - i)) % sm) (fun l => (c + (sm - l)) % sm)
  · intro a ha
    rw [Finset.mem_range] at ha ⊢
    exact Nat.mod_lt _ (by omega)
  · intro a ha
    rw [Finset.mem_range] at ha ⊢
    exact Nat.mod_lt _ (by omega)
  · intro a ha
    rw [Finset.mem_range] at ha
    exact inv a ha
  · intro a ha
    rw [Finset.mem_range] at ha
    exact inv a ha
  · intro a _
    rfl

theorem sum_blocks (f : Nat → Int) (m sm : Nat) :
    ∑ k ∈ Finset.range (m * sm), f k
      = ∑ z ∈ Finset.range m, ∑ l ∈ Finset.range sm, f (l + z * sm) := by
  induction m with
  | zero => simp
  | succ m ih =>
    rw [Nat.succ_mul, Finset.sum_range_add, ih, Finset.sum_range_succ]
    congr 1
    apply Finset.sum_congr rfl
    intro l _
    rw [Nat.add_comm]

/-- The state of dnsVariant.c when the loop has ended. -/
theorem variant_accumulate (m sm : Nat) (hm : 0 < m) (hsm : 0 < sm) (A B : Nat → Int)
    (init : Locals) (comms : Variant.Communicators)
    (hc : Variant.createCommunicators (m * sm * (m * sm) * m) (Variant.gridDims (m * sm) m) sm
      = some comms) :
    ∃ u, Variant.accumulate (m * sm * (m * sm) * m) (m * sm) m comms A B init = some u ∧
      u.finalC = init.finalC ∧
      ∀ z y x, z < m → y < m * sm → x < m * sm →
        u.localC ((z * (m * sm) + y) * (m * sm) + x)
          = wrapInt (∑ l ∈ Finset.range sm,
              A (y * (m * sm) + (l + z * sm)) * B ((l + z * sm) * (m * sm) + x)) := by
  have hdiv : m * sm / m = sm := Nat.mul_div_cancel_left sm hm
  obtain ⟨s, hs, hsc, hsf, hsab⟩ :=
    variant_distribute m sm hm hsm A B { init with localC := fun _ => 0 } comms hc
  obtain ⟨t, ht, htc, htf, htab⟩ := variant_skew m sm hm hsm s comms hc
  have hinv0 : CannonInv m sm A B 0 t := by
    intro z y x hz hy hx
    obtain ⟨ha, hb⟩ := htab z y x hz hy hx
    have hf1 := ringFwd_lt m sm x (y % sm) hx
    have hf2 := ringFwd_lt m sm y (x % sm) hy
    obtain ⟨a1, -⟩ := hsab z y _ hz hy hf1
    obtain ⟨-, b1⟩ := hsab z _ x hz hf2 hx
    refine ⟨?_, ?_, ?_⟩
    · rw [ha, a1, cannonIndex_zero_x]
    · rw [hb, b1, cannonIndex_zero_y]
    · rw [htc, hsc]
      rfl
  obtain ⟨u, hu, huf, huinv⟩ := variant_shiftLoop m sm hm hsm A B comms hc t hinv0 sm (Nat.le_refl _)
  refine ⟨u, ?_, by rw [huf, htf, hsf], ?_⟩
  · simp only [Variant.accumulate, hs, ht, hdiv, hu, Option.bind_eq_bind, Option.some_bind]
  · intro z y x hz hy hx
    obtain ⟨-, -, hcv⟩ := huinv z y x hz hy hx
    rw [hcv]
    congr 1
    exact sum_cannonIndex sm (x % sm + y % sm)
      (fun l => A (y * (m * sm) + (l + z * sm)) * B ((l + z * sm) * (m * sm) + x))

/-- The matrix dnsVariant.c gathers on rank 0 for a grid of `m` layers of
`(m*sm) x (m*sm)` processes. -/
theorem variant_compute (m sm : Nat) (hm : 0 < m) (hsm : 0 < sm) (A B : Nat → Int)
    (init : Locals) :
    Variant.compute (m * sm * (m * sm) * m) (m * sm) A B init
      = some ((List.range (m * sm * (m * sm))).map fun t =>
          wrapInt (∑ k ∈ Finset.range (m * sm),
            A (t / (m * sm) * (m * sm) + k) * B (k * (m * sm) + t % (m * sm)))) := by
  have hn : 0 < m * sm := Nat.mul_pos hm hsm
  have hdiv : m * sm / m = sm := Nat.mul_div_cancel_left sm hm
  have hp : m * sm * (m * sm) * m / (m * sm * (m * sm)) = m :=
    Nat.mul_div_cancel_left m (Nat.mul_pos hn hn)
  obtain ⟨u, hu, -, hC⟩ :=
    variant_accumulate m sm hm hsm A B init _ (variant_createCommunicators m sm)
  simp only [Variant.compute, hp, hdiv, variant_createCommunicators, Option.bind_eq_bind,
    Option.some_bind, hu, Variant.gather, Variant.Z, MPI_Gather, plane_rootedValid, Bool.true_and]
  have h0 : (MPI_Cart_coords ⟨m, m * sm, m * sm⟩ 0).get 0 = 0 := by
    simp [MPI_Cart_coords, Int3.get]
  simp only [h0, decide_True, if_true, plane_size, Option.some.injEq]
  apply List.map_congr_left
  intro t ht
  rw [List.mem_range] at ht
  have htn : t / (m * sm) < m * sm := Nat.div_lt_of_lt_mul ht
  have htm : t % (m * sm) < m * sm := Nat.mod_lt _ hn
  simp only [plane_member, Nat.zero_div, Nat.zero_mul, Nat.zero_add, Nat.mod_eq_of_lt htn,
    MPI_Reduce, depth_rank, depth_size, depth_member]
  obtain ⟨p1, p2, p3⟩ := rank_parts (m * sm) 0 (t / (m * sm)) (t % (m * sm)) htn htm
  simp only [Nat.zero_mul, Nat.zero_add] at p1 p2 p3
  simp only [p1, p2, p3, if_true]
  rw [sum_blocks, ← intSum_products _ m hm]
  congr 1
  apply List.map_congr_left
  intro z hz
  rw [List.mem_range] at hz
  exact hC z (t / (m * sm)) (t % (m * sm)) hz htn htm

theorem exists_block_size (n m : Nat) (hn : 1 ≤ n) (hdiv : n % m = 0) :
    ∃ sm, 0 < sm ∧ n = m * sm := by
  have h := Nat.div_add_mod n m
  rw [hdiv, Nat.add_zero] at h
  refine ⟨n / m, ?_, h.symm⟩
  rcases Nat.eq_zero_or_pos (n / m) with h0 | h0
  · rw [h0, Nat.mul_zero] at h; omega
  · exact h0

/-! ## Claims on the block shift engine (dnsVariant.c) -/

/-- C1: for every `n >= 1`, `m >= 1` with `n % m = 0` and `p = n*n*m`
processes, the matrix dnsVariant.c gathers on the coordinator after scatter,
depth replication, sub-block-group broadcasts, skew, `n/m` accumulate-and-shift
iterations and depth reduction is, element for element, the matrix
`sequentialMatrixMultiply` produces from the same operands, whatever the
uninitialised variables and the result buffer held before. -/
theorem C1_block_engine_equals_sequential (n m : Nat) (hn : 1 ≤ n) (hm : 1 ≤ m)
    (hdiv : n % m = 0) (A B C0 : Nat → Int) (init : Locals) :
    Variant.compute (n * n * m) n A B init
      = some (toList (sequentialMatrixMultiply A B C0 n) (n * n)) := by
  obtain ⟨sm, hsm, rfl⟩ := exists_block_size n m hn hdiv
  rw [variant_compute m sm hm hsm A B init, toList]
  congr 1
  apply List.map_congr_left
  intro t ht
  rw [List.mem_range] at ht
  rw [sequentialMatrixMultiply_apply, if_pos ht]

/-- C1 at `n = 4`, `m = 2`, 32 processes, sub-blocks of side 2. -/
theorem C1_block_engine_4x4x2 :
    1 ≤ 4 ∧ 1 ≤ 2 ∧ 4 % 2 = 0 ∧
    Variant.compute (4 * 4 * 2) 4 (identityPlusOnes 4) (unitAt 6) junkLocals
      = some (toList (sequentialMatrixMultiply (identityPlusOnes 4) (unitAt 6) (fun _ => 0) 4)
          (4 * 4)) :=
  ⟨by decide, by decide, by decide,
   C1_block_engine_equals_sequential 4 2 (by decide) (by decide) (by decide)
     (identityPlusOnes 4) (unitAt 6) (fun _ => 0) junkLocals⟩

/-- C7: for `n, m >= 1` with `n % m = 0` and `sm = n/m`, after the sub-block
group broadcasts, the initial skew and the `sm` accumulate-and-shift
iterations, the process at (Row `y`, Column `x`, Depth `z`), that is with
`cartCoords[Y] = y`, `cartCoords[X] = x`, `cartCoords[Z] = z`, holds in `localC`
the `int` sum over `l < sm` of `A[y*n + z*sm + l] * B[(z*sm + l)*n + x]`: each
contraction index of depth slice `z` contributes exactly once. -/
theorem C7_cannon_local_accumulation (n m : Nat) (hn : 1 ≤ n) (hm : 1 ≤ m)
    (hdiv : n % m = 0) (A B : Nat → Int) (init : Locals) :
    ∃ comms u,
      Variant.createCommunicators (n * n * m) (Variant.gridDims n m) (n / m) = some comms ∧
      Variant.accumulate (n * n * m) n m comms A B init = some u ∧
      ∀ r, r < n * n * m →
        (comms.coords r).get Variant.Y < n ∧ (comms.coords r).get Variant.X < n ∧
        (comms.coords r).get Variant.Z < m ∧
        u.localC r = wrapInt (∑ l ∈ Finset.range (n / m),
          A ((comms.coords r).get Variant.Y * n + (comms.coords r).get Variant.Z * (n / m) + l)
            * B (((comms.coords r).get Variant.Z * (n / m) + l) * n
                + (comms.coords r).get Variant.X)) := by
  obtain ⟨sm, hsm, rfl⟩ := exists_block_size n m hn hdiv
  have hd : m * sm / m = sm := Nat.mul_div_cancel_left sm hm
  rw [hd]
  obtain ⟨u, hu, -, hC⟩ :=
    variant_accumulate m sm hm hsm A B init _ (variant_createCommunicators m sm)
  refine ⟨_, u, variant_createCommunicators m sm, hu, ?_⟩
  intro r hr
  obtain ⟨z, y, x, hz, hy, hx, rfl⟩ := grid_cases' m (m * sm) r hr
  simp only [coords_rank m (m * sm) z y x hy hx, Int3.get, Variant.X, Variant.Y, Variant.Z]
  refine ⟨hy, hx, hz, ?_⟩
  rw [hC z y x hz hy hx]
  congr 1
  apply Finset.sum_congr rfl
  intro l _
  rw [Nat.add_comm l (z * sm), Nat.add_assoc]

/-- C7 at `n = 4`, `m = 2`, 32 processes, sub-blocks of side 2. -/
theorem C7_cannon_local_accumulation_4x4x2 :
    1 ≤ 4 ∧ 1 ≤ 2 ∧ 4 % 2 = 0 ∧
    ∃ comms u,
      Variant.createCommunicators (4 * 4 * 2) (Variant.gridDims 4 2) (4 / 2) = some comms ∧
      Variant.accumulate (4 * 4 * 2) 4 2 comms (identityPlusOnes 4) (unitAt 6) junkLocals
        = some u ∧
      ∀ r, r < 4 * 4 * 2 →
        (comms.coords r).get Variant.Y < 4 ∧ (comms.coords r).get Variant.X < 4 ∧
        (comms.coords r).get Variant.Z < 2 ∧
        u.localC r = wrapInt (∑ l ∈ Finset.range (4 / 2),
          identityPlusOnes 4
              ((comms.coords r).get Variant.Y * 4 + (comms.coords r).get Variant.Z * (4 / 2) + l)
            * unitAt 6 (((comms.coords r).get Variant.Z * (4 / 2) + l) * 4
                + (comms.coords r).get Variant.X)) :=
  ⟨by decide, by decide, by decide,
   C7_cannon_local_accumulation 4 2 (by decide) (by decide) (by decide)
     (identityPlusOnes 4) (unitAt 6) junkLocals⟩

/-! ## Scatter and gather -/

theorem variant_createCommunicators_plane (n m d : Nat) :
    ∃ comms, Variant.createCommunicators (n * n * m) (Variant.gridDims n m) d = some comms ∧
      comms.commXYplanes = MPI_Cart_sub ⟨m, n, n⟩ ⟨0, 1, 1⟩ ∧
      comms.coords = MPI_Cart_coords ⟨m, n, n⟩ := by
  have hd : Variant.gridDims n m = ⟨m, n, n⟩ := by
    simp [Variant.gridDims, Int3.set, Variant.X, Variant.Y, Variant.Z]
  have hp : (Int3.mk m n n).prod = n * n * m := by
    simp [Int3.prod]; ring
  rw [hd]
  simp [Variant.createCommunicators, hp, Variant.remaining, Int3.set, Variant.X, Variant.Y,
    Variant.Z]

/-- Scatter over the plane `Z = 0` followed by a gather of the received values:
the process at `(0, y, x)` has plane rank `y*n + x` and receives element
`y*n + x`; the gather returns the matrix. -/
theorem plane_scatter_gather (n m : Nat) (hn : 0 < n) (M junk : Nat → Int) :
    ∃ loc,
      MPI_Scatter (n * n * m) (MPI_Cart_sub ⟨m, n, n⟩ ⟨0, 1, 1⟩)
        (fun r => decide ((MPI_Cart_coords ⟨m, n, n⟩ r).get 0 = 0)) (fun r => decide (r = 0))
        M junk = some loc ∧
      (∀ y x, y < n → x < n → loc (y * n + x) = M (y * n + x)) ∧
      MPI_Gather (n * n * m) (MPI_Cart_sub ⟨m, n, n⟩ ⟨0, 1, 1⟩)
        (fun r => decide ((MPI_Cart_coords ⟨m, n, n⟩ r).get 0 = 0)) (fun r => decide (r = 0))
        0 loc = some (toList M (n * n)) := by
  have h0 : (MPI_Cart_coords ⟨m, n, n⟩ 0).get 0 = 0 := by simp [MPI_Cart_coords, Int3.get]
  have hloc : ∀ y x, y < n → x < n →
      (if decide ((MPI_Cart_coords ⟨m, n, n⟩ (y * n + x)).get 0 = 0) = true then
        M ((MPI_Cart_sub ⟨m, n, n⟩ ⟨0, 1, 1⟩).rank (y * n + x)) else junk (y * n + x))
      = M (y * n + x) := by
    intro y x hy hx
    have c := coords_rank m n 0 y x hy hx
    have r := plane_rank_at m n 0 y x hy hx
    simp only [Nat.zero_mul, Nat.zero_add] at c r
    simp only [c, r, Int3.get, decide_True, if_true]
  simp only [MPI_Scatter, MPI_Gather, plane_rootedValid, if_true, h0, decide_True,
    Bool.true_and, plane_size]
  refine ⟨_, rfl, hloc, ?_⟩
  rw [toList]
  congr 1
  apply List.map_congr_left
  intro t ht
  rw [List.mem_range] at ht
  have htn : t / n < n := Nat.div_lt_of_lt_mul ht
  have htm : t % n < n := Nat.mod_lt _ hn
  have e : t / n * n + t % n = t := by
    rw [Nat.mul_comm]; exact Nat.div_add_mod t n
  have hmem : (MPI_Cart_sub ⟨m, n, n⟩ ⟨0, 1, 1⟩).member 0 t = t := by
    rw [plane_member, Nat.zero_div, Nat.zero_mul, Nat.zero_add, Nat.mod_eq_of_lt htn, e]
  rw [hmem]
  have := hloc (t / n) (t % n) htn htm
  rw [e] at this
  exact this

/-- C5: in both engines, for every `n >= 1` (and `m >= 1` layers), a process of
the plane `Z = 0` at (Row `r`, Column `c`) has rank `r*n + c` in `commXYplanes`
and receives from the scatter the element `r*n + c` of the matrix of the
coordinator; element `idx` goes to the process at (`idx / n`, `idx % n`); and
gathering the scattered values returns the matrix.  Row and Column are
`cartCoords[X]`, `cartCoords[Y]` in dns.c and `cartCoords[Y]`, `cartCoords[X]`
in dnsVariant.c. -/
theorem C5_row_major_scatter_gather (n m : Nat) (hn : 1 ≤ n) (hm : 1 ≤ m) (d : Nat)
    (M junk : Nat → Int) :
    (∃ comms loc,
      Dns.createCommunicators (n * n * m) (Dns.gridDims (n * n * m) n) = some comms ∧
      Dns.scatter (n * n * m) comms M junk = some loc ∧
      (∀ q, q < n * n * m → (comms.coords q).get Dns.Z = 0 →
        comms.commXYplanes.rank q
          = (comms.coords q).get Dns.X * n + (comms.coords q).get Dns.Y ∧
        loc q = M ((comms.coords q).get Dns.X * n + (comms.coords q).get Dns.Y)) ∧
      (∀ idx, idx < n * n → ∃ q, q < n * n * m ∧ (comms.coords q).get Dns.Z = 0 ∧
        (comms.coords q).get Dns.X = idx / n ∧ (comms.coords q).get Dns.Y = idx % n ∧
        loc q = M idx) ∧
      Dns.gather (n * n * m) comms loc = some (toList M (n * n))) ∧
    (∃ comms loc,
      Variant.createCommunicators (n * n * m) (Variant.gridDims n m) d = some comms ∧
      Variant.scatter (n * n * m) comms M junk = some loc ∧
      (∀ q, q < n * n * m → (comms.coords q).get Variant.Z = 0 →
        comms.commXYplanes.rank q
          = (comms.coords q).get Variant.Y * n + (comms.coords q).get Variant.X ∧
        loc q = M ((comms.coords q).get Variant.Y * n + (comms.coords q).get Variant.X)) ∧
      (∀ idx, idx < n * n → ∃ q, q < n * n * m ∧ (comms.coords q).get Variant.Z = 0 ∧
        (comms.coords q).get Variant.Y = idx / n ∧ (comms.coords q).get Variant.X = idx % n ∧
        loc q = M idx) ∧
      Variant.gather (n * n * m) comms loc = some (toList M (n * n))) := by
  have hn0 : 0 < n := hn
  obtain ⟨loc, hloc, hval, hgat⟩ := plane_scatter_gather n m hn0 M junk
  have hplane : ∀ q, q < n * n * m → (MPI_Cart_coords ⟨m, n, n⟩ q).a0 = 0 →
      (MPI_Cart_sub ⟨m, n, n⟩ ⟨0, 1, 1⟩).rank q
        = (MPI_Cart_coords ⟨m, n, n⟩ q).a1 * n + (MPI_Cart_coords ⟨m, n, n⟩ q).a2 ∧
      loc q = M ((MPI_Cart_coords ⟨m, n, n⟩ q).a1 * n + (MPI_Cart_coords ⟨m, n, n⟩ q).a2) := by
    intro q hq hz0
    obtain ⟨z, y, x, hz, hy, hx, rfl⟩ := grid_cases' m n q hq
    rw [coords_rank m n z y x hy hx] at hz0 ⊢
    simp only at hz0
    subst hz0
    have r := plane_rank_at m n 0 y x hy hx
    refine ⟨r, ?_⟩
    simp only [Nat.zero_mul, Nat.zero_add]
    exact hval y x hy hx
  have hidx : ∀ idx, idx < n * n → ∃ q, q < n * n * m ∧ (MPI_Cart_coords ⟨m, n, n⟩ q).a0 = 0 ∧
      (MPI_Cart_coords ⟨m, n, n⟩ q).a1 = idx / n ∧ (MPI_Cart_coords ⟨m, n, n⟩ q).a2 = idx % n ∧
      loc q = M idx := by
    intro idx hidx
    have htn : idx / n < n := Nat.div_lt_of_lt_mul hidx
    have htm : idx % n < n := Nat.mod_lt _ hn0
    have e : idx / n * n + idx % n = idx := by
      rw [Nat.mul_comm]; exact Nat.div_add_mod idx n
    have c := coords_rank m n 0 (idx / n) (idx % n) htn htm
    simp only [Nat.zero_mul, Nat.zero_add, e] at c
    refine ⟨idx, ?_, ?_, ?_, ?_, ?_⟩
    · calc idx < n * n := hidx
        _ = n * n * 1 := (Nat.mul_one _).symm
        _ ≤ n * n * m := Nat.mul_le_mul_left _ hm
    · rw [c]
    · rw [c]
    · rw [c]
    · have := hval (idx / n) (idx % n) htn htm
      rw [e] at this
      exact this
  constructor
  · refine ⟨_, loc, dns_createCommunicators n m hn0, ?_, ?_, ?_, ?_⟩
    · simpa only [Dns.scatter, Dns.Z] using hloc
    · simpa only [Dns.X, Dns.Y, Dns.Z, Int3.get] using hplane
    · simpa only [Dns.X, Dns.Y, Dns.Z, Int3.get] using hidx
    · simpa only [Dns.gather, Dns.Z] using hgat
  · obtain ⟨comms, hc, hpl, hco⟩ := variant_createCommunicators_plane n m d
    refine ⟨comms, loc, hc, ?_, ?_, ?_, ?_⟩
    · simpa only [Variant.scatter, Variant.Z, hpl, hco] using hloc
    · simpa only [Variant.X, Variant.Y, Variant.Z, Int3.get, hpl, hco] using hplane
    · simpa only [Variant.X, Variant.Y, Variant.Z, Int3.get, hpl, hco] using hidx
    · simpa only [Variant.gather, Variant.Z, hpl, hco] using hgat

/-- C5 at `n = 3`, `m = 2`, 18 processes. -/
theorem C5_row_major_scatter_gather_3x3x2 :
    1 ≤ 3 ∧ 1 ≤ 2 ∧
    ((∃ comms loc,
      Dns.createCommunicators (3 * 3 * 2) (Dns.gridDims (3 * 3 * 2) 3) = some comms ∧
      Dns.scatter (3 * 3 * 2) comms (identityPlusOnes 3) (unitAt 1) = some loc ∧
      (∀ q, q < 3 * 3 * 2 → (comms.coords q).get Dns.Z = 0 →
        comms.commXYplanes.rank q
          = (comms.coords q).get Dns.X * 3 + (comms.coords q).get Dns.Y ∧
        loc q = identityPlusOnes 3
          ((comms.coords q).get Dns.X * 3 + (comms.coords q).get Dns.Y)) ∧
      (∀ idx, idx < 3 * 3 → ∃ q, q < 3 * 3 * 2 ∧ (comms.coords q).get Dns.Z = 0 ∧
        (comms.coords q).get Dns.X = idx / 3 ∧ (comms.coords q).get Dns.Y = idx % 3 ∧
        loc q = identityPlusOnes 3 idx) ∧
      Dns.gather (3 * 3 * 2) comms loc = some (toList (identityPlusOnes 3) (3 * 3))) ∧
    (∃ comms loc,
      Variant.createCommunicators (3 * 3 * 2) (Variant.gridDims 3 2) 1 = some comms ∧
      Variant.scatter (3 * 3 * 2) comms (identityPlusOnes 3) (unitAt 1) = some loc ∧
      (∀ q, q < 3 * 3 * 2 → (comms.coords q).get Variant.Z = 0 →
        comms.commXYplanes.rank q
          = (comms.coords q).get Variant.Y * 3 + (comms.coords q).get Variant.X ∧
        loc q = identityPlusOnes 3
          ((comms.coords q).get Variant.Y * 3 + (comms.coords q).get Variant.X)) ∧
      (∀ idx, idx < 3 * 3 → ∃ q, q < 3 * 3 * 2 ∧ (comms.coords q).get Variant.Z = 0 ∧
        (comms.coords q).get Variant.Y = idx / 3 ∧ (comms.coords q).get Variant.X = idx % 3 ∧
        loc q = identityPlusOnes 3 idx) ∧
      Variant.gather (3 * 3 * 2) comms loc = some (toList (identityPlusOnes 3) (3 * 3)))) :=
  ⟨by decide, by decide,
   C5_row_major_scatter_gather 3 2 (by decide) (by decide) 1 (identityPlusOnes 3) (unitAt 1)⟩

/-! ## The matrix files (inOutUtils.c) -/

theorem read_status (fs : FileSys) (M : Nat → Int) (n : Int) (f : String) :
    (readMatrixFromFile fs M n f).1 ≠ 0 ↔ fs f = none := by
  unfold readMatrixFromFile
  cases fs f <;> simp

/-- The `int` product `n*n` is the mathematical one when that is an `int`
value. -/
theorem intMul_self_of_lt (n : Int) (h : n * n < 2147483648) : intMul n n = n * n := by
  have h0 : 0 ≤ n * n := mul_self_nonneg n
  unfold intMul wrapInt
  omega

/-- The item count of `fread` and `fwrite` is `n*n` when that is an `int`
value. -/
theorem itemCount_of_lt (n : Int) (h : n * n < 2147483648) : itemCount n = (n * n).toNat := by
  have h0 : 0 ≤ n * n := mul_self_nonneg n
  unfold itemCount toSizeT
  rw [intMul_self_of_lt n h]
  congr 1
  omega

/-- Reading the four bytes of an `int` gives the `int` back. -/
theorem bytesInt_intByte (v : Int) (h : -2147483648 ≤ v ∧ v < 2147483648) :
    bytesInt (intByte v 0) (intByte v 1) (intByte v 2) (intByte v 3) = v := by
  unfold bytesInt intByte wrapInt
  norm_num
  omega

theorem matrixBytes_length (M : Nat → Int) (count : Nat) :
    (matrixBytes M count).length = 4 * count := by
  simp [matrixBytes]

theorem matrixBytes_getD (M : Nat → Int) (count j : Nat) (h : j < 4 * count) :
    (matrixBytes M count).getD j 0 = intByte (M (j / 4)) (j % 4) := by
  unfold matrixBytes
  rw [List.getD_eq_getElem?_getD, List.getElem?_map, List.getElem?_range h]
  rfl

/-- An element all of whose bytes are transferred holds the `int` they
represent. -/
theorem fread_whole (matrix : Nat → Int) (count : Nat) (content : List Nat) (i : Nat)
    (h : 4 * i + 4 ≤ freadBytes count content) :
    fread matrix count content i = bytesInt (content.getD (4 * i) 0) (content.getD (4 * i + 1) 0)
      (content.getD (4 * i + 2) 0) (content.getD (4 * i + 3) 0) := by
  unfold fread freadByte
  rw [if_neg (by omega), if_pos (by omega), if_pos (by omega), if_pos (by omega),
    if_pos (by omega)]

/-- An element that lies after the transferred bytes keeps its value. -/
theorem fread_beyond (matrix : Nat → Int) (count : Nat) (content : List Nat) (i : Nat)
    (h : freadBytes count content ≤ 4 * i) : fread matrix count content i = matrix i := by
  unfold fread
  rw [if_pos h]

/-! ## Claims on the matrix files (inOutUtils.c) -/

/-- C10, as the code has it: for every `n` whose square is an `int` value
(`0 <= n <= 46340`, in particular `n` in {0, 1, 2, 17, 64}) and every `n x n`
matrix `M` of `int` values, when `writeMatrixToFile(M, n, f)` returns 0 and
all `4*n*n` bytes are stored, the file `f` holds exactly the `n*n` integers of
`M` in row-major order, four bytes each and nothing else, and a following
`readMatrixFromFile(M', n, f)` returns 0 and leaves `M'` equal to `M` in all
`n*n` elements, whatever `M'` held before. -/
theorem C10_matrix_file_round_trip (fs : FileSys) (writable : String → Bool) (room : Nat)
    (M M' : Nat → Int) (n : Int) (f : String)
    (hn : n * n < 2147483648)
    (hM : ∀ i, i < (n * n).toNat → -2147483648 ≤ M i ∧ M i < 2147483648)
    (hw : (writeMatrixToFile fs writable room M n f).1 = 0)
    (hroom : 4 * (n * n).toNat ≤ room) :
    (∃ content, (writeMatrixToFile fs writable room M n f).2 f = some content ∧
      content.length = 4 * (n * n).toNat ∧
      ∀ i, i < (n * n).toNat →
        bytesInt (content.getD (4 * i) 0) (content.getD (4 * i + 1) 0)
          (content.getD (4 * i + 2) 0) (content.getD (4 * i + 3) 0) = M i) ∧
    (readMatrixFromFile (writeMatrixToFile fs writable room M n f).2 M' n f).1 = 0 ∧
    (∀ i, i < (n * n).toNat →
      (readMatrixFromFile (writeMatrixToFile fs writable room M n f).2 M' n f).2 i = M i) ∧
    toList (readMatrixFromFile (writeMatrixToFile fs writable room M n f).2 M' n f).2
        (n * n).toNat
      = toList M (n * n).toNat := by
  have hwr : writable f = true := by
    by_contra h
    simp [writeMatrixToFile, h] at hw
  have hc := itemCount_of_lt n hn
  have htake : (matrixBytes M (n * n).toNat).take room = matrixBytes M (n * n).toNat :=
    List.take_of_length_le (by rw [matrixBytes_length]; exact hroom)
  have hfile : (writeMatrixToFile fs writable room M n f).2 f
      = some (matrixBytes M (n * n).toNat) := by
    simp [writeMatrixToFile, hwr, hc, htake]
  have hdec : ∀ i, i < (n * n).toNat →
      bytesInt ((matrixBytes M (n * n).toNat).getD (4 * i) 0)
        ((matrixBytes M (n * n).toNat).getD (4 * i + 1) 0)
        ((matrixBytes M (n * n).toNat).getD (4 * i + 2) 0)
        ((matrixBytes M (n * n).toNat).getD (4 * i + 3) 0) = M i := by
    intro i hi
    rw [matrixBytes_getD M _ (4 * i) (by omega), matrixBytes_getD M _ (4 * i + 1) (by omega),
      matrixBytes_getD M _ (4 * i + 2) (by omega), matrixBytes_getD M _ (4 * i + 3) (by omega)]
    have e0 : 4 * i / 4 = i := by omega
    have e1 : (4 * i + 1) / 4 = i := by omega
    have e2 : (4 * i + 2) / 4 = i := by omega
    have e3 : (4 * i + 3) / 4 = i := by omega
    have r0 : 4 * i % 4 = 0 := by omega
    have r1 : (4 * i + 1) % 4 = 1 := by omega
    have r2 : (4 * i + 2) % 4 = 2 := by omega
    have r3 : (4 * i + 3) % 4 = 3 := by omega
    rw [e0, e1, e2, e3, r0, r1, r2, r3]
    exact bytesInt_intByte (M i) (hM i hi)
  have hget : ∀ i, i < (n * n).toNat →
      (readMatrixFromFile (writeMatrixToFile fs writable room M n f).2 M' n f).2 i = M i := by
    intro i hi
    simp only [readMatrixFromFile, hfile, hc]
    rw [fread_whole M' _ _ i (by simp only [freadBytes, matrixBytes_length, Nat.min_self]; omega)]
    exact hdec i hi
  refine ⟨⟨_, hfile, matrixBytes_length M _, hdec⟩, ?_, hget, ?_⟩
  · simp only [readMatrixFromFile, hfile]
  · unfold toList
    apply List.map_congr_left
    intro i hi
    rw [List.mem_range] at hi
    exact hget i hi

/-- C10 at `n = 2`: a `2 x 2` matrix written to `matrixA.bin` with room for
its 16 bytes and read back into a buffer holding something else. -/
theorem C10_matrix_file_round_trip_2 :
    ((2 : Int) * 2 < 2147483648) ∧
    (∀ i, i < ((2 : Int) * 2).toNat →
      -2147483648 ≤ identityPlusOnes 2 i ∧ identityPlusOnes 2 i < 2147483648) ∧
    (writeMatrixToFile sampleFiles (fun _ => true) 16 (identityPlusOnes 2) 2 "matrixA.bin").1
      = 0 ∧
    4 * ((2 : Int) * 2).toNat ≤ 16 ∧
    (writeMatrixToFile sampleFiles (fun _ => true) 16 (identityPlusOnes 2) 2 "matrixA.bin").2
      "matrixA.bin" = some [2, 0, 0, 0, 1, 0, 0, 0, 1, 0, 0, 0, 2, 0, 0, 0] ∧
    (readMatrixFromFile
      (writeMatrixToFile sampleFiles (fun _ => true) 16 (identityPlusOnes 2) 2 "matrixA.bin").2
      (unitAt 0) 2 "matrixA.bin").1 = 0 ∧
    toList (readMatrixFromFile
      (writeMatrixToFile sampleFiles (fun _ => true) 16 (identityPlusOnes 2) 2 "matrixA.bin").2
      (unitAt 0) 2 "matrixA.bin").2 ((2 : Int) * 2).toNat
      = toList (identityPlusOnes 2) ((2 : Int) * 2).toNat :=
  have hM : ∀ i, i < ((2 : Int) * 2).toNat →
      -2147483648 ≤ identityPlusOnes 2 i ∧ identityPlusOnes 2 i < 2147483648 := by
    intro i _
    unfold identityPlusOnes
    split <;> decide
  have h := C10_matrix_file_round_trip sampleFiles (fun _ => true) 16 (identityPlusOnes 2)
    (unitAt 0) 2 "matrixA.bin" (by decide) hM rfl (by decide)
  ⟨by decide, hM, rfl, by decide, by decide, h.2.1, h.2.2.2⟩

/-- C10 as stated fails.  At `n = 65536` the `int` product `n*n` is 0: the
write returns 0 and leaves an empty file, the read returns 0 and stores
nothing, so element 0 of `M'` keeps its value 0 where `M` holds 2.  At `n = 2`
with room for 6 of the 16 bytes the write still returns 0, the read returns 0,
and `M'` holds `[2, 1, 0, 0]` where `M` holds `[2, 1, 1, 2]`. -/
theorem C10_status_zero_without_round_trip :
    (0 : Int) ≤ 65536 ∧
    (writeMatrixToFile sampleFiles (fun _ => true) 4096 (identityPlusOnes 2) 65536
      "matrixA.bin").1 = 0 ∧
    (writeMatrixToFile sampleFiles (fun _ => true) 4096 (identityPlusOnes 2) 65536
      "matrixA.bin").2 "matrixA.bin" = some [] ∧
    (readMatrixFromFile
      (writeMatrixToFile sampleFiles (fun _ => true) 4096 (identityPlusOnes 2) 65536
        "matrixA.bin").2 (unitAt 5) 65536 "matrixA.bin").1 = 0 ∧
    (readMatrixFromFile
      (writeMatrixToFile sampleFiles (fun _ => true) 4096 (identityPlusOnes 2) 65536
        "matrixA.bin").2 (unitAt 5) 65536 "matrixA.bin").2 0 = 0 ∧
    identityPlusOnes 2 0 = 2 ∧
    (writeMatrixToFile sampleFiles (fun _ => true) 6 (identityPlusOnes 2) 2 "matrixA.bin").1
      = 0 ∧
    (writeMatrixToFile sampleFiles (fun _ => true) 6 (identityPlusOnes 2) 2 "matrixA.bin").2
      "matrixA.bin" = some [2, 0, 0, 0, 1, 0] ∧
    (readMatrixFromFile
      (writeMatrixToFile sampleFiles (fun _ => true) 6 (identityPlusOnes 2) 2 "matrixA.bin").2
      (unitAt 5) 2 "matrixA.bin").1 = 0 ∧
    toList (readMatrixFromFile
      (writeMatrixToFile sampleFiles (fun _ => true) 6 (identityPlusOnes 2) 2 "matrixA.bin").2
      (unitAt 5) 2 "matrixA.bin").2 4 = [2, 1, 0, 0] ∧
    toList (identityPlusOnes 2) 4 = [2, 1, 1, 2] :=
  ⟨by decide, by decide, by decide, by decide, by decide, by decide, by decide, by decide,
   by decide, by decide, by decide⟩

/-- C6 at `n = 6`, `m = 2` (rings of size 3), index 8 (row 1, column 2),
`distX = 1`, `distY = 2`: up is 14, down is 2, left is 7 and right is 6. -/
theorem C6_findAdjacentCells_ring_6x6 :
    (1 : Int) ≤ 6 ∧ (1 : Int) ≤ 2 ∧ (6 : Int) % 2 = 0 ∧ (0 : Int) ≤ 8 ∧ (8 : Int) < 6 * 6 ∧
    (0 : Int) ≤ 1 ∧ (1 : Int) ≤ 6 / 2 ∧ (0 : Int) ≤ 2 ∧ (2 : Int) ≤ 6 / 2 ∧
    (Variant.findAdjacentCells 8 6 2 1 2).up = 14 ∧
    (Variant.findAdjacentCells 8 6 2 1 2).down = 2 ∧
    (Variant.findAdjacentCells 8 6 2 1 2).left = 7 ∧
    (Variant.findAdjacentCells 8 6 2 1 2).right = 6 :=
  have h := C6_findAdjacentCells_ring 6 2 8 1 2 (by decide) (by decide) (by decide) (by decide)
    (by decide) (by decide) (by decide) (by decide) (by decide)
  ⟨by decide, by decide, by decide, by decide, by decide, by decide, by decide, by decide,
   by decide, h.1.trans (by decide), h.2.1.trans (by decide), h.2.2.1.trans (by decide),
   h.2.2.2.1.trans (by decide)⟩

/-! ## Claims on the entry points -/

theorem tdiv_natCast (a b : Nat) : Int.tdiv (a : Int) (b : Int) = ((a / b : Nat) : Int) :=
  (Int.ofNat_tdiv a b).symm

theorem tmod_natCast (a b : Nat) : Int.tmod (a : Int) (b : Int) = ((a % b : Nat) : Int) :=
  (Int.ofNat_tmod a b).symm

/-- The `int` product `n*n` of a size argument whose square does not exceed
the number of processes. -/
theorem intMul_self_nat (e : Env) (P N : Nat) (hP : e.p = P) (hm : 0 < P / (N * N)) :
    intMul (N : Int) (N : Int) = ((N * N : Nat) : Int) := by
  have hle : N * N ≤ P := by
    by_contra h
    rw [Nat.div_eq_of_lt (by omega)] at hm
    exact absurd hm (by decide)
  have hPlt : (P : Int) < 2147483648 := by
    rw [← hP]
    exact e.p_range.2
  have hlt : (N : Int) * (N : Int) < 2147483648 := by
    have : ((N * N : Nat) : Int) ≤ (P : Int) := by exact_mod_cast hle
    rw [Nat.cast_mul] at this
    omega
  rw [intMul_self_of_lt _ hlt, Nat.cast_mul]

/-- The start-up of dnsVariant.c for natural arguments. -/
theorem variant_startup_nat (e : Env) (P N : Nat) (hargc : e.argc = 2) (hP : e.p = P)
    (hN : e.n = N) (hN0 : 0 < N) (hm : 0 < P / (N * N)) :
    Variant.startup e =
      if N % (P / (N * N)) ≠ 0 then Startup.abort 1
      else if e.mallocOk = false then Startup.abort 2
      else if e.fs "matrixA.bin" = none ∨ e.fs "matrixB.bin" = none then Startup.abort 3
      else Startup.callsCreateCommunicators ((P / (N * N) : Nat) : Int) N N
        (some ((N / (P / (N * N)) : Nat) : Int)) := by
  have hNN : ((N * N : Nat) : Int) ≠ 0 := by
    have : 0 < N * N := Nat.mul_pos hN0 hN0
    exact_mod_cast this.ne'
  have hm' : ((P / (N * N) : Nat) : Int) ≠ 0 := by exact_mod_cast hm.ne'
  unfold Variant.startup
  rw [hargc, hP, hN, intMul_self_nat e P N hP hm, tdiv_natCast, tmod_natCast, tdiv_natCast]
  rw [if_neg (by simp), if_neg hNN, if_neg hm']
  simp only [read_status, Nat.cast_eq_zero, ne_eq, Bool.not_eq_true', Bool.not_eq_eq_eq_not,
    Bool.not_true]

/-- The start-up of dns.c for natural arguments. -/
theorem dns_startup_nat (e : Env) (P N : Nat) (hargc : e.argc = 2) (hP : e.p = P)
    (hN : e.n = N) (hN0 : 0 < N) (hm : 0 < P / (N * N)) :
    Dns.startup e =
      if e.mallocOk = false then Startup.abort 2
      else Startup.callsCreateCommunicators ((P / (N * N) : Nat) : Int) N N none := by
  have hNN : ((N * N : Nat) : Int) ≠ 0 := by
    have : 0 < N * N := Nat.mul_pos hN0 hN0
    exact_mod_cast this.ne'
  unfold Dns.startup
  rw [hargc, hP, hN, intMul_self_nat e P N hP hm, tdiv_natCast]
  rw [if_neg (by simp), if_neg hNN]
  simp only [Bool.not_eq_true', Bool.not_eq_eq_eq_not, Bool.not_true]

/-- C4, as the code has it: for `p >= 1` processes and size argument `n >= 1`
with a correct argument count and `m = p/(n*n) >= 1`: in dnsVariant.c,
`n % m != 0` makes the start-up end in `MPI_Abort` with code 1 before
`createCommunicators` is called.  The condition `p != n*n*m` is checked by the
start-up of neither program: with allocation and input files in order (and
`n % m = 0` in dnsVariant.c) both reach the call of `createCommunicators`,
with `dims = {m, n, n}`, whether or not `p = n*n*m`. -/
theorem C4_startup_rejection (e : Env) (hargc : e.argc = 2) (hp : 1 ≤ e.p) (hn : 1 ≤ e.n)
    (hm : 1 ≤ e.p / (e.n * e.n)) :
    (e.n % (e.p / (e.n * e.n)) ≠ 0 → Variant.startup e = Startup.abort 1) ∧
    (e.n % (e.p / (e.n * e.n)) = 0 → e.mallocOk = true →
      e.fs "matrixA.bin" ≠ none → e.fs "matrixB.bin" ≠ none →
      Variant.startup e = Startup.callsCreateCommunicators (e.p / (e.n * e.n)) e.n e.n
        (some (e.n / (e.p / (e.n * e.n))))) ∧
    (e.mallocOk = true →
      Dns.startup e = Startup.callsCreateCommunicators (e.p / (e.n * e.n)) e.n e.n none) := by
  obtain ⟨P, hP⟩ : ∃ P : Nat, e.p = P := ⟨e.p.toNat, (Int.toNat_of_nonneg (by omega)).symm⟩
  obtain ⟨N, hN⟩ : ∃ N : Nat, e.n = N := ⟨e.n.toNat, (Int.toNat_of_nonneg (by omega)).symm⟩
  have hN0 : 0 < N := by rw [hN] at hn; exact_mod_cast hn
  rw [hP, hN] at hm ⊢
  have cdiv : ((P : Int) / ((N : Int) * N)) = ((P / (N * N) : Nat) : Int) := by push_cast; rfl
  rw [cdiv] at hm ⊢
  have cmod : ((N : Int) % ((P / (N * N) : Nat) : Int)) = ((N % (P / (N * N)) : Nat) : Int) := by
    push_cast; rfl
  have cdiv2 : ((N : Int) / ((P / (N * N) : Nat) : Int)) = ((N / (P / (N * N)) : Nat) : Int) := by
    push_cast; rfl
  rw [cmod, cdiv2]
  have hm' : 0 < P / (N * N) := by exact_mod_cast hm
  refine ⟨?_, ?_, ?_⟩
  · intro hmod
    have hmod' : N % (P / (N * N)) ≠ 0 := by exact_mod_cast hmod
    rw [variant_startup_nat e P N hargc hP hN hN0 hm', if_pos hmod']
  · intro hmod hmal hA hB
    have hmod' : ¬ N % (P / (N * N)) ≠ 0 := by
      have : N % (P / (N * N)) = 0 := by exact_mod_cast hmod
      simp [this]
    rw [variant_startup_nat e P N hargc hP hN hN0 hm', if_neg hmod', if_neg (by simp [hmal]),
      if_neg (by simp [hA, hB])]
  · intro hmal
    rw [dns_startup_nat e P N hargc hP hN hN0 hm', if_neg (by simp [hmal])]

/-- C4 at 18 processes and `n = 3` (`m = 2`, `n % m = 1`). -/
theorem C4_startup_rejection_indivisible :
    indivisibleEnv.argc = 2 ∧ 1 ≤ indivisibleEnv.p ∧ 1 ≤ indivisibleEnv.n ∧
    1 ≤ indivisibleEnv.p / (indivisibleEnv.n * indivisibleEnv.n) ∧
    indivisibleEnv.n % (indivisibleEnv.p / (indivisibleEnv.n * indivisibleEnv.n)) ≠ 0 ∧
    Variant.startup indivisibleEnv = Startup.abort 1 :=
  ⟨rfl, by decide, by decide, by decide, by decide,
   (C4_startup_rejection indivisibleEnv rfl (by decide) (by decide) (by decide)).1 (by decide)⟩

/-- C4 as stated fails: with five processes and `n = 2` (so `m = 1` and
`p != n*n*m`), a correct argument count, allocation and input files in order,
neither start-up aborts: both programs reach the call of
`createCommunicators`, with `dims = {1, 2, 2}`. -/
theorem C4_mismatch_reaches_createCommunicators :
    1 ≤ mismatchEnv.p ∧ 1 ≤ mismatchEnv.n ∧
    mismatchEnv.p ≠ mismatchEnv.n * mismatchEnv.n
      * (mismatchEnv.p / (mismatchEnv.n * mismatchEnv.n)) ∧
    Variant.startup mismatchEnv = Startup.callsCreateCommunicators 1 2 2 (some 2) ∧
    Dns.startup mismatchEnv = Startup.callsCreateCommunicators 1 2 2 none :=
  ⟨by decide, by decide, by decide, by decide, by decide⟩
/-- C11, as the code has it: `readMatrixFromFile` returns a non-zero status
exactly when the file cannot be opened, and then leaves the buffer unchanged.
When the file opens the status is 0 whatever the length of the file.  For `n`
whose square is an `int` value and a file that consists of exactly `k` whole
integers (`4*k` bytes): the first `min (n*n) k` elements of the buffer receive
the first integers of the file and every other element keeps its value, so
for `k < n*n` the elements `k .. n*n-1` keep their previous values. -/
theorem C11_read_fails_exactly_on_open_failure (fs : FileSys) (matrix : Nat → Int) (n : Int)
    (filename : String) :
    ((readMatrixFromFile fs matrix n filename).1 ≠ 0 ↔ fs filename = none) ∧
    (fs filename = none → (readMatrixFromFile fs matrix n filename).2 = matrix) ∧
    (∀ content, fs filename = some content →
      (readMatrixFromFile fs matrix n filename).1 = 0 ∧
      (n * n < 2147483648 → ∀ k, content.length = 4 * k →
        (∀ i, i < k → i < (n * n).toNat →
          (readMatrixFromFile fs matrix n filename).2 i
            = bytesInt (content.getD (4 * i) 0) (content.getD (4 * i + 1) 0)
                (content.getD (4 * i + 2) 0) (content.getD (4 * i + 3) 0)) ∧
        (∀ i, k ≤ i → (readMatrixFromFile fs matrix n filename).2 i = matrix i) ∧
        (∀ i, (n * n).toNat ≤ i → (readMatrixFromFile fs matrix n filename).2 i = matrix i))) := by
  refine ⟨read_status fs matrix n filename, ?_, ?_⟩
  · intro h
    simp [readMatrixFromFile, h]
  · intro content h
    refine ⟨by simp [readMatrixFromFile, h], ?_⟩
    intro hn k hk
    have hc := itemCount_of_lt n hn
    refine ⟨?_, ?_, ?_⟩
    · intro i hi hin
      simp only [readMatrixFromFile, h, hc]
      exact fread_whole matrix _ content i (by unfold freadBytes; omega)
    · intro i hi
      simp only [readMatrixFromFile, h, hc]
      exact fread_beyond matrix _ content i (by unfold freadBytes; omega)
    · intro i hi
      simp only [readMatrixFromFile, h, hc]
      exact fread_beyond matrix _ content i (by unfold freadBytes; omega)

/-- C11 on a file of three integers read as a `2 x 2` matrix, and on a file
that does not exist: the status is 0, the buffer becomes `[7, 8, 9, 2]` and
element 3 keeps its value; the status is 1 and the buffer is unchanged. -/
theorem C11_read_short_and_missing_file :
    shortFiles "matrixA.bin" = some [7, 0, 0, 0, 8, 0, 0, 0, 9, 0, 0, 0] ∧
    (readMatrixFromFile shortFiles (identityPlusOnes 2) 2 "matrixA.bin").1 = 0 ∧
    toList (readMatrixFromFile shortFiles (identityPlusOnes 2) 2 "matrixA.bin").2 4
      = [7, 8, 9, 2] ∧
    (readMatrixFromFile shortFiles (identityPlusOnes 2) 2 "matrixA.bin").2 3
      = identityPlusOnes 2 3 ∧
    shortFiles "matrixB.bin" = none ∧
    (readMatrixFromFile shortFiles (identityPlusOnes 2) 2 "matrixB.bin").1 ≠ 0 ∧
    (readMatrixFromFile shortFiles (identityPlusOnes 2) 2 "matrixB.bin").2
      = identityPlusOnes 2 :=
  ⟨by decide,
   ((C11_read_fails_exactly_on_open_failure shortFiles (identityPlusOnes 2) 2 "matrixA.bin").2.2
      [7, 0, 0, 0, 8, 0, 0, 0, 9, 0, 0, 0] (by decide)).1,
   by decide,
   (((C11_read_fails_exactly_on_open_failure shortFiles (identityPlusOnes 2) 2 "matrixA.bin").2.2
      [7, 0, 0, 0, 8, 0, 0, 0, 9, 0, 0, 0] (by decide)).2 (by decide) 3 (by decide)).2.1 3
      (by decide),
   by decide,
   (C11_read_fails_exactly_on_open_failure shortFiles (identityPlusOnes 2) 2 "matrixB.bin").1.mpr
     (by decide),
   (C11_read_fails_exactly_on_open_failure shortFiles (identityPlusOnes 2) 2 "matrixB.bin").2.1
     (by decide)⟩

/-- C11 as stated fails.  A file of six bytes holds `k = 1` integer, the
value 7, and two more bytes; read as a `2 x 2` matrix into a buffer of `-1`
the status is 0 and element 1 does not keep its value: it becomes -65528.
At `n = 65536` the `int` product `n*n` is 0: of a file holding three integers
nothing is stored, the status is 0 and element 0 keeps its value. -/
theorem C11_trailing_bytes_and_wrapped_count :
    shortFiles "trailing.bin" = some [7, 0, 0, 0, 8, 0] ∧
    (readMatrixFromFile shortFiles (fun _ => -1) 2 "trailing.bin").1 = 0 ∧
    (readMatrixFromFile shortFiles (fun _ => -1) 2 "trailing.bin").2 0 = 7 ∧
    (readMatrixFromFile shortFiles (fun _ => -1) 2 "trailing.bin").2 1 = -65528 ∧
    shortFiles "matrixA.bin" = some [7, 0, 0, 0, 8, 0, 0, 0, 9, 0, 0, 0] ∧
    (readMatrixFromFile shortFiles (fun _ => -1) 65536 "matrixA.bin").1 = 0 ∧
    (readMatrixFromFile shortFiles (fun _ => -1) 65536 "matrixA.bin").2 0 = -1 :=
  ⟨by decide, by decide, by decide, by decide, by decide, by decide, by decide⟩

/-! ## Claims on the sequential product -/

theorem foldl_sim {α β ι : Type} (R : α → β → Prop) (f : α → ι → α) (g : β → ι → β)
    (l : List ι) (h : ∀ x y i, i ∈ l → R x y → R (f x i) (g y i)) (x : α) (y : β)
    (hxy : R x y) : R (l.foldl f x) (l.foldl g y) := by
  induction l generalizing x y with
  | nil => exact hxy
  | cons a l ih =>
    simp only [List.foldl_cons]
    exact ih (fun x y i hi => h x y i (List.mem_cons_of_mem a hi)) _ _
      (h x y a (List.mem_cons_self a l) hxy)

/-- On a memory where the result matrix overlaps neither operand, the call
changes the cells of the result matrix only, and these receive what the
function on three separate buffers computes. -/
theorem sequentialMatrixMultiplyMem_eq (mem : Nat → Int) (a b c n : Nat)
    (hA : ∀ t u, t < n * n → u < n * n → c + t ≠ a + u)
    (hB : ∀ t u, t < n * n → u < n * n → c + t ≠ b + u) (addr : Nat) :
    sequentialMatrixMultiplyMem mem a b c n addr
      = if c ≤ addr then
          sequentialMatrixMultiply (fun t => mem (a + t)) (fun t => mem (b + t))
            (fun t => mem (c + t)) n (addr - c)
        else mem addr := by
  let R : (Nat → Int) → (Nat → Int) → Prop := fun M C =>
    (∀ x, M x = if c ≤ x then C (x - c) else mem x) ∧ (∀ t, n * n ≤ t → C t = mem (c + t))
  have hset : ∀ M C idx v, idx < n * n → R M C → R (arraySet M (c + idx) v) (arraySet C idx v) := by
    intro M C idx v hidx hR
    constructor
    · intro x
      simp only [arraySet]
      by_cases hx : x = c + idx
      · subst hx
        simp
      · rw [if_neg hx, hR.1 x]
        by_cases hc : c ≤ x
        · rw [if_pos hc, if_pos hc, if_neg (by omega)]
        · rw [if_neg hc, if_neg hc]
    · intro t ht
      simp only [arraySet]
      rw [if_neg (by omega)]
      exact hR.2 t ht
  have hreadC : ∀ M C idx, R M C → M (c + idx) = C idx := by
    intro M C idx hR
    rw [hR.1, if_pos (Nat.le_add_right _ _), Nat.add_sub_cancel_left]
  have hread : ∀ M C base u, (∀ t u, t < n * n → u < n * n → c + t ≠ base + u) → u < n * n →
      R M C → M (base + u) = mem (base + u) := by
    intro M C base u hdis hu hR
    rw [hR.1]
    by_cases hc : c ≤ base + u
    · rw [if_pos hc]
      by_cases ht : base + u - c < n * n
      · exact absurd (by omega) (hdis (base + u - c) u ht hu)
      · rw [hR.2 _ (by omega)]
        congr 1
        omega
    · rw [if_neg hc]
  have hR0 : R mem (fun t => mem (c + t)) := by
    constructor
    · intro x
      by_cases hc : c ≤ x
      · rw [if_pos hc]
        simp only
        congr 1
        omega
      · rw [if_neg hc]
    · intro t _
      rfl
  have hfinal : R (sequentialMatrixMultiplyMem mem a b c n)
      (sequentialMatrixMultiply (fun t => mem (a + t)) (fun t => mem (b + t))
        (fun t => mem (c + t)) n) := by
    unfold sequentialMatrixMultiplyMem sequentialMatrixMultiply
    apply foldl_sim R _ _ _ _ _ _ hR0
    intro M C i hi hMC
    rw [List.mem_range] at hi
    apply foldl_sim R _ _ _ _ _ _ hMC
    intro M C j hj hMC
    rw [List.mem_range] at hj
    have hij : i * n + j < n * n := block_lt n n i j hi hj
    apply foldl_sim R _ _ _ _ _ _ (hset M C _ 0 hij hMC)
    intro M C k hk hMC
    rw [List.mem_range] at hk
    have hik : i * n + k < n * n := block_lt n n i k hi hk
    have hkj : k * n + j < n * n := block_lt n n k j hk hj
    rw [hreadC M C _ hMC, hread M C a _ hA hik hMC, hread M C b _ hB hkj hMC]
    exact hset M C _ _ hij hMC
  exact hfinal.1 addr

/-- C12: for every `n` and every memory in which the `n x n` result matrix
overlaps neither operand, after `sequentialMatrixMultiply` the cell
`matrixC[i*n+j]` holds, for all `i, j < n`, the sum over `k < n` of
`matrixA[i*n+k] * matrixB[k*n+j]` in `int` arithmetic, whatever the result
matrix held before; it is the mathematical sum whenever that sum is an `int`
value.  Every cell outside the result matrix, in particular every cell of
`matrixA` and `matrixB`, is unchanged. -/
theorem C12_sequential_product (mem : Nat → Int) (matrixA matrixB matrixC n : Nat)
    (hA : ∀ t u, t < n * n → u < n * n → matrixC + t ≠ matrixA + u)
    (hB : ∀ t u, t < n * n → u < n * n → matrixC + t ≠ matrixB + u) :
    (∀ i j, i < n → j < n →
      sequentialMatrixMultiplyMem mem matrixA matrixB matrixC n (matrixC + (i * n + j))
        = wrapInt (∑ k ∈ Finset.range n,
            mem (matrixA + (i * n + k)) * mem (matrixB + (k * n + j)))) ∧
    (∀ i j, i < n → j < n →
      -2147483648 ≤ ∑ k ∈ Finset.range n,
          mem (matrixA + (i * n + k)) * mem (matrixB + (k * n + j)) →
      ∑ k ∈ Finset.range n,
          mem (matrixA + (i * n + k)) * mem (matrixB + (k * n + j)) < 2147483648 →
      sequentialMatrixMultiplyMem mem matrixA matrixB matrixC n (matrixC + (i * n + j))
        = ∑ k ∈ Finset.range n,
            mem (matrixA + (i * n + k)) * mem (matrixB + (k * n + j))) ∧
    (∀ addr, ¬ (matrixC ≤ addr ∧ addr < matrixC + n * n) →
      sequentialMatrixMultiplyMem mem matrixA matrixB matrixC n addr = mem addr) ∧
    (∀ u, u < n * n →
      sequentialMatrixMultiplyMem mem matrixA matrixB matrixC n (matrixA + u)
        = mem (matrixA + u) ∧
      sequentialMatrixMultiplyMem mem matrixA matrixB matrixC n (matrixB + u)
        = mem (matrixB + u)) := by
  have hcell : ∀ i j, i < n → j < n →
      sequentialMatrixMultiplyMem mem matrixA matrixB matrixC n (matrixC + (i * n + j))
        = wrapInt (∑ k ∈ Finset.range n,
            mem (matrixA + (i * n + k)) * mem (matrixB + (k * n + j))) := by
    intro i j hi hj
    have hij : i * n + j < n * n := block_lt n n i j hi hj
    obtain ⟨d1, d2⟩ := divmod_helper i j n hj
    rw [sequentialMatrixMultiplyMem_eq mem matrixA matrixB matrixC n hA hB,
      if_pos (Nat.le_add_right _ _), Nat.add_sub_cancel_left, sequentialMatrixMultiply_apply,
      if_pos hij, d1, d2]
  have hout : ∀ addr, ¬ (matrixC ≤ addr ∧ addr < matrixC + n * n) →
      sequentialMatrixMultiplyMem mem matrixA matrixB matrixC n addr = mem addr := by
    intro addr h
    rw [sequentialMatrixMultiplyMem_eq mem matrixA matrixB matrixC n hA hB]
    by_cases hc : matrixC ≤ addr
    · rw [if_pos hc, sequentialMatrixMultiply_apply, if_neg (by omega)]
      congr 1
      omega
    · rw [if_neg hc]
  refine ⟨hcell, ?_, hout, ?_⟩
  · intro i j hi hj h1 h2
    rw [hcell i j hi hj, wrapInt_of_range _ h1 h2]
  · intro u hu
    constructor
    · apply hout
      intro h
      exact hA (matrixA + u - matrixC) u (by omega) hu (by omega)
    · apply hout
      intro h
      exact hB (matrixB + u - matrixC) u (by omega) hu (by omega)

/-- C12 on `sampleMemory` with `n = 2`: the result matrix becomes
`[[1,2],[2,1]]` and the operands are unchanged. -/
theorem C12_sequential_product_2x2 :
    (∀ t u, t < 2 * 2 → u < 2 * 2 → 8 + t ≠ 0 + u) ∧
    (∀ t u, t < 2 * 2 → u < 2 * 2 → 8 + t ≠ 4 + u) ∧
    sequentialMatrixMultiplyMem sampleMemory 0 4 8 2 (8 + (0 * 2 + 1))
      = wrapInt (∑ k ∈ Finset.range 2,
          sampleMemory (0 + (0 * 2 + k)) * sampleMemory (4 + (k * 2 + 1))) ∧
    (∀ u, u < 2 * 2 →
      sequentialMatrixMultiplyMem sampleMemory 0 4 8 2 (0 + u) = sampleMemory (0 + u) ∧
      sequentialMatrixMultiplyMem sampleMemory 0 4 8 2 (4 + u) = sampleMemory (4 + u)) ∧
    toList (sequentialMatrixMultiplyMem sampleMemory 0 4 8 2) 12
      = [2, 1, 1, 2, 0, 1, 1, 0, 1, 2, 2, 1] :=
  ⟨fun t u ht hu => by omega, fun t u ht hu => by omega,
   (C12_sequential_product sampleMemory 0 4 8 2 (fun t u ht hu => by omega)
     (fun t u ht hu => by omega)).1 0 1 (by decide) (by decide),
   (C12_sequential_product sampleMemory 0 4 8 2 (fun t u ht hu => by omega)
     (fun t u ht hu => by omega)).2.2.2,
   by decide⟩

/-! ## Claims on the boundary `n = 1` and on the ring exchanges -/

/-- With one iteration the loop of dnsVariant.c is one `shiftStep`. -/
theorem shiftLoop_one (p n m : Nat) (comms : Variant.Communicators) (s : Locals) :
    Variant.shiftLoop p n m comms 1 s = Variant.shiftStep p n m comms s := by
  unfold Variant.shiftLoop
  simp only [List.range_succ, List.range_zero, List.nil_append, List.foldlM_cons,
    List.foldlM_nil, Option.bind_eq_bind]
  cases Variant.shiftStep p n m comms s <;> rfl

/-- C13, as the code has it: for `n = 1` (hence `m = 1`, `p = 1`, `sm = 1`)
the scatter delivers the single element of the matrix to the single process
and depends on no other element, the gather returns a matrix of one element,
the four ring neighbours of the process are the process itself, and the
accumulate-and-shift loop of dnsVariant.c executes exactly one iteration
(`n/m = 1`), in which the product is accumulated: the gathered matrix is the
product `A[0] * B[0]` in `int` arithmetic. -/
theorem C13_single_element_boundary (A B M M' junk : Nat → Int) (init : Locals) :
    ∃ comms,
      Variant.createCommunicators 1 (Variant.gridDims 1 1) (1 / 1) = some comms ∧
      (∃ loc, Variant.scatter 1 comms M junk = some loc ∧ loc 0 = M 0 ∧
        (M' 0 = M 0 → ∃ loc', Variant.scatter 1 comms M' junk = some loc' ∧ loc' 0 = loc 0) ∧
        Variant.gather 1 comms loc = some [M 0]) ∧
      (∀ s, Variant.shiftLoop 1 1 1 comms (1 / 1) s = Variant.shiftStep 1 1 1 comms s) ∧
      Variant.findAdjacentCells 0 1 1 0 0 = ⟨0, 0, 0, 0⟩ ∧
      Variant.findAdjacentCells 0 1 1 1 1 = ⟨0, 0, 0, 0⟩ ∧
      Variant.compute 1 1 A B init = some [intMul (A 0) (B 0)] := by
  have hc := variant_createCommunicators 1 1
  have hcomp := variant_compute 1 1 (by decide) (by decide) A B init
  obtain ⟨loc, hloc, hval, hgat⟩ := plane_scatter_gather 1 1 (by decide) M junk
  obtain ⟨loc', hloc', hval', -⟩ := plane_scatter_gather 1 1 (by decide) M' junk
  refine ⟨_, hc, ⟨loc, ?_, ?_, ?_, ?_⟩, ?_, by decide, by decide, ?_⟩
  · simpa only [Variant.scatter, Variant.Z] using hloc
  · exact hval 0 0 (by decide) (by decide)
  · intro hM
    refine ⟨loc', ?_, ?_⟩
    · simpa only [Variant.scatter, Variant.Z] using hloc'
    · have h1 := hval 0 0 (by decide) (by decide)
      have h2 := hval' 0 0 (by decide) (by decide)
      simp only [Nat.zero_mul, Nat.zero_add] at h1 h2
      rw [h1, h2, hM]
  · have : toList M (1 * 1) = [M 0] := rfl
    rw [← this]
    simpa only [Variant.gather, Variant.Z] using hgat
  · intro s
    exact shiftLoop_one 1 1 1 _ s
  · rw [show Variant.compute 1 1 A B init
        = Variant.compute (1 * 1 * (1 * 1) * 1) (1 * 1) A B init from rfl, hcomp]
    simp only [intMul, Nat.mul_one, Finset.sum_range_one, Nat.div_one, Nat.add_zero,
      Nat.zero_mul, Nat.zero_add, Nat.mod_one, Option.some.injEq]
    rfl

/-- C13 as stated fails: for `n = 1` the loop bound `n/m` is 1, not 0; the
run with `A = [3]`, `B = [5]` gathers `[15]`, while the same start followed by
a loop of no iteration leaves `localC = 0` on the process. -/
theorem C13_loop_runs_one_iteration :
    (1 : Nat) / 1 = 1 ∧
    Variant.compute 1 1 (fun _ => 3) (fun _ => 5) junkLocals = some [15] ∧
    ((Variant.createCommunicators 1 (Variant.gridDims 1 1) (1 / 1)).bind fun comms =>
      ((Variant.distribute 1 comms (fun _ => 3) (fun _ => 5)
          { junkLocals with localC := fun _ => 0 }).bind fun s =>
        (Variant.skew 1 1 1 comms s).bind fun t =>
          Variant.shiftLoop 1 1 1 comms 0 t).map fun u => u.localC 0) = some 0 ∧
    ((Variant.createCommunicators 1 (Variant.gridDims 1 1) (1 / 1)).bind fun comms =>
      (Variant.accumulate 1 1 1 comms (fun _ => 3) (fun _ => 5) junkLocals).map
        fun u => u.localC 0) = some 15 := by
  refine ⟨by decide, by decide, by decide, by decide⟩

/-- C13 with `A = [3]`, `B = [5]`: the loop is one `shiftStep` and the gathered
matrix is `[3 * 5]`. -/
theorem C13_single_element_boundary_3_5 :
    ∃ comms,
      Variant.createCommunicators 1 (Variant.gridDims 1 1) (1 / 1) = some comms ∧
      (∀ s, Variant.shiftLoop 1 1 1 comms (1 / 1) s = Variant.shiftStep 1 1 1 comms s) ∧
      Variant.compute 1 1 (fun _ => 3) (fun _ => 5) junkLocals = some [intMul 3 5] := by
  obtain ⟨comms, hc, -, hloop, -, -, hcomp⟩ :=
    C13_single_element_boundary (fun _ => 3) (fun _ => 5) (unitAt 0) (unitAt 0) (unitAt 1)
      junkLocals
  exact ⟨comms, hc, hloop, hcomp⟩

theorem skewAdj_nat (m sm y x : Nat) (hm : 0 < m) (hsm : 0 < sm) (hx : x < m * sm) :
    Variant.skewAdj ((m * sm : Nat) : Int) (m : Int) ((y * (m * sm) + x : Nat) : Int)
      = { up := ((ringBwd sm y (x % sm) * (m * sm) + x : Nat) : Int)
          down := ((ringFwd sm y (x % sm) * (m * sm) + x : Nat) : Int)
          left := ((y * (m * sm) + ringBwd sm x (y % sm) : Nat) : Int)
          right := ((y * (m * sm) + ringFwd sm x (y % sm) : Nat) : Int) } := by
  have hdiv : m * sm / m = sm := Nat.mul_div_cancel_left sm hm
  obtain ⟨d1, d2⟩ := divmod_helper y x (m * sm) hx
  unfold Variant.skewAdj
  rw [tdiv_natCast, tdiv_natCast, tmod_natCast, tmod_natCast, tmod_natCast, hdiv, d1, d2]
  exact adj_at m sm y x (y % sm) (x % sm) hm hx (Nat.le_of_lt (Nat.mod_lt _ hsm))
    (Nat.le_of_lt (Nat.mod_lt _ hsm))

theorem stepAdj_nat (m sm y x : Nat) (hm : 0 < m) (hsm : 0 < sm) (hx : x < m * sm) :
    Variant.stepAdj ((m * sm : Nat) : Int) (m : Int) ((y * (m * sm) + x : Nat) : Int)
      = { up := ((ringBwd sm y 1 * (m * sm) + x : Nat) : Int)
          down := ((ringFwd sm y 1 * (m * sm) + x : Nat) : Int)
          left := ((y * (m * sm) + ringBwd sm x 1 : Nat) : Int)
          right := ((y * (m * sm) + ringFwd sm x 1 : Nat) : Int) } := by
  have h := adj_at m sm y x 1 1 hm hx hsm hsm
  simp only [Nat.cast_one] at h
  exact h

/-- C14: for `n, m >= 1` with `n % m = 0` and every plane rank `P` in
`[0, n*n)`: in the initial alignment (distances row mod `sm` and column mod
`sm`) the process `P` receives from names `P` as its destination,
`left_Q(right_P) = P` and `up_Q(down_P) = P`, and the process `P` sends to
names `P` as its source; in the loop step (distances 1) likewise,
`right_Q(left_P) = P` and `down_Q(up_P) = P`, and conversely.  All partners are
plane ranks, so each exchange is a permutation of the plane; and in the
program, on `n*n*m` processes, the exchanges of the alignment and of a loop
step complete from every state: no send is left unmatched. -/
theorem C14_ring_partners_consistent (n m P : Int) (hn : 1 ≤ n) (hm : 1 ≤ m)
    (hdiv : n % m = 0) (hP0 : 0 ≤ P) (hP : P < n * n) :
    (∀ Q ∈ [(Variant.skewAdj n m P).up, (Variant.skewAdj n m P).down,
            (Variant.skewAdj n m P).left, (Variant.skewAdj n m P).right,
            (Variant.stepAdj n m P).up, (Variant.stepAdj n m P).down,
            (Variant.stepAdj n m P).left, (Variant.stepAdj n m P).right],
        0 ≤ Q ∧ Q < n * n) ∧
    (Variant.skewAdj n m (Variant.skewAdj n m P).right).left = P ∧
    (Variant.skewAdj n m (Variant.skewAdj n m P).down).up = P ∧
    (Variant.skewAdj n m (Variant.skewAdj n m P).left).right = P ∧
    (Variant.skewAdj n m (Variant.skewAdj n m P).up).down = P ∧
    (Variant.stepAdj n m (Variant.stepAdj n m P).left).right = P ∧
    (Variant.stepAdj n m (Variant.stepAdj n m P).up).down = P ∧
    (Variant.stepAdj n m (Variant.stepAdj n m P).right).left = P ∧
    (Variant.stepAdj n m (Variant.stepAdj n m P).down).up = P ∧
    (∃ comms,
      Variant.createCommunicators (n.toNat * n.toNat * m.toNat)
        (Variant.gridDims n.toNat m.toNat) (n.toNat / m.toNat) = some comms ∧
      ∀ s : Locals,
        (Variant.skew (n.toNat * n.toNat * m.toNat) n.toNat m.toNat comms s).isSome = true ∧
        (Variant.shiftStep (n.toNat * n.toNat * m.toNat) n.toNat m.toNat comms s).isSome
          = true) := by
  lift n to ℕ using (by omega)
  lift m to ℕ using (by omega)
  lift P to ℕ using hP0 with idx
  simp only [Int.toNat_natCast]
  have hn' : 1 ≤ n := by exact_mod_cast hn
  have hm' : 0 < m := by exact_mod_cast hm
  have hdvd : n % m = 0 := by exact_mod_cast hdiv
  have hidx : idx < n * n := by exact_mod_cast hP
  obtain ⟨sm, hsm, rfl⟩ := exists_block_size n m hn' hdvd
  obtain ⟨y, x, hy, hx, rfl⟩ := block_cases (m * sm) (m * sm) idx hidx
  have hd : ∀ c, c % sm ≤ sm := fun c => Nat.le_of_lt (Nat.mod_lt _ hsm)
  -- the eight partners
  have fX := ringFwd_lt m sm x (y % sm) hx
  have bX := ringBwd_lt m sm x (y % sm) hx (hd y)
  have fY := ringFwd_lt m sm y (x % sm) hy
  have bY := ringBwd_lt m sm y (x % sm) hy (hd x)
  have fX1 := ringFwd_lt m sm x 1 hx
  have bX1 := ringBwd_lt m sm x 1 hx hsm
  have fY1 := ringFwd_lt m sm y 1 hy
  have bY1 := ringBwd_lt m sm y 1 hy hsm
  have rng : ∀ a b : Nat, a < m * sm → b < m * sm →
      (0 : Int) ≤ ((a * (m * sm) + b : Nat) : Int) ∧
      ((a * (m * sm) + b : Nat) : Int) < ((m * sm : Nat) : Int) * ((m * sm : Nat) : Int) := by
    intro a b ha hb
    refine ⟨Int.natCast_nonneg _, ?_⟩
    have := block_lt (m * sm) (m * sm) a b ha hb
    exact_mod_cast this
  rw [skewAdj_nat m sm y x hm' hsm hx, stepAdj_nat m sm y x hm' hsm hx]
  simp only
  refine ⟨?_, ?_, ?_, ?_, ?_, ?_, ?_, ?_, ?_, ?_⟩
  · intro Q hQ
    simp only [List.mem_cons, List.mem_singleton, List.not_mem_nil, or_false] at hQ
    rcases hQ with rfl | rfl | rfl | rfl | rfl | rfl | rfl | rfl
    · exact rng _ _ bY hx
    · exact rng _ _ fY hx
    · exact rng _ _ hy bX
    · exact rng _ _ hy fX
    · exact rng _ _ bY1 hx
    · exact rng _ _ fY1 hx
    · exact rng _ _ hy bX1
    · exact rng _ _ hy fX1
  · rw [skewAdj_nat m sm y _ hm' hsm fX]
    simp only [ringBwd_ringFwd m sm x _ hx (hd y)]
  · rw [skewAdj_nat m sm _ x hm' hsm hx]
    simp only [ringBwd_ringFwd m sm y _ hy (hd x)]
  · rw [skewAdj_nat m sm y _ hm' hsm bX]
    simp only [ringFwd_ringBwd m sm x _ hx (hd y)]
  · rw [skewAdj_nat m sm _ x hm' hsm hx]
    simp only [ringFwd_ringBwd m sm y _ hy (hd x)]
  · rw [stepAdj_nat m sm y _ hm' hsm bX1]
    simp only [ringFwd_ringBwd m sm x 1 hx hsm]
  · rw [stepAdj_nat m sm _ x hm' hsm hx]
    simp only [ringFwd_ringBwd m sm y 1 hy hsm]
  · rw [stepAdj_nat m sm y _ hm' hsm fX1]
    simp only [ringBwd_ringFwd m sm x 1 hx hsm]
  · rw [stepAdj_nat m sm _ x hm' hsm hx]
    simp only [ringBwd_ringFwd m sm y 1 hy hsm]
  · have hd' : m * sm / m = sm := Nat.mul_div_cancel_left sm hm'
    rw [hd']
    refine ⟨_, variant_createCommunicators m sm, ?_⟩
    intro s
    obtain ⟨t, ht, -⟩ := variant_skew m sm hm' hsm s _ (variant_createCommunicators m sm)
    obtain ⟨u, hu, -⟩ := variant_shiftStep m sm hm' hsm s _ (variant_createCommunicators m sm)
    rw [ht, hu]
    exact ⟨rfl, rfl⟩

/-- C14 at `n = 6`, `m = 2` (rings of size 3) and plane rank 8 (row 1,
column 2): in the alignment the process receives A from rank 6 and B from
rank 2, in the loop step A from rank 7 and B from rank 2, and each of them
names rank 8 as its destination. -/
theorem C14_ring_partners_consistent_6x6 :
    (1 : Int) ≤ 6 ∧ (1 : Int) ≤ 2 ∧ (6 : Int) % 2 = 0 ∧ (0 : Int) ≤ 8 ∧ (8 : Int) < 6 * 6 ∧
    (Variant.skewAdj 6 2 8).right = 6 ∧ (Variant.skewAdj 6 2 8).down = 2 ∧
    (Variant.stepAdj 6 2 8).left = 7 ∧ (Variant.stepAdj 6 2 8).up = 2 ∧
    (Variant.skewAdj 6 2 (Variant.skewAdj 6 2 8).right).left = 8 ∧
    (Variant.skewAdj 6 2 (Variant.skewAdj 6 2 8).down).up = 8 ∧
    (Variant.stepAdj 6 2 (Variant.stepAdj 6 2 8).left).right = 8 ∧
    (Variant.stepAdj 6 2 (Variant.stepAdj 6 2 8).up).down = 8 :=
  have h := C14_ring_partners_consistent 6 2 8 (by decide) (by decide) (by decide) (by decide)
    (by decide)
  ⟨by decide, by decide, by decide, by decide, by decide, by decide, by decide, by decide,
   by decide, h.2.1, h.2.2.1, h.2.2.2.2.2.1, h.2.2.2.2.2.2.1⟩

/-! ## Claims relating the two engines -/

theorem ringFwd_one (c d : Nat) : ringFwd 1 c d = c := by
  simp [ringFwd, Nat.mod_one]

theorem ringBwd_one (c d : Nat) : ringBwd 1 c d = c := by
  simp [ringBwd, Nat.mod_one]

/-- C15: for every `n >= 1` with `p = n*n*n` (depth `m = n`) the block engine
and the basic engine gather the same matrix.  In the block engine `n/m = 1`,
the ring neighbours of every plane rank are the rank itself, both in the
alignment and in the loop step, and the loop is one `shiftStep`.  At the end
of the loop of dnsVariant.c and after the multiplication of dns.c, the process
of every rank has the same Row, Column and Depth in both programs and holds in
`localC` the same value, the product `A[i*n+k] * B[k*n+j]` in `int`
arithmetic. -/
theorem C15_engines_agree (n : Nat) (hn : 1 ≤ n) (A B : Nat → Int) (initV initD : Locals) :
    Variant.compute (n * n * n) n A B initV = Dns.compute (n * n * n) n A B initD ∧
    (Dns.compute (n * n * n) n A B initD).isSome = true ∧
    n / n = 1 ∧
    (∀ P : Nat, P < n * n →
      Variant.skewAdj n n P = ⟨P, P, P, P⟩ ∧ Variant.stepAdj n n P = ⟨P, P, P, P⟩) ∧
    ∃ commsV u commsD s,
      Variant.createCommunicators (n * n * n) (Variant.gridDims n n) (n / n) = some commsV ∧
      Variant.accumulate (n * n * n) n n commsV A B initV = some u ∧
      (∀ t, Variant.shiftLoop (n * n * n) n n commsV (n / n) t
        = Variant.shiftStep (n * n * n) n n commsV t) ∧
      Dns.createCommunicators (n * n * n) (Dns.gridDims (n * n * n) n) = some commsD ∧
      Dns.distribute (n * n * n) commsD A B initD = some s ∧
      ∀ r, r < n * n * n →
        (commsV.coords r).get Variant.Y = (commsD.coords r).get Dns.X ∧
        (commsV.coords r).get Variant.X = (commsD.coords r).get Dns.Y ∧
        (commsV.coords r).get Variant.Z = (commsD.coords r).get Dns.Z ∧
        u.localC r
          = intMul (A ((commsD.coords r).get Dns.X * n + (commsD.coords r).get Dns.Z))
              (B ((commsD.coords r).get Dns.Z * n + (commsD.coords r).get Dns.Y)) ∧
        (Dns.multiplyReduce commsD s).localC r
          = intMul (A ((commsD.coords r).get Dns.X * n + (commsD.coords r).get Dns.Z))
              (B ((commsD.coords r).get Dns.Z * n + (commsD.coords r).get Dns.Y)) := by
  have hn0 : 0 < n := hn
  have hnn : n / n = 1 := Nat.div_self hn0
  have hV := variant_compute n 1 hn0 (by decide) A B initV
  have hD := dns_compute n n hn (Nat.le_refl n) A B initD
  have hcV := variant_createCommunicators n 1
  simp only [Nat.mul_one] at hV hcV
  obtain ⟨u, hu, -, hC⟩ := variant_accumulate n 1 hn0 (by decide) A B initV _
    (variant_createCommunicators n 1)
  simp only [Nat.mul_one] at hu hC
  obtain ⟨s, hs, -, -, hAB⟩ :=
    dns_distribute n n hn (Nat.le_refl n) A B initD _ (dns_createCommunicators n n hn0)
  refine ⟨?_, ?_, hnn, ?_, ?_⟩
  · rw [hV, hD]
  · rw [hD]; rfl
  · intro P hP
    obtain ⟨y, x, hy, hx, rfl⟩ := block_cases n n P hP
    have h1 := skewAdj_nat n 1 y x hn0 (by decide) (by rw [Nat.mul_one]; exact hx)
    have h2 := stepAdj_nat n 1 y x hn0 (by decide) (by rw [Nat.mul_one]; exact hx)
    simp only [Nat.mul_one, ringFwd_one, ringBwd_one] at h1 h2
    exact ⟨h1, h2⟩
  · rw [hnn]
    refine ⟨_, u, _, s, hcV, hu, ?_, dns_createCommunicators n n hn0, hs, ?_⟩
    · intro t
      exact shiftLoop_one _ _ _ _ t
    · intro r hr
      obtain ⟨z, y, x, hz, hy, hx, rfl⟩ := grid_cases' n n r hr
      obtain ⟨ha, hb⟩ := hAB z y x hz hy hx
      have hc := hC z y x hz hy hx
      simp only [Finset.sum_range_one, Nat.zero_add] at hc
      simp only [coords_rank n n z y x hy hx, Int3.get, Variant.X, Variant.Y, Variant.Z, Dns.X,
        Dns.Y, Dns.Z, Dns.multiplyReduce, ha, hb, hc]
      exact ⟨trivial, trivial, trivial, rfl, trivial⟩

/-- C15 at `n = 2`, eight processes. -/
theorem C15_engines_agree_2x2x2 :
    1 ≤ 2 ∧
    Variant.compute (2 * 2 * 2) 2 (identityPlusOnes 2) (unitAt 1) junkLocals
      = Dns.compute (2 * 2 * 2) 2 (identityPlusOnes 2) (unitAt 1) junkLocals ∧
    (Dns.compute (2 * 2 * 2) 2 (identityPlusOnes 2) (unitAt 1) junkLocals).isSome = true :=
  ⟨by decide,
   (C15_engines_agree 2 (by decide) (identityPlusOnes 2) (unitAt 1) junkLocals junkLocals).1,
   (C15_engines_agree 2 (by decide) (identityPlusOnes 2) (unitAt 1) junkLocals junkLocals).2.1⟩

/-! ## Claims on the roots of the broadcasts -/

theorem grid_rank_lt (n m z y x : Nat) (hz : z < m) (hy : y < n) (hx : x < n) :
    (z * n + y) * n + x < n * n * m := by
  calc (z * n + y) * n + x < (z * n + y) * n + n := by omega
    _ = (z * n + (y + 1)) * n := by ring
    _ ≤ (z * n + n) * n := Nat.mul_le_mul_right n (by omega)
    _ = n * n * (z + 1) := by ring
    _ ≤ n * n * m := Nat.mul_le_mul_left _ hz

theorem bcastValid_root_lt (p : Nat) (comm : Comm) (root : Nat → Nat)
    (h : bcastValid p comm root = true) (r : Nat) (hr : r < p) : root r < comm.size r := by
  unfold bcastValid at h
  rw [List.all_eq_true] at h
  have := h r (List.mem_range.mpr hr)
  simp only [Bool.and_eq_true, decide_eq_true_eq] at this
  exact this.1

/-- C16: in dns.c the root of the two axis-alignment broadcasts is the Depth
coordinate `k` of the process, which ranges over `[0, m)`, and the line groups
have `n` members: the root is a rank of the group for every process, and the
broadcasts are well formed, if and only if `m <= n`.  In dnsVariant.c with
`n % m = 0` every sub-block group has exactly `m` members, its member of rank
`s` being the process of the line at coordinate `c + s*(n/m)` where `c` is the
coordinate of the process modulo `n/m`, so the root `k` is a rank of the group
for every process and the broadcasts are well formed for every `m`. -/
theorem C16_broadcast_root_validity (n m : Nat) (hn : 1 ≤ n) (hm : 1 ≤ m) :
    (∃ comms,
      Dns.createCommunicators (n * n * m) (Dns.gridDims (n * n * m) n) = some comms ∧
      (∀ r, r < n * n * m → (comms.coords r).get Dns.Z < m ∧
        comms.commYsingleDim.size r = n ∧ comms.commXsingleDim.size r = n) ∧
      (∀ k, k < m → ∃ r, r < n * n * m ∧ (comms.coords r).get Dns.Z = k) ∧
      ((∀ r, r < n * n * m → (comms.coords r).get Dns.Z < comms.commYsingleDim.size r)
        ↔ m ≤ n) ∧
      ((∀ r, r < n * n * m → (comms.coords r).get Dns.Z < comms.commXsingleDim.size r)
        ↔ m ≤ n) ∧
      (bcastValid (n * n * m) comms.commYsingleDim (fun r => (comms.coords r).get Dns.Z) = true
        ↔ m ≤ n) ∧
      (bcastValid (n * n * m) comms.commXsingleDim (fun r => (comms.coords r).get Dns.Z) = true
        ↔ m ≤ n)) ∧
    (n % m = 0 → ∃ comms,
      Variant.createCommunicators (n * n * m) (Variant.gridDims n m) (n / m) = some comms ∧
      (∀ r, r < n * n * m →
        (comms.coords r).get Variant.Z < m ∧
        comms.commSubMatrixX.size r = m ∧ comms.commSubMatrixY.size r = m ∧
        (∀ s, s < m → comms.coords (comms.commSubMatrixX.member r s)
          = (comms.coords r).set Variant.X
              ((comms.coords r).get Variant.X % (n / m) + s * (n / m))) ∧
        (∀ s, s < m → comms.coords (comms.commSubMatrixY.member r s)
          = (comms.coords r).set Variant.Y
              ((comms.coords r).get Variant.Y % (n / m) + s * (n / m)))) ∧
      bcastValid (n * n * m) comms.commSubMatrixX (fun r => (comms.coords r).get Variant.Z)
        = true ∧
      bcastValid (n * n * m) comms.commSubMatrixY (fun r => (comms.coords r).get Variant.Z)
        = true) := by
  have hn0 : 0 < n := hn
  constructor
  · have hz : ∀ r, r < n * n * m → (MPI_Cart_coords ⟨m, n, n⟩ r).a0 < m := by
      intro r hr
      obtain ⟨z, y, x, hz, hy, hx, rfl⟩ := grid_cases' m n r hr
      rw [coords_rank m n z y x hy hx]
      exact hz
    have hall : (∀ r, r < n * n * m → (MPI_Cart_coords ⟨m, n, n⟩ r).a0 < n) ↔ m ≤ n := by
      constructor
      · intro h
        have hr := grid_rank_lt n m (m - 1) 0 0 (by omega) hn0 hn0
        have := h _ hr
        rw [coords_rank m n (m - 1) 0 0 hn0 hn0] at this
        simp only at this
        omega
      · intro hmn r hr
        exact lt_of_lt_of_le (hz r hr) hmn
    refine ⟨_, dns_createCommunicators n m hn0, ?_, ?_, ?_, ?_, ?_, ?_⟩
    · intro r hr
      simp only [Dns.Z, Int3.get, last_size, middle_size]
      exact ⟨hz r hr, trivial, trivial⟩
    · intro k hk
      refine ⟨(k * n + 0) * n + 0, grid_rank_lt n m k 0 0 hk hn0 hn0, ?_⟩
      simp only [coords_rank m n k 0 0 hn0 hn0, Dns.Z, Int3.get]
    · simpa only [Dns.Z, Int3.get, last_size] using hall
    · simpa only [Dns.Z, Int3.get, middle_size] using hall
    · constructor
      · intro h
        apply hall.mp
        intro r hr
        have := bcastValid_root_lt _ _ _ h r hr
        simpa only [Dns.Z, Int3.get, last_size] using this
      · intro hmn
        simpa only [Dns.Z] using last_bcastValid m n hmn
    · constructor
      · intro h
        apply hall.mp
        intro r hr
        have := bcastValid_root_lt _ _ _ h r hr
        simpa only [Dns.Z, Int3.get, middle_size] using this
      · intro hmn
        simpa only [Dns.Z] using middle_bcastValid m n hmn
  · intro hdiv
    obtain ⟨sm, hsm, rfl⟩ := exists_block_size n m hn hdiv
    have hd : m * sm / m = sm := Nat.mul_div_cancel_left sm hm
    rw [hd]
    refine ⟨_, variant_createCommunicators m sm, ?_, ?_, ?_⟩
    · intro r hr
      obtain ⟨z, y, x, hz, hy, hx, rfl⟩ := grid_cases' m (m * sm) r hr
      simp only [MPI_Comm_split, Variant.X, Variant.Y, Variant.Z,
        splitGroup_X m sm z y x hsm hy hx, splitGroup_Y m sm z y x hsm hy hx]
      simp only [List.length_map, List.length_range, coords_rank m (m * sm) z y x hy hx,
        Int3.get, Int3.set]
      refine ⟨hz, trivial, trivial, ?_, ?_⟩
      · intro s hs
        have hlt : x % sm + s * sm < m * sm := by
          rw [Nat.add_comm]; exact block_lt m sm s _ hs (Nat.mod_lt _ hsm)
        rw [getD_map_range _ m s hs, coords_rank m (m * sm) z y _ hy hlt]
      · intro s hs
        have hlt : y % sm + s * sm < m * sm := by
          rw [Nat.add_comm]; exact block_lt m sm s _ hs (Nat.mod_lt _ hsm)
        rw [getD_map_range _ m s hs, coords_rank m (m * sm) z _ x hlt hx]
    · simpa only [Variant.Z] using subX_bcastValid m sm hsm
    · simpa only [Variant.Z] using subY_bcastValid m sm hsm

/-- C16 at `n = 2`, `m = 3`, twelve processes: the root 2 of the processes
of the last layer is not a rank of the line groups of dns.c, which have two
members; at `n = 4`, `m = 2` the sub-block groups of dnsVariant.c have two
members. -/
theorem C16_broadcast_root_validity_instances :
    1 ≤ 2 ∧ 1 ≤ 3 ∧ 1 ≤ 4 ∧ 4 % 2 = 0 ∧
    (∃ comms,
      Dns.createCommunicators (2 * 2 * 3) (Dns.gridDims (2 * 2 * 3) 2) = some comms ∧
      ¬ bcastValid (2 * 2 * 3) comms.commYsingleDim (fun r => (comms.coords r).get Dns.Z)
        = true) ∧
    (∃ comms,
      Variant.createCommunicators (4 * 4 * 2) (Variant.gridDims 4 2) (4 / 2) = some comms ∧
      bcastValid (4 * 4 * 2) comms.commSubMatrixX (fun r => (comms.coords r).get Variant.Z)
        = true) := by
  refine ⟨by decide, by decide, by decide, by decide, ?_, ?_⟩
  · obtain ⟨comms, hc, -, -, -, -, hY, -⟩ :=
      (C16_broadcast_root_validity 2 3 (by decide) (by decide)).1
    exact ⟨comms, hc, fun h => absurd (hY.mp h) (by decide)⟩
  · obtain ⟨comms, hc, -, hX, -⟩ :=
      (C16_broadcast_root_validity 4 2 (by decide) (by decide)).2 (by decide)
    exact ⟨comms, hc, hX⟩

end DNSVariant
